import Mathlib

/-!
# pfbwt-f: marker codec and prefix-free parser

A shallow embedding of `src/include/marker.hpp` and `src/parse-f.hpp`.

Conventions of the embedding
* A `uint64_t` is a `Nat`; the complement `~m` is taken inside 64 bits, a
  left shift is reduced modulo `2^64`, and a `uint8_t` parameter narrows its
  argument modulo `2^8`.
* A byte (`char`) is a `Nat`; a `std::string` is a `List Nat`.
-/

namespace pfbwtf

/-! ## marker.hpp -/

def ALE_MASK : Nat := 0xF000000000000000
def SEQ_MASK : Nat := 0x0FFFF00000000000
def POS_MASK : Nat := 0x00000FFFFFFFFFFF
def SEQ_SHIFT : Nat := 46
def ALE_SHIFT : Nat := 60

/-- The operator `~` on a `uint64_t`. -/
def not64 (m : Nat) : Nat := (2 ^ 64 - 1) ^^^ m

/-- The implicit conversion of an integer argument to a `uint8_t` parameter. -/
def to_uint8 (i : Nat) : Nat := i % 2 ^ 8

/-- The operator `<<` on a `uint64_t`. -/
def shl64 (v s : Nat) : Nat := (v <<< s) % 2 ^ 64

def set_pos (x i : Nat) : Nat := (x &&& not64 POS_MASK) ||| (i &&& POS_MASK)

def get_pos (x : Nat) : Nat := x &&& POS_MASK

/-- The parameter `i` is declared `uint8_t`. -/
def set_seq (x i : Nat) : Nat :=
  shl64 (to_uint8 i &&& 0xFFFF) SEQ_SHIFT ||| (x &&& not64 SEQ_MASK)

def get_seq (x : Nat) : Nat := (x &&& SEQ_MASK) >>> SEQ_SHIFT

/-- The parameter `i` is declared `uint8_t`. -/
def set_allele (x i : Nat) : Nat :=
  shl64 (to_uint8 i &&& 0xF) ALE_SHIFT ||| (x &&& not64 ALE_MASK)

def get_allele (x : Nat) : Nat := (x &&& ALE_MASK) >>> ALE_SHIFT

def create_marker_t (p a : Nat) : Nat := set_pos (set_allele 0 a) p

/-! ## parse-f.hpp

Conventions of the embedding
* `freqs`, a `std::map<std::string, Freq>`, is a list of pairs kept in
  ascending key order; a `const char*` into a key is the key itself, read
  as a C string (up to its first NUL) by `strcmp` and by the conversion to
  `std::string`.
* A run ends in `Except.ok`, or in a `Fault`.
* A read past the end of a `std::string` or `std::vector` whose value only
  reaches an output array yields an indeterminate value, `none`; any other
  access past the end is `Fault.undefined`.
* Whether plain `char` is signed is the platform's choice. Where it is, a byte
  from 128 on is a negative `char`, the index `static_cast<size_t>(c)` is
  above `2^64 - 129`, and a read of the 256-entry nucleotide table at it is
  outside the table.
* An unsigned subtraction wraps; counters that only grow by one an item, and
  the sums of occurrence counts, are unbounded naturals.
-/

structure ParserParams where
  fname : String := ""
  w : Nat := 10
  p : Nat := 100
  get_sai : Bool := false
  get_da : Bool := false
  verbose : Bool := false
  trim_non_acgt : Bool := false
  non_acgt_to_a : Bool := false
  print_docs : Bool := false
  deriving DecidableEq, Repr

structure Freq where
  n : Nat
  r : Nat := 0
  deriving DecidableEq, Repr

structure ntab_entry where
  pos : Nat := 0
  l : Nat := 0
  deriving DecidableEq, Repr

def ntab_entry.clear (_e : ntab_entry) : ntab_entry := { pos := 0, l := 0 }

/-- How a run can end other than by returning. -/
inductive Fault where
  /-- The calls `die(...)` and `exit(1)`, and an exception nobody catches. -/
  | fatal
  /-- A failed `assert`. -/
  | abort
  /-- Undefined behaviour. -/
  | undefined
  deriving DecidableEq, Repr

/-- What the headers `utils.h`, `kseq.h` and `gsa/gsacak.h` and the platform fix
and the two source files only use: the terminator byte, the nucleotide table
(its entry for each of the 256 byte values), the build width (`uint_t` has 64
bits when `M64` is set, 32 otherwise), the suffix-array routine, and whether
plain `char` is signed. `sacak_int s n k` is the array the routine leaves in
`SA`, or `none` when it returns a negative depth. -/
structure Build where
  Dollar : Nat
  seq_nt4_table : Nat → Nat
  M64 : Bool
  sacak_int : List Nat → Nat → Nat → Option (List Nat)
  char_signed : Bool

/-- The template parameter `Hasher`: construction from the window size,
`update` and `hashvalue`. -/
structure Hasher where
  State : Type
  init : Nat → State
  update : State → Nat → State
  hashvalue : State → Nat

/-- One record read by `kseq_read`: its name and its residues. -/
structure Record where
  name : String
  seq : List Nat
  deriving DecidableEq, Repr

abbrev FreqMap := List (List Nat × Freq)

structure Parser where
  freqs : FreqMap := []
  parse : List (List Nat) := []
  occs : List Nat := []
  parse_ranks : List Nat := []
  last : List (Option Nat) := []
  sai : List Nat := []
  doc_starts : List Nat := []
  doc_names : List String := []
  ntab : List ntab_entry := []
  parse_size : Option Nat := none
  params : ParserParams
  deriving DecidableEq, Repr

/-- The subtraction of two `size_t` values. -/
def size_sub (a b : Nat) : Nat := if b ≤ a then a - b else a + 2 ^ 64 - b

/-- The number of bits of `UIntType`, that is of `uint_t`. -/
def uint_bits (B : Build) : Nat := if B.M64 then 64 else 32

/-- The subtraction of two `UIntType` values. -/
def uint_sub (B : Build) (a b : Nat) : Nat :=
  if b ≤ a then a - b else a + 2 ^ uint_bits B - b

/-- The conversion of a wider unsigned value to `UIntType`. -/
def to_uint (B : Build) (v : Nat) : Nat := v % 2 ^ uint_bits B

/-- The function `std::toupper` in the C locale. -/
def toupper (c : Nat) : Nat := if 97 ≤ c ∧ c ≤ 122 then c - 32 else c

/-- The conversion of a `const char*` to `std::string`: the bytes before the
first NUL. -/
def cstr (s : List Nat) : List Nat := s.takeWhile (fun b => b != 0)

/-- The function `strcmp` on two NUL-terminated buffers; the end of the list is
the terminating NUL of `std::string::data()`. -/
def strcmp : List Nat → List Nat → Int
  | [], [] => 0
  | [], b :: _ => if b = 0 then 0 else -1
  | a :: _, [] => if a = 0 then 0 else 1
  | a :: l, b :: r =>
    if a ≠ b then (a : Int) - (b : Int) else if a = 0 then 0 else strcmp l r

/-! ### The map `freqs` -/

/-- The member `std::map::insert`: a present key keeps its value; the flag tells
whether the pair was inserted. -/
def map_insert (k : List Nat) (v : Freq) : FreqMap → FreqMap × Bool
  | [] => ([(k, v)], true)
  | (k0, v0) :: m =>
    if k = k0 then ((k0, v0) :: m, false)
    else if k < k0 then ((k, v) :: (k0, v0) :: m, true)
    else ((k0, v0) :: (map_insert k v m).1, (map_insert k v m).2)

/-- The member `std::map::at`, `none` when it throws. -/
def map_at (m : FreqMap) (k : List Nat) : Option Freq :=
  (m.find? (fun e => e.1 == k)).map Prod.snd

/-- An assignment through the reference that `at` or an iterator gave. -/
def map_modify (k : List Nat) (f : Freq → Freq) : FreqMap → FreqMap
  | [] => []
  | (k0, v0) :: m => if k0 = k then (k0, f v0) :: m else (k0, v0) :: map_modify k f m

/-! ### Construction and the clearing members -/

def Parser.clear_dict (st : Parser) : Parser := { st with freqs := [] }

def Parser.clear_parse (st : Parser) : Parser := { st with parse := [] }

def Parser.clear_parse_ranks (st : Parser) : Parser := { st with parse_ranks := [] }

def Parser.clear_occ (st : Parser) : Parser := { st with occs := [] }

def Parser.clear_last (st : Parser) : Parser := { st with last := [] }

def Parser.clear (st : Parser) : Parser :=
  st.clear_dict.clear_parse.clear_parse_ranks.clear_last

def Parser.check_w (st : Parser) (x : Nat) : Except Fault Parser :=
  if x > 32 then .error .fatal else .ok st.clear

/-- The constructor `Parser(ParserParams p)`. -/
def Parser.new (p : ParserParams) : Except Fault Parser :=
  Parser.check_w { params := p } p.w

/-! ### parse_fasta -/

def process_phrase (st : Parser) (phrase : List Nat) : Parser :=
  let ret := map_insert phrase { n := 1 } st.freqs
  let freqs := if ret.2 then ret.1 else map_modify phrase (fun f => { f with n := f.n + 1 }) ret.1
  { st with
    freqs := freqs
    parse := st.parse ++ [phrase]
    last := st.last ++ [phrase[size_sub (size_sub phrase.length st.params.w) 1]?] }

/-- The local variables of `parse_fasta`. -/
structure Locals (H : Hasher) where
  n : Nat := 0
  nseqs : Nat := 0
  total_l : Nat := 0
  pos : Nat := 0
  c : Nat := 65
  pc : Nat := 65
  ne : ntab_entry := {}
  phrase : List Nat
  hf : H.State

/-- Lines 139 to 150: the character `c` enters the phrase buffer and the hash. -/
def append_char (H : Hasher) (st : Parser) (lo : Locals H) (c : Nat) :
    Except Fault (Parser × Locals H) :=
  let phrase := lo.phrase ++ [c]
  let hf := H.update lo.hf c
  if st.params.p = 0 then .error .undefined
  else if H.hashvalue hf % st.params.p = 0 then
    let st1 := process_phrase st phrase
    let st2 := if st.params.get_sai then { st1 with sai := st1.sai ++ [lo.pos + 1] } else st1
    .ok (st2, { lo with
      c := c, phrase := phrase.drop (size_sub phrase.length st.params.w), hf := hf
      n := lo.n + 1, pos := lo.pos + 1, pc := c })
  else
    .ok (st, { lo with c := c, phrase := phrase, hf := hf, n := lo.n + 1, pos := lo.pos + 1, pc := c })

/-- The read `seq_nt4_table[static_cast<size_t>(c)]` of a `char c`. Where `char` is signed
and the byte is 128 or more, the index is outside the table and the read, which decides a
branch, is undefined behaviour. -/
def nt4_at (B : Build) (c : Nat) : Except Fault Nat :=
  if B.char_signed ∧ 128 ≤ c then .error .undefined else .ok (B.seq_nt4_table c)

/-- The body of the loop over the residues of one record. With `trim_non_acgt` set the table
is read at `pc` and at `c`; with `non_acgt_to_a` set alone it is read at `c`; with neither
flag it is not read. -/
def parse_char (B : Build) (H : Hasher) (s : Parser × Locals H) (ch : Nat) :
    Except Fault (Parser × Locals H) :=
  let st := s.1
  let lo := s.2
  let c := toupper ch
  if st.params.trim_non_acgt then
    match nt4_at B lo.pc with
    | .error e => .error e
    | .ok x =>
      match nt4_at B c with
      | .error e => .error e
      | .ok y =>
        if y > 3 then
          let ne : ntab_entry :=
            if x < 4 then { l := 1, pos := uint_sub B lo.pos 1 }
            else { lo.ne with l := lo.ne.l + 1 }
          .ok (st, { lo with c := c, ne := ne, pc := c })
        else if y < 4 ∧ x > 3 then
          append_char H { st with ntab := st.ntab ++ [lo.ne] } { lo with ne := lo.ne.clear } c
        else append_char H st lo c
  else if st.params.non_acgt_to_a then
    match nt4_at B c with
    | .error e => .error e
    | .ok y => if y > 3 then append_char H st lo 65 else append_char H st lo c
  else append_char H st lo c

/-- The body of the loop over the records. After the residues, with `trim_non_acgt` set, the
table is read at the last `c`. -/
def parse_record (B : Build) (H : Hasher) (s : Parser × Locals H) (rec : Record) :
    Except Fault (Parser × Locals H) :=
  let st := s.1
  let lo := s.2
  let st1 :=
    if st.params.get_da then
      { st with doc_starts := st.doc_starts ++ [lo.pos], doc_names := st.doc_names ++ [rec.name] }
    else st
  if ¬ B.M64 ∧ lo.total_l + rec.seq.length > 0xFFFFFFFF then .error .fatal
  else
    let lo1 := if B.M64 then lo else { lo with total_l := lo.total_l + rec.seq.length }
    match rec.seq.foldlM (parse_char B H) (st1, lo1) with
    | .error e => .error e
    | .ok (st2, lo2) =>
      if st2.params.trim_non_acgt then
        match nt4_at B lo2.c with
        | .error e => .error e
        | .ok y =>
          let st3 := if y > 3 then { st2 with ntab := st2.ntab ++ [lo2.ne] } else st2
          .ok (st3, { lo2 with nseqs := lo2.nseqs + 1 })
      else .ok (st2, { lo2 with nseqs := lo2.nseqs + 1 })

/-- The member `parse_fasta` on the records the opened file holds; the result is
the parser and the returned count `n`. -/
def parse_fasta (B : Build) (H : Hasher) (st : Parser) (input : List Record) :
    Except Fault (Parser × Nat) :=
  let st0 := if st.params.get_sai then { st with sai := [] } else st
  let st1 := if st0.params.get_da then { st0 with doc_starts := [], doc_names := [] } else st0
  let lo0 : Locals H := { phrase := [B.Dollar], hf := H.init st.params.w }
  match input.foldlM (parse_record B H) (st1, lo0) with
  | .error e => .error e
  | .ok (st2, lo) =>
    let phrase := lo.phrase ++ List.replicate st2.params.w B.Dollar
    let st3 := process_phrase st2 phrase
    let st4 :=
      if st3.params.get_sai then { st3 with sai := st3.sai ++ [to_uint B (lo.pos + st3.params.w)] }
      else st3
    .ok (st4, lo.n)

/-! ### update_dict and generate_parse_ranks -/

/-- The loop of `update_dict` over the sorted pointers; `out` collects the calls
of `dict_fn`. -/
def update_dict_loop :
    List (List Nat) → Nat → FreqMap → List Nat → List (List Nat × Nat) →
      Except Fault (FreqMap × List Nat × List (List Nat × Nat))
  | [], _, freqs, occs, out => .ok (freqs, occs, out)
  | x :: xs, rank, freqs, occs, out =>
    match map_at freqs (cstr x) with
    | none => .error .fatal
    | some wf =>
      update_dict_loop xs (rank + 1) (map_modify (cstr x) (fun f => { f with r := rank }) freqs)
        (occs ++ [wf.n]) (out ++ [(x, wf.n)])

/-- The member `update_dict`; the second component lists the calls of `dict_fn`
in order. -/
def update_dict (st : Parser) : Except Fault (Parser × List (List Nat × Nat)) :=
  let dict_phrases := st.freqs.map Prod.fst
  let sorted := List.insertionSort (fun l r => strcmp l r ≤ 0) dict_phrases
  match update_dict_loop sorted 1 st.freqs [] [] with
  | .error e => .error e
  | .ok (freqs, occs, out) => .ok ({ st with freqs := freqs, occs := occs }, out)

/-- The loop of `generate_parse_ranks` over the parse. -/
def parse_ranks_loop (freqs : FreqMap) : List (List Nat) → List Nat → Except Fault (List Nat)
  | [], acc => .ok acc
  | phrase :: ps, acc =>
    match map_at freqs (cstr phrase) with
    | none => .error .fatal
    | some wf => parse_ranks_loop freqs ps (acc ++ [wf.r])

def generate_parse_ranks (st : Parser) : Except Fault Parser :=
  if st.freqs.length = 0 then .error .fatal
  else
    match parse_ranks_loop st.freqs st.parse [] with
    | .error e => .error e
    | .ok ranks => .ok { st with parse_ranks := ranks, parse_size := some ranks.length }

/-! ### bwt_of_parse -/

/-- What `bwt_of_parse` passes to `out_fn`, together with the local array `SA`
as it stands at that call. -/
structure BwtOut where
  bwlast : List (Option Nat)
  ilist : List Nat
  bwsai : List (Option Nat)
  SA : List Nat
  deriving DecidableEq, Repr

/-- A checked read `v[i]`. -/
def rd {α : Type} (v : List α) (i : Nat) : Except Fault α :=
  match v[i]? with
  | some a => .ok a
  | none => .error .undefined

/-- A checked write `v[i] = a`. -/
def wr {α : Type} (v : List α) (i : Nat) (a : α) : Except Fault (List α) :=
  if i < v.length then .ok (v.set i a) else .error .undefined

/-- The body of the loop that turns `SA` into the BWT in place, lines 310 to 325. -/
def bwt_row (st : Parser) (n : Nat) (s : List Nat × List (Option Nat) × List (Option Nat))
    (i : Nat) : Except Fault (List Nat × List (Option Nat) × List (Option Nat)) :=
  match rd s.1 i with
  | .error e => .error e
  | .ok sa =>
    if sa = 0 then
      .ok (s.1.set i 0, s.2.1 ++ [some 0],
        if st.params.get_sai then s.2.2 ++ [some 0] else s.2.2)
    else
      let bw : Option Nat :=
        if sa = 1 then (st.last[size_sub n 1]?).join else (st.last[sa - 2]?).join
      let bwsai := if st.params.get_sai then s.2.2 ++ [st.sai[sa - 1]?] else s.2.2
      match rd st.parse_ranks (sa - 1) with
      | .error e => .error e
      | .ok r => .ok (s.1.set i r, s.2.1 ++ [bw], bwsai)

/-- The body of the loop that fills `F`, line 329. -/
def F_row (occs : List Nat) (F : List Nat) (i : Nat) : Except Fault (List Nat) :=
  match rd F (i - 1), rd occs (i - 2) with
  | .ok a, .ok b => wr F i (a + b)
  | _, _ => .error .undefined

/-- Lines 326 to 330. -/
def build_F (occs : List Nat) : Except Fault (List Nat) :=
  match wr (List.replicate (occs.length + 1) 0) 1 1 with
  | .error e => .error e
  | .ok F => (List.range' 2 (occs.length - 1)).foldlM (F_row occs) F

/-- The body of the loop that fills `ilist`, line 335. -/
def ilist_row (SA : List Nat) (s : List Nat × List Nat) (i : Nat) :
    Except Fault (List Nat × List Nat) :=
  match rd SA i with
  | .error e => .error e
  | .ok c =>
    match rd s.1 c with
    | .error e => .error e
    | .ok f =>
      match wr s.2 f i with
      | .error e => .error e
      | .ok ilist => .ok (s.1.set c (f + 1), ilist)

/-- Lines 304 to 340, from the first assertion to the call of `out_fn`; `st`
holds the ranked parse with its sentinel. -/
def bwt_finish (st : Parser) (n : Nat) (SA0 : List Nat) : Except Fault BwtOut :=
  match rd SA0 0 with
  | .error e => .error e
  | .ok sa0 =>
    if sa0 ≠ n then .error .abort
    else
      match rd st.parse_ranks (size_sub n 1) with
      | .error e => .error e
      | .ok r0 =>
        let bwlast0 : List (Option Nat) := [(st.last[size_sub n 2]?).join]
        let bwsai0 : List (Option Nat) := if st.params.get_sai then [st.sai[size_sub n 1]?] else []
        match (List.range' 1 n).foldlM (bwt_row st n) (SA0.set 0 r0, bwlast0, bwsai0) with
        | .error e => .error e
        | .ok (SA, bwlast, bwsai) =>
          match build_F st.occs with
          | .error e => .error e
          | .ok F =>
            match rd F st.occs.length, rd st.occs (st.occs.length - 1) with
            | .ok a, .ok b =>
              if a + b ≠ n + 1 then .error .abort
              else
                match (List.range' 0 (n + 1)).foldlM (ilist_row SA)
                    (F, List.replicate (n + 1) 0) with
                | .error e => .error e
                | .ok (_, ilist) =>
                  match rd ilist 0 with
                  | .error e => .error e
                  | .ok i0 =>
                    if i0 ≠ 1 then .error .abort
                    else
                      match rd SA i0 with
                      | .error e => .error e
                      | .ok s0 =>
                        if s0 ≠ 0 then .error .abort
                        else .ok { bwlast := bwlast, ilist := ilist, bwsai := bwsai, SA := SA }
            | _, _ => .error .undefined

/-- Lines 280 to 340: the sentinel, the alphabet bound `k`, the suffix array, and
the rest. -/
def bwt_build (B : Build) (st : Parser) : Except Fault (Parser × BwtOut) :=
  match rd st.parse_ranks (size_sub st.parse_ranks.length 1) with
  | .error e => .error e
  | .ok e =>
    let n := if e ≠ 0 then st.parse_ranks.length else st.parse_ranks.length - 1
    let st1 := if e ≠ 0 then { st with parse_ranks := st.parse_ranks ++ [0] } else st
    let k := (st1.parse_ranks.take n).foldl (fun k r => if r > k then r else k) 0
    match B.sacak_int st1.parse_ranks (n + 1) (k + 1) with
    | none => .error .fatal
    | some SA0 =>
      match bwt_finish st1 n SA0 with
      | .error e => .error e
      | .ok out => .ok (st1, out)

/-- The member `bwt_of_parse`; the result is the parser and what `out_fn`
received. No result means `out_fn` was not called. -/
def bwt_of_parse (B : Build) (st : Parser) : Except Fault (Parser × BwtOut) :=
  match (if st.parse_ranks.length = 0 then generate_parse_ranks st else .ok st) with
  | .error e => .error e
  | .ok st1 =>
    if st1.parse_ranks.length = 1 then .error .fatal
    else if ¬ B.M64 ∧ st1.parse_ranks.length > 0x7FFFFFFE then .error .fatal
    else if B.M64 ∧ st1.parse_ranks.length > 0xFFFFFFFE then .error .fatal
    else bwt_build B st1

/-! ### Specification-side notions -/

/-- The preprocessed text: the residues upper-cased, then trimmed or substituted
as the flags say, a byte counting as outside `ACGT` when the table maps it above 3. -/
def preprocess (B : Build) (params : ParserParams) (residues : List Nat) : List Nat :=
  if params.trim_non_acgt then
    (residues.map toupper).filter (fun c => decide (B.seq_nt4_table c ≤ 3))
  else if params.non_acgt_to_a then
    (residues.map toupper).map (fun c => if B.seq_nt4_table c > 3 then 65 else c)
  else residues.map toupper

/-- The residues of all records in order. -/
def residues (input : List Record) : List Nat := (input.map Record.seq).flatten

/-- The phrases of a parse put back together: the first whole, every later one
without its leading `w` characters. -/
def reconstruct (w : Nat) : List (List Nat) → List Nat
  | [] => []
  | p :: ps => p ++ (ps.map (List.drop w)).flatten

/-- The hash state after the characters of `text` have been fed. -/
def hash_after (H : Hasher) (w : Nat) (text : List Nat) : H.State :=
  text.foldl H.update (H.init w)

/-- No boundary fires before `w` characters have been fed. -/
def NoEarlyBoundary (H : Hasher) (w p : Nat) (text : List Nat) : Prop :=
  ∀ k, k < w → 0 < k → k ≤ text.length → H.hashvalue (hash_after H w (text.take k)) % p ≠ 0

instance (H : Hasher) (w p : Nat) (text : List Nat) : Decidable (NoEarlyBoundary H w p text) := by
  unfold NoEarlyBoundary
  infer_instance

/-- The read of the nucleotide table that the run makes at the byte `c` is inside the table,
or is not made: neither flag asks for the table, or `char` is unsigned, or the byte is below
128. -/
def InTable (B : Build) (params : ParserParams) (c : Nat) : Prop :=
  (params.trim_non_acgt = false ∧ params.non_acgt_to_a = false) ∨ B.char_signed = false ∨ c < 128

instance (B : Build) (params : ParserParams) (c : Nat) : Decidable (InTable B params c) := by
  unfold InTable
  infer_instance

/-- The array `SA` is the suffix array of `s`: the start positions of all
suffixes, in strictly ascending order of the suffixes. -/
def IsSuffixArray (s SA : List Nat) : Prop :=
  SA.Perm (List.range s.length) ∧ SA.Pairwise (fun i j => s.drop i < s.drop j)

instance (s SA : List Nat) : Decidable (IsSuffixArray s SA) := by
  unfold IsSuffixArray
  infer_instance

/-! ### Concrete collaborators for the examples -/

/-- The usual nucleotide table: `A`, `C`, `G`, `T` in either case map to 0 to 3,
every other byte to 4. -/
def nt4 (c : Nat) : Nat :=
  if c = 65 ∨ c = 97 then 0
  else if c = 67 ∨ c = 99 then 1
  else if c = 71 ∨ c = 103 then 2
  else if c = 84 ∨ c = 116 then 3
  else 4

/-- A suffix array by insertion sort of the start positions. -/
def naive_sa (s : List Nat) (_n _k : Nat) : Option (List Nat) :=
  some (List.insertionSort (fun i j => s.drop i ≤ s.drop j) (List.range s.length))

/-- A wide build with terminator byte 2 and a signed `char`. -/
def demoBuild : Build :=
  { Dollar := 2, seq_nt4_table := nt4, M64 := true, sacak_int := naive_sa, char_signed := true }

/-- A hasher over the last `w` characters: the sum of the window once `w`
characters have been fed, and 1 before. The state is the window size and the
characters fed so far, latest first. -/
def demoHasher : Hasher :=
  { State := Nat × List Nat
    init := fun w => (w, [])
    update := fun s c => (s.1, c :: s.2)
    hashvalue := fun s => if s.2.length < s.1 then 1 else (s.2.take s.1).sum }

/-! ### Auxiliary notions of the proofs -/

/-- The body of the loop over the residues as it runs when every read of the nucleotide table
is inside the table: `parse_char` with the reads taken in range. -/
def parse_char_tab (B : Build) (H : Hasher) (s : Parser × Locals H) (ch : Nat) :
    Except Fault (Parser × Locals H) :=
  let st := s.1
  let lo := s.2
  let c := toupper ch
  if st.params.trim_non_acgt then
    let x := B.seq_nt4_table lo.pc
    let y := B.seq_nt4_table c
    if y > 3 then
      let ne : ntab_entry :=
        if x < 4 then { l := 1, pos := uint_sub B lo.pos 1 } else { lo.ne with l := lo.ne.l + 1 }
      .ok (st, { lo with c := c, ne := ne, pc := c })
    else if y < 4 ∧ x > 3 then
      append_char H { st with ntab := st.ntab ++ [lo.ne] } { lo with ne := lo.ne.clear } c
    else append_char H st lo c
  else if st.params.non_acgt_to_a ∧ B.seq_nt4_table c > 3 then append_char H st lo 65
  else append_char H st lo c

/-- The body of the loop over the records as it runs when every read of the nucleotide table
is inside the table. -/
def parse_record_tab (B : Build) (H : Hasher) (s : Parser × Locals H) (rec : Record) :
    Except Fault (Parser × Locals H) :=
  let st := s.1
  let lo := s.2
  let st1 :=
    if st.params.get_da then
      { st with doc_starts := st.doc_starts ++ [lo.pos], doc_names := st.doc_names ++ [rec.name] }
    else st
  if ¬ B.M64 ∧ lo.total_l + rec.seq.length > 0xFFFFFFFF then .error .fatal
  else
    let lo1 := if B.M64 then lo else { lo with total_l := lo.total_l + rec.seq.length }
    match rec.seq.foldlM (parse_char_tab B H) (st1, lo1) with
    | .error e => .error e
    | .ok (st2, lo2) =>
      let st3 :=
        if st2.params.trim_non_acgt ∧ B.seq_nt4_table lo2.c > 3 then
          { st2 with ntab := st2.ntab ++ [lo2.ne] }
        else st2
      .ok (st3, { lo2 with nseqs := lo2.nseqs + 1 })

/-- The run of `parse_fasta` as it goes when every read of the nucleotide table is inside the
table. -/
def parse_fasta_tab (B : Build) (H : Hasher) (st : Parser) (input : List Record) :
    Except Fault (Parser × Nat) :=
  let st0 := if st.params.get_sai then { st with sai := [] } else st
  let st1 := if st0.params.get_da then { st0 with doc_starts := [], doc_names := [] } else st0
  let lo0 : Locals H := { phrase := [B.Dollar], hf := H.init st.params.w }
  match input.foldlM (parse_record_tab B H) (st1, lo0) with
  | .error e => .error e
  | .ok (st2, lo) =>
    let phrase := lo.phrase ++ List.replicate st2.params.w B.Dollar
    let st3 := process_phrase st2 phrase
    let st4 :=
      if st3.params.get_sai then { st3 with sai := st3.sai ++ [to_uint B (lo.pos + st3.params.w)] }
      else st3
    .ok (st4, lo.n)

/-- The position of the first occurrence of `k` in `xs`, the length of `xs` when there is
none. -/
def index_in (k : List Nat) : List (List Nat) → Nat
  | [] => 0
  | x :: xs => if x = k then 0 else index_in k xs + 1

/-- The pointers `dict_phrases` of `update_dict` after `std::sort`. -/
def sorted_phrases (m : FreqMap) : List (List Nat) :=
  List.insertionSort (fun l r => strcmp l r ≤ 0) (m.map Prod.fst)

/-- The frequency stored for the key `k`, 0 when the key is absent. -/
def freq_of (m : FreqMap) (k : List Nat) : Nat :=
  match map_at m k with
  | some f => f.n
  | none => 0

/-- A parser holding the dictionary and the parse of `ACGTACGTACGT` for window 2 and
modulus 3, before ranking. -/
def demoParsed : Parser :=
  { params := { w := 2, p := 3 }
    freqs := [([2, 65, 67], { n := 1 }), ([65, 67, 71], { n := 3 }),
      ([67, 71, 84, 2, 2], { n := 1 }), ([67, 71, 84, 65, 67], { n := 2 })]
    parse := [[2, 65, 67], [65, 67, 71], [67, 71, 84, 65, 67], [65, 67, 71],
      [67, 71, 84, 65, 67], [65, 67, 71], [67, 71, 84, 2, 2]]
    last := [some 2, some 65, some 84, some 65, some 84, some 65, some 84] }

/-- The parser `demoParsed` after `update_dict`. -/
def demoDict : Parser :=
  { demoParsed with
    freqs := [([2, 65, 67], { n := 1, r := 1 }), ([65, 67, 71], { n := 3, r := 2 }),
      ([67, 71, 84, 2, 2], { n := 1, r := 3 }), ([67, 71, 84, 65, 67], { n := 2, r := 4 })]
    occs := [1, 3, 1, 2] }

/-- The parser `demoDict` after `generate_parse_ranks`. -/
def demoRanked : Parser :=
  { demoDict with parse_ranks := [1, 2, 4, 2, 4, 2, 3], parse_size := some 7 }

/-! ### Invariants of the parsing loop -/

/-- The state of the loop reads the table inside it: the parameters are `params`, and the
bytes `pc` and `c`, at which the next reads are made, are in range. -/
def LowInv (B : Build) (H : Hasher) (params : ParserParams) (s : Parser × Locals H) : Prop :=
  s.1.params = params ∧ InTable B params s.2.pc ∧ InTable B params s.2.c

/-- The two parsers agree on everything but `sai`, the document table and `ntab`. -/
def SameCore (st st1 : Parser) : Prop :=
  st1.freqs = st.freqs ∧ st1.parse = st.parse ∧ st1.last = st.last ∧ st1.params = st.params ∧
    st1.occs = st.occs ∧ st1.parse_ranks = st.parse_ranks ∧ st1.parse_size = st.parse_size

/-- What holds between the text `T` fed so far, the parse and the phrase buffer: the
parameters and the hash state; the reconstruction of the text; the length of the buffer; and the
shape of the phrases (long enough, made of the terminator and of text, only the first starting
with the terminator). -/
structure TextInv (B : Build) (H : Hasher) (params : ParserParams) (T : List Nat)
    (s : Parser × Locals H) : Prop where
  params_eq : s.1.params = params
  hf_eq : s.2.hf = hash_after H params.w T
  recon : reconstruct params.w (s.1.parse ++ [s.2.phrase]) = B.Dollar :: T
  first : s.1.parse = [] → s.2.phrase = B.Dollar :: T
  later : s.1.parse ≠ [] → params.w ≤ s.2.phrase.length
  lens : ∀ x ∈ s.1.parse, params.w + 1 ≤ x.length
  bytes : ∀ x ∈ s.1.parse, ∀ b ∈ x, b = B.Dollar ∨ b ∈ T
  buf : s.1.parse ≠ [] → ∀ b ∈ s.2.phrase, b ∈ T
  tails : ∀ x ∈ s.1.parse.tail, ∃ b tl, x = b :: tl ∧ b ∈ T
  heads : ∀ x ∈ s.1.parse.head?, ∃ tl, x = B.Dollar :: tl

/-- The dictionary counts the parse: the keys ascend, every key occurs in the parse as
often as its frequency says, at least once, and every phrase of the parse is a key. -/
def DictInv (st : Parser) : Prop :=
  (st.freqs.map Prod.fst).Pairwise (fun a b => a < b) ∧
  (∀ e ∈ st.freqs, e.2.n = st.parse.countP (fun x => decide (x = e.1)) ∧ 1 ≤ e.2.n) ∧
  (∀ x ∈ st.parse, x ∈ st.freqs.map Prod.fst)

/-- The rank stored for the key `k`, 0 when the key is absent. -/
def rank_of (m : FreqMap) (k : List Nat) : Nat :=
  match map_at m k with
  | some f => f.r
  | none => 0

/-- The array `F` once its entries `1, ..., m` are filled: entry `j` holds one plus the sum of
the first `j - 1` occurrence counts. -/
def F_after (occs : List Nat) (m : Nat) : List Nat :=
  (List.range (occs.length + 1)).map
    (fun j => if j = 0 then 0 else if j ≤ m then 1 + (occs.take (j - 1)).sum else 0)

/-- The symbol that precedes position `j` of `T` cyclically, as the loop of `bwt_of_parse`
computes it: the sentinel 0 for `j = 0`, else `T[j-1]`. -/
def bw_sym (T : List Nat) (j : Nat) : Nat := if j = 0 then 0 else T.getD (j - 1) 0

/-- The array `SA` once rows `0, ..., i-1` hold their BWT symbol. -/
def SA_at (T SA0 : List Nat) (i : Nat) : List Nat :=
  (List.range SA0.length).map
    (fun j => if j < i then bw_sym T (SA0.getD j 0) else SA0.getD j 0)

/-- What holds of the cursors `F` and of `ilist` before row `i` of the fill loop, for the
symbols `BW` and the initial cursors `F0`: every cursor has advanced by the number of earlier
rows with its symbol, and from row 2 on `ilist[0]` is 1. -/
structure IlistInv (BW F0 : List Nat) (i : Nat) (s : List Nat × List Nat) : Prop where
  F_len : s.1.length = F0.length
  il_len : s.2.length = BW.length
  cursor : ∀ c (h : c < F0.length) (h1 : c < s.1.length),
    s.1[c] = F0[c] + (BW.take i).countP (fun x => decide (x = c))
  head : 2 ≤ i → s.2[0]? = some 1

/-- What holds while no boundary has fired: the parse and the dictionary are empty and the
buffer is the terminator followed by the text `T` fed so far. -/
structure QuietInv (B : Build) (H : Hasher) (params : ParserParams) (T : List Nat)
    (s : Parser × Locals H) : Prop where
  params_eq : s.1.params = params
  hf_eq : s.2.hf = hash_after H params.w T
  parse_nil : s.1.parse = []
  freqs_nil : s.1.freqs = []
  phrase_eq : s.2.phrase = B.Dollar :: T

/-- The last array is read off the parse: entry `i` is what `process_phrase` read in phrase
`i`, at the offset `size() - w - 1` computed in `size_t`. -/
def LastInv (st : Parser) : Prop :=
  st.last = st.parse.map (fun x => x[size_sub (size_sub x.length st.params.w) 1]?)

/-- The part of the state of `parse_fasta` that the run table depends on: the table, the text
position, the previous and the current character, and the run being counted. -/
structure RunView where
  ntab : List ntab_entry
  pos : Nat
  pc : Nat
  c : Nat
  ne : ntab_entry
  deriving DecidableEq, Repr

/-- The view of a state of `parse_fasta`. -/
def run_view {H : Hasher} (s : Parser × Locals H) : RunView :=
  { ntab := s.1.ntab, pos := s.2.pos, pc := s.2.pc, c := s.2.c, ne := s.2.ne }

/-- What lines 118 to 150 do to the view for one residue when `trim_non_acgt` is set. -/
def run_char (B : Build) (v : RunView) (ch : Nat) : RunView :=
  if B.seq_nt4_table (toupper ch) > 3 then
    { v with
      c := toupper ch, pc := toupper ch
      ne := if B.seq_nt4_table v.pc < 4 then { l := 1, pos := uint_sub B v.pos 1 }
        else { v.ne with l := v.ne.l + 1 } }
  else if B.seq_nt4_table v.pc > 3 then
    { ntab := v.ntab ++ [v.ne], pos := v.pos + 1, pc := toupper ch, c := toupper ch,
      ne := v.ne.clear }
  else { v with pos := v.pos + 1, pc := toupper ch, c := toupper ch }

/-- What one record does to the view when `trim_non_acgt` is set: its residues, then the push
of line 154. -/
def run_record (B : Build) (v : RunView) (r : Record) : RunView :=
  if B.seq_nt4_table (r.seq.foldl (run_char B) v).c > 3 then
    { r.seq.foldl (run_char B) v with
      ntab := (r.seq.foldl (run_char B) v).ntab ++ [(r.seq.foldl (run_char B) v).ne] }
  else r.seq.foldl (run_char B) v

/-- The number of boundaries that fire while `text` is fed: the prefixes of `text`, from
length 1 on, whose hash is 0 modulo `p`. -/
def boundaries (H : Hasher) (w p : Nat) (text : List Nat) : Nat :=
  (List.range text.length).countP
    (fun k => decide (H.hashvalue (hash_after H w (text.take (k + 1))) % p = 0))

/-- The entry that lines 311 to 321 push to `bwlast` for a row whose suffix starts at `j`. -/
def bwlast_sym (st : Parser) (n j : Nat) : Option Nat :=
  if j = 0 then some 0
  else if j = 1 then (st.last[size_sub n 1]?).join
  else (st.last[j - 2]?).join

/-- The parser `demoRanked` as `bwt_of_parse` leaves it, the sentinel appended. -/
def demoSentinel : Parser :=
  { demoRanked with parse_ranks := [1, 2, 4, 2, 4, 2, 3, 0] }

/-- What `bwt_of_parse` hands to its sink on `demoRanked`, and the array `SA` at that
moment. -/
def demoBwt : BwtOut :=
  { bwlast := [some 65, some 0, some 65, some 65, some 84, some 84, some 84, some 2]
    ilist := [1, 4, 5, 6, 7, 0, 2, 3]
    bwsai := []
    SA := [3, 0, 4, 4, 1, 2, 2, 2] }

/-- The slot of `ilist` that the fill loop gives row `i`: the initial cursor of the row's
symbol, advanced once for every earlier row with the same symbol. -/
def lf_pos (BW F0 : List Nat) (i : Nat) : Nat :=
  F0.getD (BW.getD i 0) 0 + (BW.take i).countP (fun x => decide (x = BW.getD i 0))

/-- Row `a` comes before row `b` in bucket order: its symbol is smaller, or the symbols agree
and `a` is the earlier row. -/
def row_lt (BW : List Nat) (a b : Nat) : Prop :=
  BW.getD a 0 < BW.getD b 0 ∨ (BW.getD a 0 = BW.getD b 0 ∧ a < b)

/-- What holds of the cursors and of `ilist` before row `i` of the fill loop: every cursor has
advanced by the number of earlier rows with its symbol, and every earlier row sits in its
slot. -/
structure FillInv (BW F0 : List Nat) (i : Nat) (s : List Nat × List Nat) : Prop where
  F_len : s.1.length = F0.length
  il_len : s.2.length = BW.length
  cursor : ∀ c, c < F0.length →
    s.1.getD c 0 = F0.getD c 0 + (BW.take i).countP (fun x => decide (x = c))
  placed : ∀ r, r < i → s.2[lf_pos BW F0 r]? = some r

/-- The row of the value `v` in `SA`: the position of its first occurrence, the length of `SA`
when there is none. -/
def row_of (v : Nat) : List Nat → Nat
  | [] => 0
  | x :: xs => if x = v then 0 else row_of v xs + 1

/-- The text position before `v`, cyclically in a text of `n + 1` symbols. -/
def pred_pos (n v : Nat) : Nat := if v = 0 then n else v - 1

/-! ## Theorems -/

/-! ### Bit-level facts about the masks -/

theorem testBit_POS_MASK (j : Nat) : POS_MASK.testBit j = decide (j < 44) := by
  have h : POS_MASK = 2 ^ 44 - 1 := by decide
  rw [h, Nat.testBit_two_pow_sub_one]

theorem testBit_SEQ_MASK (j : Nat) :
    SEQ_MASK.testBit j = decide (44 ≤ j ∧ j < 60) := by
  have h : SEQ_MASK = (2 ^ 16 - 1) <<< 44 := by decide
  rw [h, Nat.testBit_shiftLeft, Nat.testBit_two_pow_sub_one, Bool.eq_iff_iff]
  simp only [Bool.and_eq_true, decide_eq_true_eq, ge_iff_le]
  omega

theorem testBit_ALE_MASK (j : Nat) :
    ALE_MASK.testBit j = decide (60 ≤ j ∧ j < 64) := by
  have h : ALE_MASK = (2 ^ 4 - 1) <<< 60 := by decide
  rw [h, Nat.testBit_shiftLeft, Nat.testBit_two_pow_sub_one, Bool.eq_iff_iff]
  simp only [Bool.and_eq_true, decide_eq_true_eq, ge_iff_le]
  omega

theorem testBit_not64 (m j : Nat) :
    (not64 m).testBit j = (decide (j < 64) ^^ m.testBit j) := by
  unfold not64
  rw [Nat.testBit_xor, Nat.testBit_two_pow_sub_one]

theorem testBit_not_POS_MASK (j : Nat) :
    (not64 POS_MASK).testBit j = decide (44 ≤ j ∧ j < 64) := by
  rw [testBit_not64, testBit_POS_MASK, Bool.eq_iff_iff]
  simp only [bne_iff_ne, ne_eq, decide_eq_decide, decide_eq_true_eq]
  omega

theorem testBit_not_SEQ_MASK (j : Nat) :
    (not64 SEQ_MASK).testBit j = decide (j < 44 ∨ (60 ≤ j ∧ j < 64)) := by
  rw [testBit_not64, testBit_SEQ_MASK, Bool.eq_iff_iff]
  simp only [bne_iff_ne, ne_eq, decide_eq_decide, decide_eq_true_eq]
  omega

theorem testBit_not_ALE_MASK (j : Nat) :
    (not64 ALE_MASK).testBit j = decide (j < 60) := by
  rw [testBit_not64, testBit_ALE_MASK, Bool.eq_iff_iff]
  simp only [bne_iff_ne, ne_eq, decide_eq_decide, decide_eq_true_eq]
  omega

theorem testBit_shl64 (v s j : Nat) :
    (shl64 v s).testBit j = (decide (j < 64) && (decide (s ≤ j) && v.testBit (j - s))) := by
  unfold shl64
  rw [Nat.testBit_mod_two_pow, Nat.testBit_shiftLeft]

theorem testBit_to_uint8 (i j : Nat) :
    (to_uint8 i).testBit j = (decide (j < 8) && i.testBit j) := by
  unfold to_uint8
  rw [Nat.testBit_mod_two_pow]

theorem testBit_lit_FFFF (j : Nat) : (0xFFFF : Nat).testBit j = decide (j < 16) := by
  have h : (0xFFFF : Nat) = 2 ^ 16 - 1 := by decide
  rw [h, Nat.testBit_two_pow_sub_one]

theorem testBit_lit_F (j : Nat) : (0xF : Nat).testBit j = decide (j < 4) := by
  have h : (0xF : Nat) = 2 ^ 4 - 1 := by decide
  rw [h, Nat.testBit_two_pow_sub_one]

theorem testBit_mod_pow (i k j : Nat) :
    (i % 2 ^ k).testBit j = (decide (j < k) && i.testBit j) := by
  rw [Nat.testBit_mod_two_pow]

theorem get_pos_set_pos (x i : Nat) : get_pos (set_pos x i) = i % 2 ^ 44 := by
  apply Nat.eq_of_testBit_eq
  intro j
  simp only [get_pos, set_pos, Nat.testBit_shiftRight, Nat.testBit_and, Nat.testBit_or,
    testBit_not_POS_MASK, testBit_not_SEQ_MASK, testBit_not_ALE_MASK, testBit_POS_MASK,
    testBit_SEQ_MASK, testBit_ALE_MASK, testBit_shl64, testBit_to_uint8, testBit_lit_FFFF,
    testBit_lit_F, testBit_mod_pow, Nat.add_sub_cancel_left]
  rw [Bool.eq_iff_iff]
  simp only [Bool.and_eq_true, Bool.or_eq_true, decide_eq_true_eq]
  by_cases hx : x.testBit (j) = true <;> by_cases hi : i.testBit (j) = true <;>
    simp [hx, hi] <;> omega

theorem get_seq_set_pos (x i : Nat) : get_seq (set_pos x i) = get_seq x := by
  apply Nat.eq_of_testBit_eq
  intro j
  simp only [get_seq, set_pos, SEQ_SHIFT, Nat.testBit_shiftRight, Nat.testBit_and, Nat.testBit_or,
    testBit_not_POS_MASK, testBit_not_SEQ_MASK, testBit_not_ALE_MASK, testBit_POS_MASK,
    testBit_SEQ_MASK, testBit_ALE_MASK, testBit_shl64, testBit_to_uint8, testBit_lit_FFFF,
    testBit_lit_F, testBit_mod_pow, Nat.add_sub_cancel_left]
  rw [Bool.eq_iff_iff]
  simp only [Bool.and_eq_true, Bool.or_eq_true, decide_eq_true_eq]
  by_cases hx : x.testBit (46 + j) = true <;> by_cases hi : i.testBit (46 + j) = true <;>
    simp [hx, hi] <;> omega

theorem get_allele_set_pos (x i : Nat) : get_allele (set_pos x i) = get_allele x := by
  apply Nat.eq_of_testBit_eq
  intro j
  simp only [get_allele, set_pos, ALE_SHIFT, Nat.testBit_shiftRight, Nat.testBit_and, Nat.testBit_or,
    testBit_not_POS_MASK, testBit_not_SEQ_MASK, testBit_not_ALE_MASK, testBit_POS_MASK,
    testBit_SEQ_MASK, testBit_ALE_MASK, testBit_shl64, testBit_to_uint8, testBit_lit_FFFF,
    testBit_lit_F, testBit_mod_pow, Nat.add_sub_cancel_left]
  rw [Bool.eq_iff_iff]
  simp only [Bool.and_eq_true, Bool.or_eq_true, decide_eq_true_eq]
  by_cases hx : x.testBit (60 + j) = true <;> by_cases hi : i.testBit (60 + j) = true <;>
    simp [hx, hi] <;> omega

theorem get_pos_set_seq (x i : Nat) : get_pos (set_seq x i) = get_pos x := by
  apply Nat.eq_of_testBit_eq
  intro j
  simp only [get_pos, set_seq, SEQ_SHIFT, Nat.testBit_shiftRight, Nat.testBit_and, Nat.testBit_or,
    testBit_not_POS_MASK, testBit_not_SEQ_MASK, testBit_not_ALE_MASK, testBit_POS_MASK,
    testBit_SEQ_MASK, testBit_ALE_MASK, testBit_shl64, testBit_to_uint8, testBit_lit_FFFF,
    testBit_lit_F, testBit_mod_pow, Nat.add_sub_cancel_left]
  rw [Bool.eq_iff_iff]
  simp only [Bool.and_eq_true, Bool.or_eq_true, decide_eq_true_eq]
  by_cases hx : x.testBit (j) = true <;> by_cases hi : i.testBit (j - 46) = true <;>
    simp [hx, hi] <;> omega

theorem get_allele_set_seq (x i : Nat) : get_allele (set_seq x i) = get_allele x := by
  apply Nat.eq_of_testBit_eq
  intro j
  simp only [get_allele, set_seq, SEQ_SHIFT, ALE_SHIFT, Nat.testBit_shiftRight, Nat.testBit_and, Nat.testBit_or,
    testBit_not_POS_MASK, testBit_not_SEQ_MASK, testBit_not_ALE_MASK, testBit_POS_MASK,
    testBit_SEQ_MASK, testBit_ALE_MASK, testBit_shl64, testBit_to_uint8, testBit_lit_FFFF,
    testBit_lit_F, testBit_mod_pow, Nat.add_sub_cancel_left]
  rw [Bool.eq_iff_iff]
  simp only [Bool.and_eq_true, Bool.or_eq_true, decide_eq_true_eq]
  by_cases hx : x.testBit (60 + j) = true <;> by_cases hi : i.testBit (60 + j - 46) = true <;>
    simp [hx, hi] <;> omega

theorem get_pos_set_allele (x i : Nat) : get_pos (set_allele x i) = get_pos x := by
  apply Nat.eq_of_testBit_eq
  intro j
  simp only [get_pos, set_allele, ALE_SHIFT, Nat.testBit_shiftRight, Nat.testBit_and, Nat.testBit_or,
    testBit_not_POS_MASK, testBit_not_SEQ_MASK, testBit_not_ALE_MASK, testBit_POS_MASK,
    testBit_SEQ_MASK, testBit_ALE_MASK, testBit_shl64, testBit_to_uint8, testBit_lit_FFFF,
    testBit_lit_F, testBit_mod_pow, Nat.add_sub_cancel_left]
  rw [Bool.eq_iff_iff]
  simp only [Bool.and_eq_true, Bool.or_eq_true, decide_eq_true_eq]
  by_cases hx : x.testBit (j) = true <;> by_cases hi : i.testBit (j - 60) = true <;>
    simp [hx, hi] <;> omega

theorem get_seq_set_allele (x i : Nat) : get_seq (set_allele x i) = get_seq x := by
  apply Nat.eq_of_testBit_eq
  intro j
  simp only [get_seq, set_allele, SEQ_SHIFT, ALE_SHIFT, Nat.testBit_shiftRight, Nat.testBit_and, Nat.testBit_or,
    testBit_not_POS_MASK, testBit_not_SEQ_MASK, testBit_not_ALE_MASK, testBit_POS_MASK,
    testBit_SEQ_MASK, testBit_ALE_MASK, testBit_shl64, testBit_to_uint8, testBit_lit_FFFF,
    testBit_lit_F, testBit_mod_pow, Nat.add_sub_cancel_left]
  rw [Bool.eq_iff_iff]
  simp only [Bool.and_eq_true, Bool.or_eq_true, decide_eq_true_eq]
  by_cases hx : x.testBit (46 + j) = true <;> by_cases hi : i.testBit (46 + j - 60) = true <;>
    simp [hx, hi] <;> omega

theorem get_allele_set_allele (x i : Nat) : get_allele (set_allele x i) = i % 2 ^ 4 := by
  apply Nat.eq_of_testBit_eq
  intro j
  simp only [get_allele, set_allele, ALE_SHIFT, Nat.testBit_shiftRight, Nat.testBit_and, Nat.testBit_or,
    testBit_not_POS_MASK, testBit_not_SEQ_MASK, testBit_not_ALE_MASK, testBit_POS_MASK,
    testBit_SEQ_MASK, testBit_ALE_MASK, testBit_shl64, testBit_to_uint8, testBit_lit_FFFF,
    testBit_lit_F, testBit_mod_pow, Nat.add_sub_cancel_left]
  rw [Bool.eq_iff_iff]
  simp only [Bool.and_eq_true, Bool.or_eq_true, decide_eq_true_eq]
  by_cases hx : x.testBit (60 + j) = true <;> by_cases hi : i.testBit (j) = true <;>
    simp [hx, hi] <;> omega

theorem get_seq_set_seq (x i : Nat) : get_seq (set_seq x i) = i % 2 ^ 8 := by
  apply Nat.eq_of_testBit_eq
  intro j
  simp only [get_seq, set_seq, SEQ_SHIFT, Nat.testBit_shiftRight, Nat.testBit_and, Nat.testBit_or,
    testBit_not_POS_MASK, testBit_not_SEQ_MASK, testBit_not_ALE_MASK, testBit_POS_MASK,
    testBit_SEQ_MASK, testBit_ALE_MASK, testBit_shl64, testBit_to_uint8, testBit_lit_FFFF,
    testBit_lit_F, testBit_mod_pow, Nat.add_sub_cancel_left]
  rw [Bool.eq_iff_iff]
  simp only [Bool.and_eq_true, Bool.or_eq_true, decide_eq_true_eq]
  by_cases hx : x.testBit (46 + j) = true <;> by_cases hi : i.testBit (j) = true <;>
    simp [hx, hi] <;> omega

/-! ### The claims on the marker codec -/

/-- C1: for every position `p` in `[0, 2^44-1]` and every allele `a` in `[0, 15]`, the
position and the allele read back from `create_marker_t p a` are `p` and `a`. -/
theorem marker_round_trip (p a : Nat) (hp : p ≤ 2 ^ 44 - 1) (ha : a ≤ 15) :
    get_pos (create_marker_t p a) = p ∧ get_allele (create_marker_t p a) = a := by
  unfold create_marker_t
  rw [get_pos_set_pos, get_allele_set_pos, get_allele_set_allele]
  constructor
  · exact Nat.mod_eq_of_lt (by omega)
  · exact Nat.mod_eq_of_lt (by omega)

/-- The round trip at the largest position and the largest allele. -/
theorem marker_round_trip_witness :
    (2 ^ 44 - 1 ≤ 2 ^ 44 - 1 ∧ 15 ≤ 15) ∧
      get_pos (create_marker_t (2 ^ 44 - 1) 15) = 2 ^ 44 - 1 ∧
      get_allele (create_marker_t (2 ^ 44 - 1) 15) = 15 :=
  ⟨⟨Nat.le_refl _, Nat.le_refl _⟩, marker_round_trip (2 ^ 44 - 1) 15 (Nat.le_refl _) (Nat.le_refl _)⟩

/-- C2: the sequence id 256, which 16 bits hold, does not survive `set_seq`: the
`uint8_t` parameter narrows it to 0 and `get_seq` returns 0. -/
theorem set_seq_loses_256 : get_seq (set_seq 0 256) = 0 ∧ get_seq (set_seq 0 256) ≠ 256 := by
  rw [get_seq_set_seq]
  decide

/-- C3: each setter leaves the two other fields as they were. -/
theorem setters_frame (x i : Nat) :
    (get_seq (set_pos x i) = get_seq x ∧ get_allele (set_pos x i) = get_allele x) ∧
    (get_pos (set_seq x i) = get_pos x ∧ get_allele (set_seq x i) = get_allele x) ∧
    (get_pos (set_allele x i) = get_pos x ∧ get_seq (set_allele x i) = get_seq x) :=
  ⟨⟨get_seq_set_pos x i, get_allele_set_pos x i⟩,
   ⟨get_pos_set_seq x i, get_allele_set_seq x i⟩,
   ⟨get_pos_set_allele x i, get_seq_set_allele x i⟩⟩

/-- C4: out-of-range marker inputs are truncated by masking, for every `x`, `i`, `a` and
`j` (64-bit or not): the position is kept modulo `2^44` by `set_pos` and by
`create_marker_t`, the allele modulo 16 by `create_marker_t` and by `set_allele`. -/
theorem marker_truncation (x i a j : Nat) :
    get_pos (set_pos x i) = i % 2 ^ 44 ∧
    get_pos (create_marker_t i a) = i % 2 ^ 44 ∧
    get_allele (create_marker_t i a) = a % 16 ∧
    get_allele (set_allele x j) = j % 16 := by
  unfold create_marker_t
  rw [get_pos_set_pos, get_pos_set_pos, get_allele_set_pos, get_allele_set_allele,
    get_allele_set_allele]
  exact ⟨rfl, rfl, rfl, rfl⟩

/-! ### The reads of the nucleotide table

The lemmas on the parsing loop below are stated on `parse_fasta_tab`, the loop with every read
of the table inside it. This section carries them over to `parse_fasta`: a run that returns
returns what `parse_fasta_tab` returns, and the two agree on every input on which no read
leaves the table. -/

theorem nt4_at_ok (B : Build) (c : Nat) (h : B.char_signed = false ∨ c < 128) :
    nt4_at B c = .ok (B.seq_nt4_table c) := by
  unfold nt4_at
  rw [if_neg]
  rintro ⟨h1, h2⟩
  rcases h with h | h
  · rw [h] at h1
    exact absurd h1 (by decide)
  · omega

theorem nt4_at_inv (B : Build) (c y : Nat) (h : nt4_at B c = .ok y) : y = B.seq_nt4_table c := by
  unfold nt4_at at h
  split at h
  · cases h
  · cases h
    rfl

theorem nt4_at_error (B : Build) (c : Nat) (e : Fault) (h : nt4_at B c = .error e) :
    B.char_signed = true ∧ 128 ≤ c := by
  unfold nt4_at at h
  split at h
  · assumption
  · cases h

theorem toupper_le (c : Nat) : toupper c ≤ c := by
  unfold toupper
  split <;> omega

theorem InTable.toupper {B : Build} {params : ParserParams} {c : Nat} (h : InTable B params c) :
    InTable B params (toupper c) := by
  rcases h with h | h | h
  · exact Or.inl h
  · exact Or.inr (Or.inl h)
  · exact Or.inr (Or.inr (lt_of_le_of_lt (toupper_le c) h))

theorem parse_char_refines (B : Build) (H : Hasher) (s s1 : Parser × Locals H) (ch : Nat)
    (h : parse_char B H s ch = .ok s1) : parse_char_tab B H s ch = .ok s1 := by
  unfold parse_char at h
  unfold parse_char_tab
  simp only at h ⊢
  by_cases ht : s.1.params.trim_non_acgt = true
  · rw [if_pos ht] at h ⊢
    cases hx : nt4_at B s.2.pc with
    | error e => rw [hx] at h; cases h
    | ok x =>
      cases hy : nt4_at B (toupper ch) with
      | error e => rw [hx, hy] at h; cases h
      | ok y =>
        rw [hx, hy] at h
        simp only at h
        rw [← nt4_at_inv B _ _ hx, ← nt4_at_inv B _ _ hy]
        exact h
  · rw [if_neg ht] at h ⊢
    by_cases ha : s.1.params.non_acgt_to_a = true
    · rw [if_pos ha] at h
      cases hy : nt4_at B (toupper ch) with
      | error e => rw [hy] at h; cases h
      | ok y =>
        rw [hy] at h
        simp only at h
        rw [← nt4_at_inv B _ _ hy]
        by_cases h3 : y > 3
        · rw [if_pos h3] at h
          rw [if_pos ⟨ha, h3⟩]
          exact h
        · rw [if_neg h3] at h
          rw [if_neg (fun hh => h3 hh.2)]
          exact h
    · rw [if_neg ha] at h
      rw [if_neg (fun hh => ha hh.1)]
      exact h

theorem parse_char_eq_tab (B : Build) (H : Hasher) (s : Parser × Locals H) (ch : Nat)
    (hpc : InTable B s.1.params s.2.pc) (hch : InTable B s.1.params ch) :
    parse_char B H s ch = parse_char_tab B H s ch := by
  have hup := hch.toupper
  unfold parse_char parse_char_tab
  simp only
  by_cases ht : s.1.params.trim_non_acgt = true
  · rw [if_pos ht, if_pos ht]
    have h1 : nt4_at B s.2.pc = .ok (B.seq_nt4_table s.2.pc) := by
      apply nt4_at_ok
      rcases hpc with h | h | h
      · rw [ht] at h
        exact absurd h.1 (by decide)
      · exact Or.inl h
      · exact Or.inr h
    have h2 : nt4_at B (toupper ch) = .ok (B.seq_nt4_table (toupper ch)) := by
      apply nt4_at_ok
      rcases hup with h | h | h
      · rw [ht] at h
        exact absurd h.1 (by decide)
      · exact Or.inl h
      · exact Or.inr h
    rw [h1, h2]
  · rw [if_neg ht, if_neg ht]
    by_cases ha : s.1.params.non_acgt_to_a = true
    · rw [if_pos ha]
      have h2 : nt4_at B (toupper ch) = .ok (B.seq_nt4_table (toupper ch)) := by
        apply nt4_at_ok
        rcases hup with h | h | h
        · rw [ha] at h
          exact absurd h.2 (by decide)
        · exact Or.inl h
        · exact Or.inr h
      rw [h2]
      simp only
      by_cases h3 : B.seq_nt4_table (toupper ch) > 3
      · rw [if_pos h3, if_pos ⟨ha, h3⟩]
      · rw [if_neg h3, if_neg (fun hh => h3 hh.2)]
    · rw [if_neg ha, if_neg (fun hh => ha hh.1)]

theorem append_char_low (B : Build) (H : Hasher) (params : ParserParams) (st : Parser)
    (lo : Locals H) (c : Nat) (s1 : Parser × Locals H) (hp : st.params = params)
    (hc : InTable B params c) (h : append_char H st lo c = .ok s1) : LowInv B H params s1 := by
  unfold append_char at h
  simp only at h
  split at h
  · cases h
  · split at h
    · cases h
      refine ⟨?_, hc, hc⟩
      by_cases hs : st.params.get_sai = true
      · simp only [hs, if_true]
        exact hp
      · simp only [hs]
        exact hp
    · cases h
      exact ⟨hp, hc, hc⟩

theorem parse_char_tab_low (B : Build) (H : Hasher) (params : ParserParams)
    (s s1 : Parser × Locals H) (ch : Nat) (hs : LowInv B H params s) (hch : InTable B params ch)
    (h : parse_char_tab B H s ch = .ok s1) : LowInv B H params s1 := by
  have hup := hch.toupper
  have h65 : InTable B params 65 := Or.inr (Or.inr (by decide))
  unfold parse_char_tab at h
  simp only at h
  split at h
  · split at h
    · cases h
      exact ⟨hs.1, hup, hup⟩
    · split at h
      · refine append_char_low B H params _ _ _ s1 ?_ hup h
        exact hs.1
      · exact append_char_low B H params _ _ _ s1 hs.1 hup h
  · split at h
    · exact append_char_low B H params _ _ _ s1 hs.1 h65 h
    · exact append_char_low B H params _ _ _ s1 hs.1 hup h

theorem foldlM_refines {α β : Type} (f g : β → α → Except Fault β)
    (hstep : ∀ b a b1, f b a = .ok b1 → g b a = .ok b1) :
    ∀ (l : List α) (b b1 : β), l.foldlM f b = .ok b1 → l.foldlM g b = .ok b1 := by
  intro l
  induction l with
  | nil =>
    intro b b1 h
    exact h
  | cons a l ih =>
    intro b b1 h
    rw [List.foldlM_cons] at h ⊢
    cases hfa : f b a with
    | error e => rw [hfa] at h; cases h
    | ok b2 =>
      rw [hfa] at h
      rw [hstep b a b2 hfa]
      exact ih b2 b1 h

theorem foldlM_agree {α β : Type} (f g : β → α → Except Fault β) (I : β → Prop) (C : α → Prop)
    (heq : ∀ b a, I b → C a → f b a = g b a)
    (hkeep : ∀ b a b1, I b → C a → g b a = .ok b1 → I b1) :
    ∀ (l : List α) (b : β), I b → (∀ a ∈ l, C a) →
      l.foldlM f b = l.foldlM g b ∧ ∀ b1, l.foldlM g b = .ok b1 → I b1 := by
  intro l
  induction l with
  | nil =>
    intro b hb _
    refine ⟨rfl, ?_⟩
    intro b1 h
    cases h
    exact hb
  | cons a l ih =>
    intro b hb hl
    have ha : C a := hl a (List.mem_cons_self _ _)
    rw [List.foldlM_cons, List.foldlM_cons, heq b a hb ha]
    cases hga : g b a with
    | error e =>
      refine ⟨rfl, ?_⟩
      intro b1 h
      cases h
    | ok b2 =>
      exact ih b2 (hkeep b a b2 hb ha hga) (fun x hx => hl x (List.mem_cons_of_mem _ hx))

theorem parse_record_refines (B : Build) (H : Hasher) (s s1 : Parser × Locals H) (r : Record)
    (h : parse_record B H s r = .ok s1) : parse_record_tab B H s r = .ok s1 := by
  unfold parse_record at h
  unfold parse_record_tab
  simp only at h ⊢
  split at h
  · cases h
  · rename_i hg
    rw [if_neg hg]
    cases hf : r.seq.foldlM (parse_char B H)
        (if s.1.params.get_da = true then
          { s.1 with doc_starts := s.1.doc_starts ++ [s.2.pos],
                     doc_names := s.1.doc_names ++ [r.name] }
          else s.1,
          if B.M64 = true then s.2 else { s.2 with total_l := s.2.total_l + r.seq.length }) with
    | error e => rw [hf] at h; cases h
    | ok s2 =>
      rw [hf] at h
      rw [foldlM_refines _ _ (fun b a b1 => parse_char_refines B H b b1 a) _ _ _ hf]
      simp only at h ⊢
      by_cases ht : s2.1.params.trim_non_acgt = true
      · rw [if_pos ht] at h
        cases hy : nt4_at B s2.2.c with
        | error e => rw [hy] at h; cases h
        | ok y =>
          rw [hy] at h
          simp only at h
          rw [← nt4_at_inv B _ _ hy]
          by_cases h3 : y > 3
          · rw [if_pos h3] at h
            rw [if_pos ⟨ht, h3⟩]
            exact h
          · rw [if_neg h3] at h
            rw [if_neg (fun hh => h3 hh.2)]
            exact h
      · rw [if_neg ht] at h
        rw [if_neg (fun hh => ht hh.1)]
        exact h

/-- A run of `parse_fasta` that returns returns what the run with every read inside the table
returns. -/
theorem parse_fasta_refines (B : Build) (H : Hasher) (st : Parser) (input : List Record)
    (r : Parser × Nat) (h : parse_fasta B H st input = .ok r) :
    parse_fasta_tab B H st input = .ok r := by
  unfold parse_fasta at h
  unfold parse_fasta_tab
  simp only at h ⊢
  cases hf : input.foldlM (parse_record B H)
      (if (if st.params.get_sai = true then { st with sai := [] } else st).params.get_da
          = true then
        { (if st.params.get_sai = true then { st with sai := [] } else st) with
          doc_starts := [], doc_names := [] }
        else (if st.params.get_sai = true then { st with sai := [] } else st),
        ({ phrase := [B.Dollar], hf := H.init st.params.w } : Locals H)) with
  | error e => rw [hf] at h; cases h
  | ok s2 =>
    rw [hf] at h
    rw [foldlM_refines _ _ (fun b a b1 => parse_record_refines B H b b1 a) _ _ _ hf]
    exact h

theorem parse_chars_eq_tab (B : Build) (H : Hasher) (params : ParserParams)
    (cs : List Nat) (s : Parser × Locals H) (hs : LowInv B H params s)
    (hcs : ∀ c ∈ cs, InTable B params c) :
    cs.foldlM (parse_char B H) s = cs.foldlM (parse_char_tab B H) s ∧
      ∀ s1, cs.foldlM (parse_char_tab B H) s = .ok s1 → LowInv B H params s1 :=
  foldlM_agree (parse_char B H) (parse_char_tab B H) (LowInv B H params) (InTable B params)
    (fun b a hb ha => parse_char_eq_tab B H b a (hb.1 ▸ hb.2.1) (hb.1 ▸ ha))
    (fun b a b1 hb ha h => parse_char_tab_low B H params b b1 a hb ha h) cs s hs hcs

theorem parse_record_eq_tab (B : Build) (H : Hasher) (params : ParserParams)
    (s : Parser × Locals H) (r : Record) (hs : LowInv B H params s)
    (hr : ∀ c ∈ r.seq, InTable B params c) :
    parse_record B H s r = parse_record_tab B H s r ∧
      ∀ s1, parse_record_tab B H s r = .ok s1 → LowInv B H params s1 := by
  have key : ∀ s0 : Parser × Locals H, LowInv B H params s0 →
      (match r.seq.foldlM (parse_char B H) s0 with
        | .error e => (.error e : Except Fault (Parser × Locals H))
        | .ok (st2, lo2) =>
          if st2.params.trim_non_acgt = true then
            match nt4_at B lo2.c with
            | .error e => .error e
            | .ok y =>
              .ok (if y > 3 then { st2 with ntab := st2.ntab ++ [lo2.ne] } else st2,
                { lo2 with nseqs := lo2.nseqs + 1 })
          else .ok (st2, { lo2 with nseqs := lo2.nseqs + 1 })) =
      (match r.seq.foldlM (parse_char_tab B H) s0 with
        | .error e => (.error e : Except Fault (Parser × Locals H))
        | .ok (st2, lo2) =>
          .ok (if st2.params.trim_non_acgt = true ∧ B.seq_nt4_table lo2.c > 3 then
              { st2 with ntab := st2.ntab ++ [lo2.ne] } else st2,
            { lo2 with nseqs := lo2.nseqs + 1 })) ∧
      ∀ s1, (match r.seq.foldlM (parse_char_tab B H) s0 with
        | .error e => (.error e : Except Fault (Parser × Locals H))
        | .ok (st2, lo2) =>
          .ok (if st2.params.trim_non_acgt = true ∧ B.seq_nt4_table lo2.c > 3 then
              { st2 with ntab := st2.ntab ++ [lo2.ne] } else st2,
            { lo2 with nseqs := lo2.nseqs + 1 })) = .ok s1 → LowInv B H params s1 := by
    intro s0 hs0
    obtain ⟨e1, e2⟩ := parse_chars_eq_tab B H params r.seq s0 hs0 hr
    rw [e1]
    cases hf : r.seq.foldlM (parse_char_tab B H) s0 with
    | error e =>
      refine ⟨rfl, ?_⟩
      intro s1 h
      cases h
    | ok s2 =>
      obtain ⟨st2, lo2⟩ := s2
      have hl := e2 _ hf
      simp only
      by_cases ht : st2.params.trim_non_acgt = true
      · have hy : nt4_at B lo2.c = .ok (B.seq_nt4_table lo2.c) := by
          apply nt4_at_ok
          rcases hl.2.2 with h | h | h
          · have h1 := hl.1
            simp only at h1
            rw [← h1, ht] at h
            exact absurd h.1 (by decide)
          · exact Or.inl h
          · exact Or.inr h
        rw [if_pos ht, hy]
        simp only
        by_cases h3 : B.seq_nt4_table lo2.c > 3
        · rw [if_pos h3, if_pos ⟨ht, h3⟩]
          refine ⟨rfl, ?_⟩
          intro s1 h
          cases h
          exact ⟨hl.1, hl.2.1, hl.2.2⟩
        · rw [if_neg h3, if_neg (fun hh => h3 hh.2)]
          refine ⟨rfl, ?_⟩
          intro s1 h
          cases h
          exact hl
      · rw [if_neg ht, if_neg (fun hh => ht hh.1)]
        refine ⟨rfl, ?_⟩
        intro s1 h
        cases h
        exact hl
  unfold parse_record parse_record_tab
  simp only
  by_cases hg : ¬ B.M64 = true ∧ s.2.total_l + r.seq.length > 0xFFFFFFFF
  · rw [if_pos hg, if_pos hg]
    refine ⟨rfl, ?_⟩
    intro s1 h
    cases h
  · rw [if_neg hg, if_neg hg]
    refine key _ ?_
    refine ⟨?_, ?_, ?_⟩
    · by_cases hd : s.1.params.get_da = true
      · simp only [hd, if_true]
        exact hs.1
      · simp only [hd]
        exact hs.1
    · by_cases hm : B.M64 = true
      · simp only [hm, if_true]
        exact hs.2.1
      · simp only [hm]
        exact hs.2.1
    · by_cases hm : B.M64 = true
      · simp only [hm, if_true]
        exact hs.2.2
      · simp only [hm]
        exact hs.2.2

/-- On an input all of whose reads of the table are inside it, `parse_fasta` is the run with
every read inside the table. -/
theorem parse_fasta_eq_tab (B : Build) (H : Hasher) (st : Parser) (input : List Record)
    (hin : ∀ c ∈ residues input, InTable B st.params c) :
    parse_fasta B H st input = parse_fasta_tab B H st input := by
  have hrec : ∀ r ∈ input, ∀ c ∈ r.seq, InTable B st.params c := by
    intro r hr c hc
    apply hin
    unfold residues
    exact List.mem_flatten.mpr ⟨r.seq, List.mem_map.mpr ⟨r, hr, rfl⟩, hc⟩
  have h65 : InTable B st.params 65 := Or.inr (Or.inr (by decide))
  have key := foldlM_agree (parse_record B H) (parse_record_tab B H) (LowInv B H st.params)
    (fun r => ∀ c ∈ r.seq, InTable B st.params c)
    (fun b a hb ha => (parse_record_eq_tab B H st.params b a hb ha).1)
    (fun b a b1 hb ha h => (parse_record_eq_tab B H st.params b a hb ha).2 b1 h) input
  unfold parse_fasta parse_fasta_tab
  simp only
  rw [(key _ ?_ hrec).1]
  refine ⟨?_, h65, h65⟩
  by_cases hs : st.params.get_sai = true <;> by_cases hd : st.params.get_da = true <;>
    simp [hs, hd]

/-! ### parse_fasta_tab: the parse and the text -/

theorem SameCore.refl (st : Parser) : SameCore st st := ⟨rfl, rfl, rfl, rfl, rfl, rfl, rfl⟩

theorem TextInv.congr {B : Build} {H : Hasher} {params : ParserParams} {T : List Nat}
    {st : Parser} {lo : Locals H} (h : TextInv B H params T (st, lo)) (st1 : Parser)
    (lo1 : Locals H) (h1 : st1.parse = st.parse) (h2 : st1.params = st.params)
    (h3 : lo1.phrase = lo.phrase) (h4 : lo1.hf = lo.hf) : TextInv B H params T (st1, lo1) := by
  obtain ⟨a, b, c, d, e, f, g, i, j, k⟩ := h
  simp only at a b c d e f g i j k
  constructor
  · show st1.params = params
    rw [h2]; exact a
  · show lo1.hf = _
    rw [h4]; exact b
  · show reconstruct params.w (st1.parse ++ [lo1.phrase]) = _
    rw [h1, h3]; exact c
  · show st1.parse = [] → lo1.phrase = _
    rw [h1, h3]; exact d
  · show st1.parse ≠ [] → _ ≤ lo1.phrase.length
    rw [h1, h3]; exact e
  · show ∀ x ∈ st1.parse, _
    rw [h1]; exact f
  · show ∀ x ∈ st1.parse, _
    rw [h1]; exact g
  · show st1.parse ≠ [] → ∀ b ∈ lo1.phrase, _
    rw [h1, h3]; exact i
  · show ∀ x ∈ st1.parse.tail, _
    rw [h1]; exact j
  · show ∀ x ∈ st1.parse.head?, _
    rw [h1]; exact k

theorem size_sub_of_le {a b : Nat} (h : b ≤ a) : size_sub a b = a - b := by
  simp [size_sub, h]

theorem reconstruct_single (w : Nat) (x : List Nat) : reconstruct w [x] = x := by
  simp [reconstruct]

theorem reconstruct_snoc (w : Nat) (ps : List (List Nat)) (x : List Nat) (h : ps ≠ []) :
    reconstruct w (ps ++ [x]) = reconstruct w ps ++ x.drop w := by
  cases ps with
  | nil => exact absurd rfl h
  | cons p ps => simp [reconstruct, List.append_assoc]

theorem hash_after_snoc (H : Hasher) (w : Nat) (T : List Nat) (c : Nat) :
    hash_after H w (T ++ [c]) = H.update (hash_after H w T) c := by
  simp [hash_after, List.foldl_append]

theorem process_phrase_params (st : Parser) (x : List Nat) :
    (process_phrase st x).params = st.params := rfl

theorem process_phrase_parse (st : Parser) (x : List Nat) :
    (process_phrase st x).parse = st.parse ++ [x] := rfl

theorem tail_snoc {α : Type} (ps : List α) (x : α) (h : ps ≠ []) :
    (ps ++ [x]).tail = ps.tail ++ [x] := by
  cases ps with
  | nil => exact absurd rfl h
  | cons p ps => rfl

theorem head?_snoc {α : Type} (ps : List α) (x : α) (h : ps ≠ []) :
    (ps ++ [x]).head? = ps.head? := by
  cases ps with
  | nil => exact absurd rfl h
  | cons p ps => rfl

/-- The invariant is kept when the current buffer, extended by `c`, fires a boundary. -/
theorem TextInv.fire {B : Build} {H : Hasher} {params : ParserParams} {T : List Nat}
    {st : Parser} {lo : Locals H} (hinv : TextInv B H params T (st, lo)) (c : Nat)
    (hw1 : 1 ≤ params.w) (hsafe : params.w ≤ (T ++ [c]).length) (st1 : Parser) (lo1 : Locals H)
    (h1 : st1.parse = st.parse ++ [lo.phrase ++ [c]]) (h2 : st1.params = st.params)
    (h3 : lo1.phrase =
      (lo.phrase ++ [c]).drop (size_sub (lo.phrase ++ [c]).length params.w))
    (h4 : lo1.hf = H.update lo.hf c) : TextInv B H params (T ++ [c]) (st1, lo1) := by
  obtain ⟨hpar, hhf, hrec, hfirst, hlater, hlens, hbytes, hbuf, htails, hheads⟩ := hinv
  simp only at hpar hhf hrec hfirst hlater hlens hbytes hbuf htails hheads
  have hlen1 : params.w + 1 ≤ (lo.phrase ++ [c]).length := by
    by_cases h : st.parse = []
    · rw [hfirst h]; simp at hsafe ⊢; omega
    · have := hlater h; simp; omega
  have hrec1 : reconstruct params.w (st.parse ++ [lo.phrase ++ [c]]) = B.Dollar :: (T ++ [c]) := by
    by_cases h : st.parse = []
    · rw [h, List.nil_append, reconstruct_single, hfirst h]; rfl
    · rw [reconstruct_snoc _ _ _ h, List.drop_append_of_le_length (hlater h), ← List.append_assoc,
        ← reconstruct_snoc _ _ _ h, hrec]; rfl
  have hdrop : ((lo.phrase ++ [c]).drop (size_sub (lo.phrase ++ [c]).length params.w)).length
      = params.w := by
    rw [size_sub_of_le (by omega), List.length_drop]; omega
  have hxbytes : ∀ b ∈ lo.phrase ++ [c], b = B.Dollar ∨ b ∈ T ++ [c] := by
    intro b hb
    by_cases h : st.parse = []
    · rw [hfirst h] at hb
      simp only [List.cons_append, List.mem_cons] at hb
      rcases hb with hb | hb
      · exact Or.inl hb
      · exact Or.inr hb
    · right
      rcases List.mem_append.mp hb with hb | hb
      · exact List.mem_append_left _ (hbuf h b hb)
      · exact List.mem_append_right _ hb
  constructor
  · show st1.params = params
    rw [h2]; exact hpar
  · show lo1.hf = _
    rw [h4, hash_after_snoc, hhf]
  · show reconstruct params.w (st1.parse ++ [lo1.phrase]) = _
    rw [h1, h3, reconstruct_snoc _ _ _ (by simp), List.drop_of_length_le (Nat.le_of_eq hdrop),
      List.append_nil, hrec1]
  · show st1.parse = [] → _
    intro h; rw [h1] at h; simp at h
  · show st1.parse ≠ [] → _ ≤ lo1.phrase.length
    intro _; rw [h3]; exact Nat.le_of_eq hdrop.symm
  · show ∀ x ∈ st1.parse, _
    rw [h1]
    intro x hx
    rcases List.mem_append.mp hx with hx | hx
    · exact hlens x hx
    · rw [List.mem_singleton.mp hx]; exact hlen1
  · show ∀ x ∈ st1.parse, _
    rw [h1]
    intro x hx b hb
    rcases List.mem_append.mp hx with hx | hx
    · rcases hbytes x hx b hb with h | h
      · exact Or.inl h
      · exact Or.inr (List.mem_append_left _ h)
    · rw [List.mem_singleton.mp hx] at hb; exact hxbytes b hb
  · show st1.parse ≠ [] → ∀ b ∈ lo1.phrase, _
    intro _ b hb
    rw [h3] at hb
    by_cases h : st.parse = []
    · rw [hfirst h, size_sub_of_le (by rw [hfirst h] at hlen1; omega)] at hb
      have hpos : 0 < (B.Dollar :: T ++ [c]).length - params.w := by
        simp at hsafe ⊢; omega
      obtain ⟨m, hm⟩ := Nat.exists_eq_succ_of_ne_zero (Nat.pos_iff_ne_zero.mp hpos)
      rw [hm] at hb
      simp only [List.cons_append, Nat.succ_eq_add_one, List.drop_succ_cons] at hb
      exact List.mem_of_mem_drop hb
    · rcases hxbytes b (List.mem_of_mem_drop hb) with h5 | h5
      · rcases List.mem_append.mp (List.mem_of_mem_drop hb) with h6 | h6
        · exact List.mem_append_left _ (hbuf h b h6)
        · exact List.mem_append_right _ h6
      · exact h5
  · show ∀ x ∈ st1.parse.tail, _
    rw [h1]
    by_cases h : st.parse = []
    · rw [h]; intro x hx; simp at hx
    · rw [tail_snoc _ _ h]
      intro x hx
      rcases List.mem_append.mp hx with hx | hx
      · obtain ⟨b, tl, h5, h6⟩ := htails x hx
        exact ⟨b, tl, h5, List.mem_append_left _ h6⟩
      · rw [List.mem_singleton.mp hx]
        have hl := hlater h
        cases hp : lo.phrase with
        | nil => rw [hp] at hl; simp at hl; omega
        | cons b tl =>
          exact ⟨b, tl ++ [c], rfl, List.mem_append_left _ (hbuf h b (by rw [hp]; simp))⟩
  · show ∀ x ∈ st1.parse.head?, _
    rw [h1]
    by_cases h : st.parse = []
    · rw [h]
      intro x hx
      simp only [List.nil_append, List.head?_cons, Option.mem_def, Option.some.injEq] at hx
      rw [← hx, hfirst h]
      exact ⟨T ++ [c], rfl⟩
    · rw [head?_snoc _ _ h]; exact hheads

/-- The invariant is kept when `c` enters the buffer without a boundary. -/
theorem TextInv.grow {B : Build} {H : Hasher} {params : ParserParams} {T : List Nat}
    {st : Parser} {lo : Locals H} (hinv : TextInv B H params T (st, lo)) (c : Nat)
    (st1 : Parser) (lo1 : Locals H)
    (h1 : st1.parse = st.parse) (h2 : st1.params = st.params)
    (h3 : lo1.phrase = lo.phrase ++ [c])
    (h4 : lo1.hf = H.update lo.hf c) : TextInv B H params (T ++ [c]) (st1, lo1) := by
  obtain ⟨hpar, hhf, hrec, hfirst, hlater, hlens, hbytes, hbuf, htails, hheads⟩ := hinv
  simp only at hpar hhf hrec hfirst hlater hlens hbytes hbuf htails hheads
  constructor
  · show st1.params = params
    rw [h2]; exact hpar
  · show lo1.hf = _
    rw [h4, hash_after_snoc, hhf]
  · show reconstruct params.w (st1.parse ++ [lo1.phrase]) = _
    rw [h1, h3]
    by_cases h : st.parse = []
    · rw [h, List.nil_append, reconstruct_single, hfirst h]; rfl
    · rw [reconstruct_snoc _ _ _ h, List.drop_append_of_le_length (hlater h), ← List.append_assoc,
        ← reconstruct_snoc _ _ _ h, hrec]; rfl
  · show st1.parse = [] → lo1.phrase = _
    rw [h1, h3]
    intro h; rw [hfirst h]; rfl
  · show st1.parse ≠ [] → _ ≤ lo1.phrase.length
    rw [h1, h3]
    intro h; have := hlater h; simp; omega
  · show ∀ x ∈ st1.parse, _
    rw [h1]; exact hlens
  · show ∀ x ∈ st1.parse, _
    rw [h1]
    intro x hx b hb
    rcases hbytes x hx b hb with h | h
    · exact Or.inl h
    · exact Or.inr (List.mem_append_left _ h)
  · show st1.parse ≠ [] → ∀ b ∈ lo1.phrase, _
    rw [h1, h3]
    intro h b hb
    rcases List.mem_append.mp hb with hb | hb
    · exact List.mem_append_left _ (hbuf h b hb)
    · exact List.mem_append_right _ hb
  · show ∀ x ∈ st1.parse.tail, _
    rw [h1]
    intro x hx
    obtain ⟨b, tl, h5, h6⟩ := htails x hx
    exact ⟨b, tl, h5, List.mem_append_left _ h6⟩
  · show ∀ x ∈ st1.parse.head?, _
    rw [h1]; exact hheads

theorem append_char_text (B : Build) (H : Hasher) (params : ParserParams) (T : List Nat)
    (st : Parser) (lo : Locals H) (c : Nat) (hw1 : 1 ≤ params.w) (hp : params.p ≠ 0)
    (hinv : TextInv B H params T (st, lo))
    (hsafe : H.hashvalue (hash_after H params.w (T ++ [c])) % params.p = 0 →
      params.w ≤ (T ++ [c]).length) :
    ∃ s1, append_char H st lo c = .ok s1 ∧ TextInv B H params (T ++ [c]) s1 := by
  have hpar : st.params = params := hinv.params_eq
  have hh : H.update lo.hf c = hash_after H params.w (T ++ [c]) := by
    rw [hash_after_snoc, ← hinv.hf_eq]
  unfold append_char
  rw [hpar, if_neg hp, hh]
  by_cases hfire : H.hashvalue (hash_after H params.w (T ++ [c])) % params.p = 0
  · rw [if_pos hfire]
    refine ⟨_, rfl, ?_⟩
    refine hinv.fire c hw1 (hsafe hfire) _ _ ?_ ?_ rfl hh.symm
    · split <;> rfl
    · split <;> rfl
  · rw [if_neg hfire]
    exact ⟨_, rfl, hinv.grow c _ _ rfl rfl rfl hh.symm⟩

theorem preprocess_cons (B : Build) (params : ParserParams) (ch : Nat) (cs : List Nat) :
    preprocess B params (ch :: cs) = preprocess B params [ch] ++ preprocess B params cs := by
  unfold preprocess
  split
  · rw [← List.filter_append, ← List.map_append]; rfl
  · split
    · rw [← List.map_append, ← List.map_append]; rfl
    · rw [← List.map_append]; rfl

theorem preprocess_nil (B : Build) (params : ParserParams) : preprocess B params [] = [] := by
  unfold preprocess
  split
  · rfl
  · split <;> rfl

theorem preprocess_append (B : Build) (params : ParserParams) (xs ys : List Nat) :
    preprocess B params (xs ++ ys) = preprocess B params xs ++ preprocess B params ys := by
  induction xs with
  | nil => simp [preprocess_nil]
  | cons x xs ih => rw [List.cons_append, preprocess_cons, ih, preprocess_cons B params x xs,
      List.append_assoc]

/-- A prefix of a text without early boundary is long enough when it fires. -/
theorem safe_of_noEarly (H : Hasher) (w p : Nat) (full T rest : List Nat)
    (hne : NoEarlyBoundary H w p full) (hfull : T ++ rest = full) (hT : T ≠ []) :
    H.hashvalue (hash_after H w T) % p = 0 → w ≤ T.length := by
  intro hfire
  by_contra hlt
  have hk : T.length ≤ full.length := by rw [← hfull]; simp
  have := hne T.length (by omega) (List.length_pos.mpr hT) hk
  rw [← hfull, List.take_left] at this
  exact this hfire

theorem parse_char_text (B : Build) (H : Hasher) (params : ParserParams) (full T rest : List Nat)
    (s : Parser × Locals H) (ch : Nat) (hw1 : 1 ≤ params.w) (hp : params.p ≠ 0)
    (hne : NoEarlyBoundary H params.w params.p full)
    (hfull : T ++ preprocess B params [ch] ++ rest = full)
    (hinv : TextInv B H params T s) :
    ∃ s1, parse_char_tab B H s ch = .ok s1 ∧ TextInv B H params (T ++ preprocess B params [ch]) s1 := by
  obtain ⟨st, lo⟩ := s
  have hpar : st.params = params := hinv.params_eq
  have key : ∀ (st1 : Parser) (lo1 : Locals H) (c : Nat), preprocess B params [ch] = [c] →
      TextInv B H params T (st1, lo1) →
      ∃ s1, append_char H st1 lo1 c = .ok s1 ∧
        TextInv B H params (T ++ preprocess B params [ch]) s1 := by
    intro st1 lo1 c hc hi
    rw [hc] at hfull ⊢
    exact append_char_text B H params T st1 lo1 c hw1 hp hi
      (safe_of_noEarly H params.w params.p full (T ++ [c]) rest hne hfull (by simp))
  unfold parse_char_tab
  simp only [hpar]
  by_cases ht : params.trim_non_acgt = true
  · simp only [ht, if_true]
    by_cases hy : B.seq_nt4_table (toupper ch) > 3
    · rw [if_pos hy]
      refine ⟨_, rfl, ?_⟩
      have hc : preprocess B params [ch] = [] := by
        simp [preprocess, ht]; omega
      rw [hc, List.append_nil]
      exact hinv.congr _ _ rfl rfl rfl rfl
    · rw [if_neg hy]
      have hc : preprocess B params [ch] = [toupper ch] := by
        simp [preprocess, ht]; omega
      split
      · exact key _ _ _ hc (hinv.congr _ _ rfl hpar.symm rfl rfl)
      · exact key _ _ _ hc hinv
  · simp only [ht, Bool.false_eq_true, if_false]
    by_cases ha : params.non_acgt_to_a = true ∧ B.seq_nt4_table (toupper ch) > 3
    · rw [if_pos ha]
      have hc : preprocess B params [ch] = [65] := by
        simp [preprocess, ht, ha.1, ha.2]
      exact key _ _ _ hc hinv
    · rw [if_neg ha]
      have hc : preprocess B params [ch] = [toupper ch] := by
        simp only [preprocess, ht, Bool.false_eq_true, if_false]
        by_cases h1 : params.non_acgt_to_a = true
        · have : ¬ B.seq_nt4_table (toupper ch) > 3 := fun h => ha ⟨h1, h⟩
          simp [h1, this]
        · simp [h1]
      exact key _ _ _ hc hinv

theorem parse_chars_text (B : Build) (H : Hasher) (params : ParserParams) (full : List Nat)
    (hw1 : 1 ≤ params.w) (hp : params.p ≠ 0) (hne : NoEarlyBoundary H params.w params.p full) :
    ∀ (cs : List Nat) (T rest : List Nat) (s : Parser × Locals H),
      T ++ preprocess B params cs ++ rest = full → TextInv B H params T s →
      ∃ s1, cs.foldlM (parse_char_tab B H) s = .ok s1 ∧
        TextInv B H params (T ++ preprocess B params cs) s1 := by
  intro cs
  induction cs with
  | nil =>
    intro T rest s _ hinv
    exact ⟨s, rfl, by rw [preprocess_nil, List.append_nil]; exact hinv⟩
  | cons ch cs ih =>
    intro T rest s hfull hinv
    rw [preprocess_cons] at hfull ⊢
    obtain ⟨s1, h1, hinv1⟩ := parse_char_text B H params full T (preprocess B params cs ++ rest)
      s ch hw1 hp hne (by rw [← hfull]; simp [List.append_assoc]) hinv
    obtain ⟨s2, h2, hinv2⟩ := ih (T ++ preprocess B params [ch]) rest s1
      (by rw [← hfull]; simp [List.append_assoc]) hinv1
    refine ⟨s2, ?_, by rw [← List.append_assoc]; exact hinv2⟩
    rw [List.foldlM_cons, h1]
    exact h2

theorem foldlM_preserves {α β : Type} (f : β → α → Except Fault β) (P : β → Prop)
    (hstep : ∀ b a b1, P b → f b a = .ok b1 → P b1) :
    ∀ (l : List α) (b b1 : β), P b → l.foldlM f b = .ok b1 → P b1 := by
  intro l
  induction l with
  | nil =>
    intro b b1 hb h
    cases h
    exact hb
  | cons a l ih =>
    intro b b1 hb h
    rw [List.foldlM_cons] at h
    cases hfa : f b a with
    | error e => rw [hfa] at h; cases h
    | ok b2 =>
      rw [hfa] at h
      exact ih b2 b1 (hstep b a b2 hb hfa) h

theorem append_char_ok (H : Hasher) (st : Parser) (lo : Locals H) (c : Nat)
    (s1 : Parser × Locals H) (h : append_char H st lo c = .ok s1) :
    s1.2.total_l = lo.total_l ∧
    (s1.1 = st ∨ SameCore (process_phrase st (lo.phrase ++ [c])) s1.1) := by
  unfold append_char at h
  by_cases hp : st.params.p = 0
  · simp [hp] at h
  · by_cases hf : H.hashvalue (H.update lo.hf c) % st.params.p = 0
    · by_cases hs : st.params.get_sai = true
      · simp only [hp, hf, hs, if_true, if_false, Except.ok.injEq] at h
        subst h
        exact ⟨rfl, Or.inr ⟨rfl, rfl, rfl, rfl, rfl, rfl, rfl⟩⟩
      · simp only [hp, hf, hs, if_true, if_false, Except.ok.injEq] at h
        subst h
        exact ⟨rfl, Or.inr ⟨rfl, rfl, rfl, rfl, rfl, rfl, rfl⟩⟩
    · simp only [hp, hf, if_false, Except.ok.injEq] at h
      subst h
      exact ⟨rfl, Or.inl rfl⟩

theorem parse_char_ok (B : Build) (H : Hasher) (s : Parser × Locals H) (ch : Nat)
    (s1 : Parser × Locals H) (h : parse_char_tab B H s ch = .ok s1) :
    s1.2.total_l = s.2.total_l ∧
    (SameCore s.1 s1.1 ∨ ∃ st x, SameCore s.1 st ∧ SameCore (process_phrase st x) s1.1) := by
  obtain ⟨st, lo⟩ := s
  unfold parse_char_tab at h
  simp only at h
  by_cases ht : st.params.trim_non_acgt = true
  · by_cases hy : B.seq_nt4_table (toupper ch) > 3
    · simp only [ht, hy, if_true, Except.ok.injEq] at h
      subst h
      exact ⟨rfl, Or.inl (SameCore.refl st)⟩
    · by_cases hx : B.seq_nt4_table (toupper ch) < 4 ∧ B.seq_nt4_table lo.pc > 3
      · simp only [ht, hy, hx, if_true, if_false] at h
        obtain ⟨h1, h2⟩ := append_char_ok H _ _ _ _ h
        refine ⟨h1, ?_⟩
        rcases h2 with h2 | h2
        · left; rw [h2]; exact ⟨rfl, rfl, rfl, rfl, rfl, rfl, rfl⟩
        · right; exact ⟨_, _, ⟨rfl, rfl, rfl, rfl, rfl, rfl, rfl⟩, h2⟩
      · simp only [ht, hy, hx, if_true, if_false] at h
        obtain ⟨h1, h2⟩ := append_char_ok H _ _ _ _ h
        refine ⟨h1, ?_⟩
        rcases h2 with h2 | h2
        · left; rw [h2]; exact SameCore.refl st
        · right; exact ⟨_, _, SameCore.refl st, h2⟩
  · by_cases ha : st.params.non_acgt_to_a = true ∧ B.seq_nt4_table (toupper ch) > 3
    · simp only [ht, ha, if_true, if_false] at h
      obtain ⟨h1, h2⟩ := append_char_ok H _ _ _ _ h
      refine ⟨h1, ?_⟩
      rcases h2 with h2 | h2
      · left; rw [h2]; exact SameCore.refl st
      · right; exact ⟨_, _, SameCore.refl st, h2⟩
    · simp only [ht, ha, if_false] at h
      obtain ⟨h1, h2⟩ := append_char_ok H _ _ _ _ h
      refine ⟨h1, ?_⟩
      rcases h2 with h2 | h2
      · left; rw [h2]; exact SameCore.refl st
      · right; exact ⟨_, _, SameCore.refl st, h2⟩

theorem parse_char_total_l (B : Build) (H : Hasher) (s : Parser × Locals H) (ch : Nat)
    (s1 : Parser × Locals H) (h : parse_char_tab B H s ch = .ok s1) : s1.2.total_l = s.2.total_l :=
  (parse_char_ok B H s ch s1 h).1

theorem residues_cons (r : Record) (input : List Record) :
    residues (r :: input) = r.seq ++ residues input := by
  simp [residues]

theorem parse_record_text (B : Build) (H : Hasher) (params : ParserParams) (full T rest : List Nat)
    (s : Parser × Locals H) (r : Record) (hw1 : 1 ≤ params.w) (hp : params.p ≠ 0)
    (hne : NoEarlyBoundary H params.w params.p full)
    (hfull : T ++ preprocess B params r.seq ++ rest = full)
    (hguard : B.M64 = true ∨ s.2.total_l + r.seq.length ≤ 0xFFFFFFFF)
    (hinv : TextInv B H params T s) :
    ∃ s1, parse_record_tab B H s r = .ok s1 ∧ TextInv B H params (T ++ preprocess B params r.seq) s1 ∧
      (B.M64 = false → s1.2.total_l = s.2.total_l + r.seq.length) := by
  obtain ⟨st, lo⟩ := s
  unfold parse_record_tab
  simp only
  have hg : ¬ (¬ B.M64 = true ∧ lo.total_l + r.seq.length > 0xFFFFFFFF) := by
    rintro ⟨h1, h2⟩
    rcases hguard with h | h
    · exact h1 h
    · simp only at h; omega
  rw [if_neg hg]
  have hinv0 : TextInv B H params T
      (if st.params.get_da = true then
          { st with doc_starts := st.doc_starts ++ [lo.pos], doc_names := st.doc_names ++ [r.name] }
        else st,
        if B.M64 = true then lo else { lo with total_l := lo.total_l + r.seq.length }) :=
    hinv.congr _ _ (by split <;> rfl) (by split <;> rfl) (by split <;> rfl) (by split <;> rfl)
  obtain ⟨s1, h1, hinv1⟩ := parse_chars_text B H params full hw1 hp hne r.seq T rest _ hfull hinv0
  have htot := foldlM_preserves (parse_char_tab B H) (fun x => x.2.total_l =
      (if B.M64 = true then lo else { lo with total_l := lo.total_l + r.seq.length }).total_l)
    (fun b a b1 hb hf => (parse_char_total_l B H b a b1 hf).trans hb) r.seq _ s1 rfl h1
  rw [h1]
  obtain ⟨st2, lo2⟩ := s1
  refine ⟨_, rfl, ?_, ?_⟩
  · exact hinv1.congr _ _ (by split <;> rfl) (by split <;> rfl) rfl rfl
  · intro hm
    show lo2.total_l = _
    simp only at htot
    rw [htot, if_neg (by simp [hm])]

theorem parse_records_text (B : Build) (H : Hasher) (params : ParserParams) (full : List Nat)
    (hw1 : 1 ≤ params.w) (hp : params.p ≠ 0) (hne : NoEarlyBoundary H params.w params.p full) :
    ∀ (input : List Record) (T rest : List Nat) (s : Parser × Locals H),
      T ++ preprocess B params (residues input) ++ rest = full →
      (B.M64 = true ∨ s.2.total_l + (residues input).length ≤ 0xFFFFFFFF) →
      TextInv B H params T s →
      ∃ s1, input.foldlM (parse_record_tab B H) s = .ok s1 ∧
        TextInv B H params (T ++ preprocess B params (residues input)) s1 := by
  intro input
  induction input with
  | nil =>
    intro T rest s _ _ hinv
    refine ⟨s, rfl, ?_⟩
    simp only [residues, List.map_nil, List.flatten_nil, preprocess_nil, List.append_nil]
    exact hinv
  | cons r input ih =>
    intro T rest s hfull hguard hinv
    rw [residues_cons, preprocess_append] at hfull ⊢
    rw [residues_cons, List.length_append] at hguard
    obtain ⟨s1, h1, hinv1, htot⟩ := parse_record_text B H params full T
      (preprocess B params (residues input) ++ rest) s r hw1 hp hne
      (by rw [← hfull]; simp [List.append_assoc])
      (by rcases hguard with h | h
          · exact Or.inl h
          · right; omega) hinv
    obtain ⟨s2, h2, hinv2⟩ := ih (T ++ preprocess B params r.seq) rest s1
      (by rw [← hfull]; simp [List.append_assoc])
      (by have hm : B.M64 = false ∨ B.M64 = true := by cases B.M64 <;> simp
          rcases hm with hm | hm
          · rcases hguard with h | h
            · exact Or.inl h
            · right; rw [htot hm]; omega
          · exact Or.inl hm) hinv1
    refine ⟨s2, ?_, by rw [← List.append_assoc]; exact hinv2⟩
    rw [List.foldlM_cons, h1]
    exact h2

theorem Parser_new_ok (params : ParserParams) (st0 : Parser) (h : Parser.new params = .ok st0) :
    st0 = { params := params } ∧ params.w ≤ 32 := by
  unfold Parser.new Parser.check_w at h
  by_cases hw : params.w > 32
  · simp [hw] at h
  · simp only [hw, if_false, Except.ok.injEq] at h
    subst h
    exact ⟨rfl, by omega⟩

/-- What a phrase list looks like after `parse_fasta_tab`: every phrase has more than `w` bytes,
each the terminator or a byte of the text; the first phrase starts with the terminator and every
later one with a byte of the text. -/
theorem parse_fasta_text (B : Build) (H : Hasher) (params : ParserParams)
    (input : List Record) (hw : 1 ≤ params.w) (hp : 1 ≤ params.p)
    (hguard : B.M64 = true ∨ (residues input).length ≤ 0xFFFFFFFF)
    (hne : NoEarlyBoundary H params.w params.p (preprocess B params (residues input))) :
    ∃ st n, parse_fasta_tab B H { params := params } input = .ok (st, n) ∧
      reconstruct params.w st.parse =
        B.Dollar :: preprocess B params (residues input) ++ List.replicate params.w B.Dollar ∧
      (∀ x ∈ st.parse, params.w + 1 ≤ x.length) ∧
      (∀ x ∈ st.parse, ∀ b ∈ x, b = B.Dollar ∨ b ∈ preprocess B params (residues input)) ∧
      (∀ x ∈ st.parse.tail, ∃ b tl, x = b :: tl ∧ b ∈ preprocess B params (residues input)) ∧
      (∃ tl, st.parse.head? = some (B.Dollar :: tl)) := by
  have hbase : TextInv B H params []
      (({ params := params } : Parser),
        ({ phrase := [B.Dollar], hf := H.init params.w } : Locals H)) := by
    refine ⟨rfl, rfl, rfl, fun _ => rfl, fun h => absurd rfl h, ?_, ?_, fun h => absurd rfl h,
      ?_, ?_⟩
    · intro x hx; cases hx
    · intro x hx; cases hx
    · intro x hx; cases hx
    · intro x hx; cases hx
  have hinv0 := hbase.congr
    (if (if params.get_sai = true then ({ params := params, sai := [] } : Parser)
            else { params := params }).params.get_da = true then
          { (if params.get_sai = true then ({ params := params, sai := [] } : Parser)
              else { params := params }) with doc_starts := [], doc_names := [] }
        else (if params.get_sai = true then ({ params := params, sai := [] } : Parser)
              else { params := params }))
    ({ phrase := [B.Dollar], hf := H.init params.w } : Locals H)
    (by split <;> split <;> rfl) (by split <;> split <;> rfl) rfl rfl
  obtain ⟨s1, h1, hinv1⟩ := parse_records_text B H params _ hw (by omega) hne input [] [] _
    (by simp) (by simpa using hguard) hinv0
  unfold parse_fasta_tab
  simp only
  rw [h1]
  obtain ⟨st2, lo⟩ := s1
  obtain ⟨hpar, _, hrec, hfirst, hlater, hlens, hbytes, hbuf, htails, hheads⟩ := hinv1
  simp only [List.nil_append] at hpar hrec hfirst hlater hlens hbytes hbuf htails hheads
  have hparse : ∀ x, (if (process_phrase st2 x).params.get_sai = true then
        { process_phrase st2 x with
          sai := (process_phrase st2 x).sai ++ [to_uint B (lo.pos + (process_phrase st2 x).params.w)] }
      else process_phrase st2 x : Parser).parse = st2.parse ++ [x] := by
    intro x; split <;> rfl
  refine ⟨_, _, rfl, ?_, ?_, ?_, ?_, ?_⟩
  · rw [hparse, hpar]
    by_cases hnil : st2.parse = []
    · rw [hnil, List.nil_append, reconstruct_single, hfirst hnil]
    · rw [reconstruct_snoc _ _ _ hnil, List.drop_append_of_le_length (hlater hnil),
        ← List.append_assoc, ← reconstruct_snoc _ _ _ hnil, hrec]
  · rw [hparse, hpar]
    intro x hx
    rcases List.mem_append.mp hx with hx | hx
    · exact hlens x hx
    · rw [List.mem_singleton.mp hx]
      by_cases hnil : st2.parse = []
      · rw [hfirst hnil]; simp
      · have := hlater hnil; simp; omega
  · rw [hparse, hpar]
    intro x hx b hb
    rcases List.mem_append.mp hx with hx | hx
    · exact hbytes x hx b hb
    · rw [List.mem_singleton.mp hx] at hb
      rcases List.mem_append.mp hb with hb | hb
      · by_cases hnil : st2.parse = []
        · rw [hfirst hnil] at hb
          rcases List.mem_cons.mp hb with hb | hb
          · exact Or.inl hb
          · exact Or.inr hb
        · exact Or.inr (hbuf hnil b hb)
      · exact Or.inl (List.eq_of_mem_replicate hb)
  · rw [hparse, hpar]
    by_cases hnil : st2.parse = []
    · rw [hnil]; intro x hx; simp at hx
    · rw [tail_snoc _ _ hnil]
      intro x hx
      rcases List.mem_append.mp hx with hx | hx
      · exact htails x hx
      · rw [List.mem_singleton.mp hx]
        have hl := hlater hnil
        cases hph : lo.phrase with
        | nil => rw [hph] at hl; simp at hl; omega
        | cons b tl => exact ⟨b, _, rfl, hbuf hnil b (by rw [hph]; simp)⟩
  · rw [hparse, hpar]
    by_cases hnil : st2.parse = []
    · rw [hnil, hfirst hnil]
      exact ⟨_, rfl⟩
    · rw [head?_snoc _ _ hnil]
      cases hps : st2.parse with
      | nil => exact absurd hps hnil
      | cons p ps =>
        obtain ⟨tl, htl⟩ := hheads p (by rw [hps]; rfl)
        exact ⟨tl, by rw [htl]; rfl⟩

/-- Parse reconstruction where the reads of the table stay inside it: on a freshly constructed
parser with `w ≥ 1` and `p ≥ 1`, for every input that passes the length guard of narrow builds,
makes no read outside the nucleotide table, and every hasher that fires no boundary before `w`
characters have been fed, `parse_fasta` returns, and the phrases of the parse in order, each
after the first without its leading `w` characters, concatenate to the terminator byte, the
preprocessed text, and `w` terminator bytes. -/
theorem parse_reconstruction (B : Build) (H : Hasher) (params : ParserParams)
    (input : List Record) (st0 : Parser) (h0 : Parser.new params = .ok st0)
    (hw : 1 ≤ params.w) (hp : 1 ≤ params.p)
    (hguard : B.M64 = true ∨ (residues input).length ≤ 0xFFFFFFFF)
    (hin : ∀ c ∈ residues input, InTable B params c)
    (hne : NoEarlyBoundary H params.w params.p (preprocess B params (residues input))) :
    ∃ st n, parse_fasta B H st0 input = .ok (st, n) ∧
      reconstruct params.w st.parse =
        B.Dollar :: preprocess B params (residues input) ++ List.replicate params.w B.Dollar := by
  obtain ⟨rfl, _⟩ := Parser_new_ok params st0 h0
  obtain ⟨st, n, h1, h2, _⟩ := parse_fasta_text B H params input hw hp hguard hne
  rw [parse_fasta_eq_tab B H _ input hin]
  exact ⟨st, n, h1, h2⟩

/-- The reconstruction on `ACGTACGTACGT` with window 2 and modulus 3. -/
theorem parse_reconstruction_witness :
    ∃ st n, parse_fasta demoBuild demoHasher { params := { w := 2, p := 3 } }
        [⟨"r", [65, 67, 71, 84, 65, 67, 71, 84, 65, 67, 71, 84]⟩] = .ok (st, n) ∧
      reconstruct 2 st.parse =
        2 :: preprocess demoBuild { w := 2, p := 3 }
          (residues [⟨"r", [65, 67, 71, 84, 65, 67, 71, 84, 65, 67, 71, 84]⟩]) ++
          List.replicate 2 2 :=
  parse_reconstruction demoBuild demoHasher { w := 2, p := 3 }
    [⟨"r", [65, 67, 71, 84, 65, 67, 71, 84, 65, 67, 71, 84]⟩] { params := { w := 2, p := 3 } } rfl
    (by decide) (by decide) (Or.inl rfl) (by decide) (by decide)

/-- C5: the parse does not reconstruct the preprocessed text when a residue is a byte from 128
on and a flag asks for the nucleotide table. Where `char` is signed, with window 2 and modulus
3, on the residues `A`, `C` and the byte 200, of which the hasher fires no boundary before two
characters: with `trim_non_acgt` set the preprocessed text is `AC`, with `non_acgt_to_a` set it
is `ACA`, and in both runs the read `seq_nt4_table[static_cast<size_t>(c)]` at the byte 200 is
outside the table, so `parse_fasta` has undefined behaviour where the text says that the byte is
trimmed or replaced. -/
theorem table_read_out_of_range :
    Parser.new { w := 2, p := 3, trim_non_acgt := true } =
      .ok { params := { w := 2, p := 3, trim_non_acgt := true } } ∧
    NoEarlyBoundary demoHasher 2 3
      (preprocess demoBuild { w := 2, p := 3, trim_non_acgt := true }
        (residues [⟨"r", [65, 67, 200]⟩])) ∧
    preprocess demoBuild { w := 2, p := 3, trim_non_acgt := true }
      (residues [⟨"r", [65, 67, 200]⟩]) = [65, 67] ∧
    parse_fasta demoBuild demoHasher { params := { w := 2, p := 3, trim_non_acgt := true } }
      [⟨"r", [65, 67, 200]⟩] = .error .undefined ∧
    Parser.new { w := 2, p := 3, non_acgt_to_a := true } =
      .ok { params := { w := 2, p := 3, non_acgt_to_a := true } } ∧
    NoEarlyBoundary demoHasher 2 3
      (preprocess demoBuild { w := 2, p := 3, non_acgt_to_a := true }
        (residues [⟨"r", [65, 67, 200]⟩])) ∧
    preprocess demoBuild { w := 2, p := 3, non_acgt_to_a := true }
      (residues [⟨"r", [65, 67, 200]⟩]) = [65, 67, 65] ∧
    parse_fasta demoBuild demoHasher { params := { w := 2, p := 3, non_acgt_to_a := true } }
      [⟨"r", [65, 67, 200]⟩] = .error .undefined :=
  ⟨rfl, by decide, rfl, rfl, rfl, by decide, rfl, rfl⟩

/-! ### strcmp and the order of NUL-free strings -/

theorem strcmp_total (a b : List Nat) : strcmp a b ≤ 0 ∨ strcmp b a ≤ 0 := by
  induction a generalizing b with
  | nil =>
    cases b with
    | nil => simp [strcmp]
    | cons y b => left; simp only [strcmp]; split <;> omega
  | cons x a ih =>
    cases b with
    | nil => right; simp only [strcmp]; split <;> omega
    | cons y b =>
      simp only [strcmp]
      by_cases hxy : x = y
      · subst hxy
        by_cases h0 : x = 0
        · simp [h0]
        · simp only [ne_eq, not_true_eq_false, if_false, h0]
          exact ih b
      · have hyx : y ≠ x := fun h => hxy h.symm
        simp only [ne_eq, hxy, hyx, not_false_eq_true, if_true]
        omega

theorem strcmp_trans (a b c : List Nat) :
    strcmp a b ≤ 0 → strcmp b c ≤ 0 → strcmp a c ≤ 0 := by
  induction a generalizing b c with
  | nil =>
    intro _ _
    cases c with
    | nil => simp [strcmp]
    | cons z c => simp only [strcmp]; split <;> omega
  | cons x a ih =>
    cases b with
    | nil =>
      intro h1 _
      simp only [strcmp] at h1
      have hx : x = 0 := by
        by_contra h; simp [h] at h1
      subst hx
      cases c with
      | nil => simp [strcmp]
      | cons z c =>
        simp only [strcmp]
        by_cases hz : (0 : Nat) = z
        · simp [← hz]
        · simp only [ne_eq, hz, not_false_eq_true, if_true]; omega
    | cons y b =>
      intro h1 h2
      cases c with
      | nil =>
        simp only [strcmp] at h2
        have hy : y = 0 := by
          by_contra h; simp [h] at h2
        subst hy
        simp only [strcmp] at h1 ⊢
        by_cases hx : x = 0
        · simp [hx]
        · simp only [ne_eq, hx, not_false_eq_true, if_true] at h1; omega
      | cons z c =>
        simp only [strcmp] at h1 h2 ⊢
        by_cases hxy : x = y
        · subst hxy
          by_cases hxz : x = z
          · subst hxz
            by_cases h0 : x = 0
            · simp [h0]
            · simp only [ne_eq, not_true_eq_false, if_false, h0] at h1 h2 ⊢
              exact ih b c h1 h2
          · simp only [ne_eq, hxz, not_false_eq_true, if_true] at h2 ⊢
            exact h2
        · simp only [ne_eq, hxy, not_false_eq_true, if_true] at h1
          by_cases hyz : y = z
          · subst hyz
            simp only [ne_eq, hxy, not_false_eq_true, if_true]
            exact h1
          · simp only [ne_eq, hyz, not_false_eq_true, if_true] at h2
            have hxz : x ≠ z := by omega
            simp only [ne_eq, hxz, not_false_eq_true, if_true]
            omega

theorem strcmp_eq_zero (a b : List Nat) (ha : 0 ∉ a) (hb : 0 ∉ b) : strcmp a b = 0 → a = b := by
  induction a generalizing b with
  | nil =>
    cases b with
    | nil => intro _; rfl
    | cons y b =>
      have hy : y ≠ 0 := fun h => hb (by simp [h])
      simp [strcmp, hy]
  | cons x a ih =>
    have hx : x ≠ 0 := fun h => ha (by simp [h])
    cases b with
    | nil => simp [strcmp, hx]
    | cons y b =>
      simp only [strcmp]
      by_cases hxy : x = y
      · subst hxy
        simp only [ne_eq, not_true_eq_false, if_false, hx]
        intro h
        rw [ih b (fun h => ha (List.mem_cons_of_mem _ h)) (fun h => hb (List.mem_cons_of_mem _ h)) h]
      · simp only [ne_eq, hxy, not_false_eq_true, if_true]
        intro h; omega

theorem strcmp_neg (a b : List Nat) (ha : 0 ∉ a) (hb : 0 ∉ b) : strcmp a b < 0 → a < b := by
  induction a generalizing b with
  | nil =>
    cases b with
    | nil => simp [strcmp]
    | cons y b => intro _; exact List.Lex.nil
  | cons x a ih =>
    have hx : x ≠ 0 := fun h => ha (by simp [h])
    cases b with
    | nil => simp only [strcmp, hx, if_false]; intro h; omega
    | cons y b =>
      simp only [strcmp]
      by_cases hxy : x = y
      · subst hxy
        simp only [ne_eq, not_true_eq_false, if_false, hx]
        intro h
        exact List.Lex.cons
          (ih b (fun h => ha (List.mem_cons_of_mem _ h)) (fun h => hb (List.mem_cons_of_mem _ h)) h)
      · simp only [ne_eq, hxy, not_false_eq_true, if_true]
        intro h
        exact List.Lex.rel (by omega)

theorem cstr_of_nulfree (a : List Nat) (ha : 0 ∉ a) : cstr a = a := by
  unfold cstr
  rw [List.takeWhile_eq_self_iff]
  intro x hx
  simp only [bne_iff_ne, ne_eq]
  intro h
  exact ha (h ▸ hx)


/-! ### The map `freqs` -/

theorem map_modify_keys (k : List Nat) (g : Freq → Freq) (m : FreqMap) :
    (map_modify k g m).map Prod.fst = m.map Prod.fst := by
  induction m with
  | nil => rfl
  | cons e m ih =>
    obtain ⟨k0, v0⟩ := e
    simp only [map_modify]
    split
    · rfl
    · simp only [List.map_cons, ih]

theorem map_modify_length (k : List Nat) (g : Freq → Freq) (m : FreqMap) :
    (map_modify k g m).length = m.length := by
  have := congrArg List.length (map_modify_keys k g m)
  simpa using this

theorem map_modify_n (k : List Nat) (g : Freq → Freq) (hg : ∀ f, (g f).n = f.n) (m : FreqMap) :
    (map_modify k g m).map (fun e => e.2.n) = m.map (fun e => e.2.n) := by
  induction m with
  | nil => rfl
  | cons e m ih =>
    obtain ⟨k0, v0⟩ := e
    simp only [map_modify]
    split
    · simp only [List.map_cons, hg]
    · simp only [List.map_cons, ih]

theorem map_at_nil (k : List Nat) : map_at [] k = none := rfl

theorem map_at_cons (k0 : List Nat) (v0 : Freq) (m : FreqMap) (k : List Nat) :
    map_at ((k0, v0) :: m) k = if k0 = k then some v0 else map_at m k := by
  unfold map_at
  by_cases h : k0 = k
  · simp [List.find?, h]
  · have hb : (k0 == k) = false := by simpa using h
    simp [List.find?, h, hb]

theorem map_at_modify_same (k : List Nat) (g : Freq → Freq) (m : FreqMap) :
    map_at (map_modify k g m) k = (map_at m k).map g := by
  induction m with
  | nil => rfl
  | cons e m ih =>
    obtain ⟨k0, v0⟩ := e
    simp only [map_modify]
    by_cases h : k0 = k
    · simp [h, map_at_cons]
    · simp [h, map_at_cons, ih]

theorem map_at_modify_other (k k1 : List Nat) (g : Freq → Freq) (m : FreqMap) (h : k1 ≠ k) :
    map_at (map_modify k g m) k1 = map_at m k1 := by
  induction m with
  | nil => rfl
  | cons e m ih =>
    obtain ⟨k0, v0⟩ := e
    simp only [map_modify]
    by_cases h0 : k0 = k
    · have h3 : ¬ k = k1 := fun h2 => h h2.symm
      subst h0
      simp [map_at_cons, h3]
    · simp [h0, map_at_cons, ih]

theorem map_at_isSome (m : FreqMap) (k : List Nat) :
    (map_at m k).isSome ↔ k ∈ m.map Prod.fst := by
  induction m with
  | nil => simp [map_at_nil]
  | cons e m ih =>
    obtain ⟨k0, v0⟩ := e
    rw [map_at_cons]
    by_cases h : k0 = k
    · simp [h]
    · have h1 : ¬ k = k0 := fun h2 => h h2.symm
      simp [h, h1, ih]

theorem map_at_of_mem (m : FreqMap) (hnd : (m.map Prod.fst).Nodup) (k : List Nat) (f : Freq)
    (h : (k, f) ∈ m) : map_at m k = some f := by
  induction m with
  | nil => cases h
  | cons e m ih =>
    obtain ⟨k0, v0⟩ := e
    rw [map_at_cons]
    simp only [List.map_cons, List.nodup_cons] at hnd
    rcases List.mem_cons.mp h with h1 | h1
    · cases h1; simp
    · have : k0 ≠ k := by
        intro h2
        apply hnd.1
        rw [h2]
        exact List.mem_map_of_mem Prod.fst h1
      rw [if_neg this]
      exact ih hnd.2 h1

theorem mem_of_map_at (m : FreqMap) (k : List Nat) (f : Freq) (h : map_at m k = some f) :
    (k, f) ∈ m := by
  induction m with
  | nil => cases h
  | cons e m ih =>
    obtain ⟨k0, v0⟩ := e
    rw [map_at_cons] at h
    by_cases h0 : k0 = k
    · rw [if_pos h0] at h
      cases h
      rw [h0]
      exact List.mem_cons_self _ _
    · rw [if_neg h0] at h
      exact List.mem_cons_of_mem _ (ih h)


theorem freq_of_modify (k : List Nat) (g : Freq → Freq) (hg : ∀ f, (g f).n = f.n) (m : FreqMap)
    (k1 : List Nat) : freq_of (map_modify k g m) k1 = freq_of m k1 := by
  unfold freq_of
  by_cases h : k1 = k
  · subst h
    rw [map_at_modify_same]
    cases map_at m k1 with
    | none => rfl
    | some f => simp [hg]
  · rw [map_at_modify_other k k1 g m h]

/-! ### update_dict -/

theorem update_dict_loop_ok :
    ∀ (xs : List (List Nat)) (rank : Nat) (freqs : FreqMap) (occs : List Nat)
      (out : List (List Nat × Nat)),
      (∀ x ∈ xs, 0 ∉ x) → xs.Nodup → (∀ x ∈ xs, x ∈ freqs.map Prod.fst) →
      ∃ freqs1, update_dict_loop xs rank freqs occs out =
          .ok (freqs1, occs ++ xs.map (freq_of freqs), out ++ xs.map (fun x => (x, freq_of freqs x))) ∧
        freqs1.map Prod.fst = freqs.map Prod.fst ∧
        freqs1.map (fun e => e.2.n) = freqs.map (fun e => e.2.n) ∧
        (∀ i (h : i < xs.length),
          map_at freqs1 xs[i] = some { n := freq_of freqs xs[i], r := rank + i }) ∧
        (∀ k, k ∉ xs → map_at freqs1 k = map_at freqs k) := by
  intro xs
  induction xs with
  | nil =>
    intro rank freqs occs out _ _ _
    exact ⟨freqs, by simp [update_dict_loop], rfl, rfl, by simp, fun _ _ => rfl⟩
  | cons x xs ih =>
    intro rank freqs occs out hnul hnd hmem
    have hx0 : 0 ∉ x := hnul x (List.mem_cons_self _ _)
    have hxk : x ∈ freqs.map Prod.fst := hmem x (List.mem_cons_self _ _)
    obtain ⟨wf, hwf⟩ := Option.isSome_iff_exists.mp ((map_at_isSome freqs x).mpr hxk)
    have hnd1 := List.nodup_cons.mp hnd
    have hg : ∀ f : Freq, ({ f with r := rank } : Freq).n = f.n := fun _ => rfl
    obtain ⟨freqs1, h1, h2, h3, h4, h5⟩ := ih (rank + 1)
      (map_modify x (fun f => { f with r := rank }) freqs) (occs ++ [wf.n])
      (out ++ [(x, wf.n)]) (fun y hy => hnul y (List.mem_cons_of_mem _ hy)) hnd1.2
      (fun y hy => by rw [map_modify_keys]; exact hmem y (List.mem_cons_of_mem _ hy))
    have hfo : freq_of (map_modify x (fun f => { f with r := rank }) freqs) = freq_of freqs :=
      funext (freq_of_modify x _ hg freqs)
    have hwn : freq_of freqs x = wf.n := by simp [freq_of, hwf]
    refine ⟨freqs1, ?_, ?_, ?_, ?_, ?_⟩
    · simp only [update_dict_loop, cstr_of_nulfree x hx0, hwf]
      rw [h1, hfo]
      simp [List.append_assoc, hwn]
    · rw [h2, map_modify_keys]
    · rw [h3, map_modify_n _ _ hg]
    · intro i hi
      cases i with
      | zero =>
        simp only [List.getElem_cons_zero, Nat.add_zero]
        rw [h5 x hnd1.1, map_at_modify_same, hwf, hwn]
        rfl
      | succ i =>
        simp only [List.getElem_cons_succ]
        have := h4 i (by simpa using hi)
        rw [this, hfo]
        congr 2
        omega
    · intro k hk
      have hk1 : k ∉ xs := fun h => hk (List.mem_cons_of_mem _ h)
      have hk2 : k ≠ x := fun h => hk (h ▸ List.mem_cons_self _ _)
      rw [h5 k hk1, map_at_modify_other x k _ freqs hk2]

theorem index_in_lt (k : List Nat) (xs : List (List Nat)) (h : k ∈ xs) :
    index_in k xs < xs.length := by
  induction xs with
  | nil => cases h
  | cons x xs ih =>
    simp only [index_in]
    by_cases hx : x = k
    · simp [hx]
    · rw [if_neg hx]
      have : k ∈ xs := by
        rcases List.mem_cons.mp h with h1 | h1
        · exact absurd h1.symm hx
        · exact h1
      simp only [List.length_cons]
      have := ih this
      omega

theorem getElem_index_in (k : List Nat) (xs : List (List Nat)) (h : index_in k xs < xs.length) :
    xs[index_in k xs] = k := by
  induction xs with
  | nil => simp at h
  | cons x xs ih =>
    by_cases hx : x = k
    · simp [index_in, hx]
    · simp only [index_in, if_neg hx, List.length_cons] at h ⊢
      simp only [List.getElem_cons_succ]
      exact ih (by omega)

theorem index_in_getElem (xs : List (List Nat)) (hnd : xs.Nodup) (i : Nat) (h : i < xs.length) :
    index_in xs[i] xs = i := by
  induction xs generalizing i with
  | nil => simp at h
  | cons x xs ih =>
    have hnd1 := List.nodup_cons.mp hnd
    cases i with
    | zero => simp [index_in]
    | succ i =>
      simp only [List.getElem_cons_succ, index_in]
      have hi : i < xs.length := by simpa using h
      have : x ≠ xs[i] := fun h2 => hnd1.1 (h2 ▸ List.getElem_mem hi)
      rw [if_neg this, ih hnd1.2 i hi]

theorem map_index_in_of_nodup (xs : List (List Nat)) (h : xs.Nodup) :
    xs.map (fun x => index_in x xs) = List.range xs.length := by
  apply List.ext_getElem
  · simp
  · intro i h1 h2
    simp only [List.getElem_map, List.getElem_range]
    exact index_in_getElem xs h i _

theorem sorted_phrases_perm (m : FreqMap) : (sorted_phrases m).Perm (m.map Prod.fst) :=
  List.perm_insertionSort _ _

theorem sorted_phrases_lt (m : FreqMap) (hnd : (m.map Prod.fst).Nodup)
    (hnul : ∀ k ∈ m.map Prod.fst, 0 ∉ k) : (sorted_phrases m).Pairwise (fun a b => a < b) := by
  have hs : (sorted_phrases m).Pairwise (fun l r => strcmp l r ≤ 0) :=
    @List.sorted_insertionSort _ (fun l r => strcmp l r ≤ 0) _ ⟨strcmp_total⟩
      ⟨strcmp_trans⟩ (m.map Prod.fst)
  have hn : (sorted_phrases m).Pairwise (fun a b => a ≠ b) :=
    (sorted_phrases_perm m).nodup_iff.mpr hnd
  refine (hs.and hn).imp_of_mem ?_
  intro a b ha hb hab
  have ha0 := hnul a ((sorted_phrases_perm m).mem_iff.mp ha)
  have hb0 := hnul b ((sorted_phrases_perm m).mem_iff.mp hb)
  apply strcmp_neg a b ha0 hb0
  rcases lt_or_eq_of_le hab.1 with h | h
  · exact h
  · exact absurd (strcmp_eq_zero a b ha0 hb0 h) hab.2

/-- What `update_dict` does to a dictionary of distinct NUL-free phrases, in terms of the
sorted phrases. -/
theorem update_dict_spec (st : Parser) (hnd : (st.freqs.map Prod.fst).Nodup)
    (hnul : ∀ k ∈ st.freqs.map Prod.fst, 0 ∉ k) :
    ∃ freqs1, update_dict st =
        .ok ({ st with freqs := freqs1, occs := (sorted_phrases st.freqs).map (freq_of st.freqs) },
          (sorted_phrases st.freqs).map (fun x => (x, freq_of st.freqs x))) ∧
      freqs1.map Prod.fst = st.freqs.map Prod.fst ∧
      freqs1.map (fun e => e.2.n) = st.freqs.map (fun e => e.2.n) ∧
      (∀ e ∈ freqs1, e.1 ∈ sorted_phrases st.freqs ∧
        e.2.r = 1 + index_in e.1 (sorted_phrases st.freqs) ∧ e.2.n = freq_of st.freqs e.1) := by
  have hperm := sorted_phrases_perm st.freqs
  obtain ⟨freqs1, h1, h2, h3, h4, _⟩ := update_dict_loop_ok (sorted_phrases st.freqs) 1 st.freqs [] []
    (fun x hx => hnul x (hperm.mem_iff.mp hx)) (hperm.nodup_iff.mpr hnd)
    (fun x hx => hperm.mem_iff.mp hx)
  refine ⟨freqs1, ?_, h2, h3, ?_⟩
  · unfold update_dict
    simp only
    have : List.insertionSort (fun l r => strcmp l r ≤ 0) (st.freqs.map Prod.fst)
        = sorted_phrases st.freqs := rfl
    rw [this, h1]
    simp
  · intro e he
    have hk : e.1 ∈ sorted_phrases st.freqs := by
      apply hperm.mem_iff.mpr
      rw [← h2]
      exact List.mem_map_of_mem Prod.fst he
    have hi : index_in e.1 (sorted_phrases st.freqs) < (sorted_phrases st.freqs).length :=
      index_in_lt _ _ hk
    have h5 := h4 _ hi
    rw [getElem_index_in _ _ hi] at h5
    have h6 := map_at_of_mem freqs1 (by rw [h2]; exact hnd) e.1 e.2 he
    rw [h5] at h6
    have h7 : e.2 = { n := freq_of st.freqs e.1, r := 1 + index_in e.1 (sorted_phrases st.freqs) } :=
      (Option.some.inj h6).symm
    rw [h7]
    exact ⟨hk, rfl, rfl⟩

/-- C6: on a dictionary of `D` distinct NUL-free phrases `update_dict` returns; it keeps the
phrases and their frequencies; the ranks are exactly `1, ..., D`; the rank of `a` is below the
rank of `b` exactly when `a` is lexicographically smaller than `b`; the sink receives `D` pairs,
the pair at position `r - 1` being the phrase of rank `r` with its frequency, and `occs[r-1]`
is that frequency. -/
theorem update_dict_rank_density (st : Parser) (hnd : (st.freqs.map Prod.fst).Nodup)
    (hnul : ∀ k ∈ st.freqs.map Prod.fst, 0 ∉ k) :
    ∃ st1 log, update_dict st = .ok (st1, log) ∧
      st1.freqs.map Prod.fst = st.freqs.map Prod.fst ∧
      st1.freqs.map (fun e => e.2.n) = st.freqs.map (fun e => e.2.n) ∧
      (st1.freqs.map (fun e => e.2.r)).Perm (List.range' 1 st.freqs.length) ∧
      (∀ a ∈ st1.freqs, ∀ b ∈ st1.freqs, (a.2.r < b.2.r ↔ a.1 < b.1)) ∧
      log.length = st.freqs.length ∧ st1.occs.length = st.freqs.length ∧
      (∀ e ∈ st1.freqs,
        log[e.2.r - 1]? = some (e.1, e.2.n) ∧ st1.occs[e.2.r - 1]? = some e.2.n) := by
  obtain ⟨freqs1, h1, h2, h3, h4⟩ := update_dict_spec st hnd hnul
  have hperm := sorted_phrases_perm st.freqs
  have hlt := sorted_phrases_lt st.freqs hnd hnul
  have hxnd : (sorted_phrases st.freqs).Nodup := hperm.nodup_iff.mpr hnd
  have hlen : (sorted_phrases st.freqs).length = st.freqs.length := by
    rw [hperm.length_eq, List.length_map]
  refine ⟨_, _, h1, h2, h3, ?_, ?_, ?_, ?_, ?_⟩
  · have e1 : freqs1.map (fun e => e.2.r)
        = (freqs1.map Prod.fst).map (fun k => 1 + index_in k (sorted_phrases st.freqs)) := by
      rw [List.map_map]
      exact List.map_congr_left (fun e he => (h4 e he).2.1)
    show (freqs1.map (fun e => e.2.r)).Perm _
    rw [e1, h2]
    refine (hperm.symm.map _).trans ?_
    have e2 : (sorted_phrases st.freqs).map (fun k => 1 + index_in k (sorted_phrases st.freqs))
        = ((sorted_phrases st.freqs).map (fun k => index_in k (sorted_phrases st.freqs))).map
            (fun i => 1 + i) := by
      rw [List.map_map]; rfl
    rw [e2, map_index_in_of_nodup _ hxnd, hlen, List.range'_eq_map_range]
  · intro a ha b hb
    obtain ⟨hak, har, _⟩ := h4 a ha
    obtain ⟨hbk, hbr, _⟩ := h4 b hb
    have hia := index_in_lt _ _ hak
    have hib := index_in_lt _ _ hbk
    have hpw := List.pairwise_iff_getElem.mp hlt
    show a.2.r < b.2.r ↔ a.1 < b.1
    rw [har, hbr]
    constructor
    · intro h
      have := hpw _ _ hia hib (by omega)
      rwa [getElem_index_in _ _ hia, getElem_index_in _ _ hib] at this
    · intro h
      by_contra hn
      rcases Nat.lt_or_eq_of_le (Nat.le_of_not_lt hn) with h7 | h7
      · have := hpw _ _ hib hia (by omega)
        rw [getElem_index_in _ _ hia, getElem_index_in _ _ hib] at this
        exact lt_asymm h this
      · have h8 : index_in b.1 (sorted_phrases st.freqs) = index_in a.1 (sorted_phrases st.freqs) := by
          omega
        have h9 : a.1 = b.1 := by
          have := getElem_index_in _ _ hia
          rw [← this]
          have h10 := getElem_index_in _ _ hib
          simp only [h8] at h10
          exact h10
        rw [h9] at h
        exact lt_irrefl _ h
  · simp [hlen]
  · simp [hlen]
  · intro e he
    obtain ⟨hk, hr, hn⟩ := h4 e he
    have hi := index_in_lt _ _ hk
    have hr1 : e.2.r - 1 = index_in e.1 (sorted_phrases st.freqs) := by omega
    rw [hr1]
    constructor
    · rw [List.getElem?_map, List.getElem?_eq_getElem hi, getElem_index_in _ _ hi]
      simp [hn]
    · show ((sorted_phrases st.freqs).map (freq_of st.freqs))[_]? = _
      rw [List.getElem?_map, List.getElem?_eq_getElem hi, getElem_index_in _ _ hi]
      simp [hn]

/-- The ranking of the dictionary of `ACGTACGTACGT`. -/
theorem update_dict_rank_density_witness :
    ((demoParsed.freqs.map Prod.fst).Nodup ∧ ∀ k ∈ demoParsed.freqs.map Prod.fst, 0 ∉ k) ∧
      ∃ st1 log, update_dict demoParsed = .ok (st1, log) ∧
        (st1.freqs.map (fun e => e.2.r)).Perm (List.range' 1 demoParsed.freqs.length) ∧
        log.length = demoParsed.freqs.length :=
  ⟨⟨by decide, by decide⟩,
    match update_dict_rank_density demoParsed (by decide) (by decide) with
    | ⟨st1, log, h, _, _, hp, _, hl, _⟩ => ⟨st1, log, h, hp, hl⟩⟩

/-! ### generate_parse_ranks and the entry of bwt_of_parse -/

theorem parse_ranks_loop_error (freqs : FreqMap) (ps : List (List Nat)) (acc : List Nat)
    (e : Fault) (h : parse_ranks_loop freqs ps acc = .error e) : e = .fatal := by
  induction ps generalizing acc with
  | nil => simp [parse_ranks_loop] at h
  | cons p ps ih =>
    simp only [parse_ranks_loop] at h
    cases hm : map_at freqs (cstr p) with
    | none => rw [hm] at h; simp only [Except.error.injEq] at h; exact h.symm
    | some wf => rw [hm] at h; exact ih _ h

theorem parse_ranks_loop_length (freqs : FreqMap) (ps : List (List Nat)) (acc ranks : List Nat)
    (h : parse_ranks_loop freqs ps acc = .ok ranks) : ranks.length = acc.length + ps.length := by
  induction ps generalizing acc with
  | nil =>
    simp only [parse_ranks_loop, Except.ok.injEq] at h
    simp [h]
  | cons p ps ih =>
    simp only [parse_ranks_loop] at h
    cases hm : map_at freqs (cstr p) with
    | none => rw [hm] at h; cases h
    | some wf =>
      rw [hm] at h
      rw [ih _ h]
      simp
      omega

/-- C9: after `parse_fasta` has filled the dictionary and the parse, and without any call of
`update_dict`, `generate_parse_ranks` does not fail: it returns a ranked parse of zeros. -/
theorem generate_parse_ranks_before_update_dict :
    parse_fasta demoBuild demoHasher { params := { w := 2, p := 3 } }
        [⟨"r", [65, 67, 71, 84, 65, 67, 71, 84, 65, 67, 71, 84]⟩] = .ok (demoParsed, 12) ∧
      generate_parse_ranks demoParsed =
        .ok { demoParsed with parse_ranks := [0, 0, 0, 0, 0, 0, 0], parse_size := some 7 } := by
  constructor
  · rfl
  · rfl

/-- C10: a ranked parse of zero entries is not rejected. On the parser that `parse_fasta` left
on `ACGTACGTACGT` (window 2, modulus 3), after `clear_parse()` and with no stored ranked parse,
`bwt_of_parse` regenerates the ranked parse from the empty parse; it has zero entries, the test
`parse_ranks.size() == 1` lets it through, and the read `parse_ranks[parse_ranks.size()-1]`
that follows is outside the vector: the run is undefined behaviour, not the fatal error. -/
theorem bwt_of_parse_empty_not_rejected :
    demoParsed.clear_parse.parse_ranks = [] ∧ demoParsed.clear_parse.parse = [] ∧
    generate_parse_ranks demoParsed.clear_parse =
      .ok { demoParsed.clear_parse with parse_ranks := [], parse_size := some 0 } ∧
    bwt_of_parse demoBuild demoParsed.clear_parse = .error .undefined :=
  ⟨rfl, rfl, rfl, rfl⟩

/-- The rejection that the code does make: `bwt_of_parse` ends in a fatal error, without a call
of the sink, when the stored ranked parse has exactly one entry, and when it is empty and the
parse has exactly one entry or the dictionary is empty. -/
theorem bwt_of_parse_rejects_single (B : Build) (st : Parser)
    (h : st.parse_ranks.length = 1 ∨
      (st.parse_ranks = [] ∧ (st.parse.length = 1 ∨ st.freqs = []))) :
    bwt_of_parse B st = .error .fatal := by
  unfold bwt_of_parse
  rcases h with h | ⟨h0, h⟩
  · have : ¬ st.parse_ranks.length = 0 := by omega
    simp [this, h]
  · simp only [h0, List.length_nil, if_true]
    unfold generate_parse_ranks
    by_cases hf : st.freqs.length = 0
    · simp [hf]
    · rw [if_neg hf]
      cases hl : parse_ranks_loop st.freqs st.parse [] with
      | error e => simp [parse_ranks_loop_error _ _ _ _ hl]
      | ok ranks =>
        have hlen := parse_ranks_loop_length _ _ _ _ hl
        rcases h with h | h
        · simp [hlen, h]
        · exact absurd (by simp [h]) hf

/-- The rejection of a stored ranked parse of one entry. -/
theorem bwt_of_parse_rejects_single_witness :
    bwt_of_parse demoBuild { params := { w := 2, p := 3 }, parse_ranks := [1] } = .error .fatal :=
  bwt_of_parse_rejects_single demoBuild { params := { w := 2, p := 3 }, parse_ranks := [1] }
    (Or.inl rfl)

/-! ### The dictionary counts the parse -/

theorem keys_nodup_of_sorted (m : FreqMap) (h : (m.map Prod.fst).Pairwise (fun a b => a < b)) :
    (m.map Prod.fst).Nodup :=
  h.imp (fun hab => ne_of_lt hab)

theorem map_insert_of_mem (k : List Nat) (v : Freq) (m : FreqMap)
    (hs : (m.map Prod.fst).Pairwise (fun a b => a < b)) (h : k ∈ m.map Prod.fst) :
    map_insert k v m = (m, false) := by
  induction m with
  | nil => simp at h
  | cons e m ih =>
    obtain ⟨k0, v0⟩ := e
    simp only [List.map_cons, List.pairwise_cons] at hs
    simp only [map_insert]
    by_cases h0 : k = k0
    · simp [h0]
    · rw [if_neg h0]
      have hm : k ∈ m.map Prod.fst := by
        simp only [List.map_cons, List.mem_cons] at h
        rcases h with h | h
        · exact absurd h h0
        · exact h
      have hlt : ¬ k < k0 := fun h1 => lt_asymm h1 (hs.1 k hm)
      rw [if_neg hlt, ih hs.2 hm]

theorem map_insert_of_not_mem (k : List Nat) (v : Freq) (m : FreqMap)
    (hs : (m.map Prod.fst).Pairwise (fun a b => a < b)) (h : k ∉ m.map Prod.fst) :
    (map_insert k v m).2 = true ∧ (map_insert k v m).1.Perm ((k, v) :: m) ∧
      ((map_insert k v m).1.map Prod.fst).Pairwise (fun a b => a < b) := by
  induction m with
  | nil => simp [map_insert]
  | cons e m ih =>
    obtain ⟨k0, v0⟩ := e
    simp only [List.map_cons, List.mem_cons, not_or] at h
    simp only [List.map_cons, List.pairwise_cons] at hs
    simp only [map_insert]
    rw [if_neg h.1]
    by_cases h1 : k < k0
    · rw [if_pos h1]
      refine ⟨rfl, List.Perm.refl _, ?_⟩
      simp only [List.map_cons, List.pairwise_cons, List.mem_cons]
      refine ⟨?_, hs.1, hs.2⟩
      rintro a (rfl | ha)
      · exact h1
      · exact lt_trans h1 (hs.1 a ha)
    · rw [if_neg h1]
      obtain ⟨h2, h3, h4⟩ := ih hs.2 h.2
      refine ⟨h2, (List.Perm.cons _ h3).trans (List.Perm.swap _ _ _), ?_⟩
      simp only [List.map_cons, List.pairwise_cons]
      refine ⟨?_, h4⟩
      intro a ha
      have := (h3.map Prod.fst).mem_iff.mp ha
      simp only [List.map_cons, List.mem_cons] at this
      rcases this with rfl | h5
      · rcases lt_trichotomy a k0 with h6 | h6 | h6
        · exact absurd h6 h1
        · exact absurd h6 h.1
        · exact h6
      · exact hs.1 a h5

theorem map_modify_eq_map (k : List Nat) (g : Freq → Freq) (m : FreqMap)
    (hnd : (m.map Prod.fst).Nodup) :
    map_modify k g m = m.map (fun e => if e.1 = k then (e.1, g e.2) else e) := by
  induction m with
  | nil => rfl
  | cons e0 m ih =>
    obtain ⟨k0, v0⟩ := e0
    simp only [List.map_cons, List.nodup_cons] at hnd
    simp only [map_modify]
    by_cases h0 : k0 = k
    · rw [if_pos h0]
      simp only [List.map_cons, h0, if_true]
      congr 1
      symm
      rw [List.map_congr_left, List.map_id]
      intro e he
      have : e.1 ≠ k := by
        intro h1
        apply hnd.1
        rw [h0, ← h1]
        exact List.mem_map_of_mem Prod.fst he
      simp [this]
    · rw [if_neg h0]
      simp only [List.map_cons, h0, if_false]
      rw [ih hnd.2]

theorem countP_snoc_eq (ps : List (List Nat)) (x k : List Nat) :
    (ps ++ [x]).countP (fun y => decide (y = k)) =
      ps.countP (fun y => decide (y = k)) + if x = k then 1 else 0 := by
  rw [List.countP_append]
  by_cases h : x = k <;> simp [List.countP_cons, h]

theorem process_phrase_dict (st : Parser) (x : List Nat) (h : DictInv st) :
    DictInv (process_phrase st x) := by
  obtain ⟨hs, hcnt, hmem⟩ := h
  have hnd := keys_nodup_of_sorted st.freqs hs
  unfold DictInv
  simp only [process_phrase]
  by_cases hx : x ∈ st.freqs.map Prod.fst
  · rw [map_insert_of_mem x _ st.freqs hs hx]
    simp only [Bool.false_eq_true, if_false]
    refine ⟨by rw [map_modify_keys]; exact hs, ?_, ?_⟩
    · intro e he
      rw [map_modify_eq_map x _ st.freqs hnd, List.mem_map] at he
      obtain ⟨e0, he0, he1⟩ := he
      rw [countP_snoc_eq]
      have h0 := hcnt e0 he0
      by_cases hk : e0.1 = x
      · rw [if_pos hk] at he1
        rw [← he1]
        simp only
        rw [if_pos hk.symm]
        omega
      · rw [if_neg hk] at he1
        rw [← he1, if_neg (fun h => hk h.symm)]
        exact h0
    · intro y hy
      rw [map_modify_keys]
      rcases List.mem_append.mp hy with hy | hy
      · exact hmem y hy
      · rw [List.mem_singleton.mp hy]; exact hx
  · obtain ⟨h1, h2, h3⟩ := map_insert_of_not_mem x { n := 1 } st.freqs hs hx
    rw [h1]
    simp only [if_true]
    have hxp : x ∉ st.parse := fun h => hx (hmem x h)
    refine ⟨h3, ?_, ?_⟩
    · intro e he
      rw [countP_snoc_eq]
      rcases List.mem_cons.mp (h2.mem_iff.mp he) with he | he
      · rw [he]
        simp only [if_true]
        have : st.parse.countP (fun y => decide (y = x)) = 0 := by
          rw [List.countP_eq_zero]
          intro y hy
          simp only [decide_eq_true_eq]
          intro hyx
          exact hxp (hyx ▸ hy)
        rw [this]
        exact ⟨by simp, Nat.le_refl _⟩
      · have hne : x ≠ e.1 := fun h => hx (h ▸ List.mem_map_of_mem Prod.fst he)
        rw [if_neg hne]
        exact hcnt e he
    · intro y hy
      rw [(h2.map Prod.fst).mem_iff]
      simp only [List.map_cons, List.mem_cons]
      rcases List.mem_append.mp hy with hy | hy
      · exact Or.inr (hmem y hy)
      · exact Or.inl (List.mem_singleton.mp hy)

theorem DictInv.of_sameCore {st st1 : Parser} (hs : SameCore st st1) (h : DictInv st) :
    DictInv st1 := by
  obtain ⟨h1, h2, _⟩ := hs
  unfold DictInv
  rw [h1, h2]
  exact h


/-! ### Properties that every run of parse_fasta_tab keeps -/

theorem parse_char_stable (B : Build) (H : Hasher) (P : Parser → Prop)
    (hpp : ∀ st x, P st → P (process_phrase st x))
    (hsc : ∀ st st1, SameCore st st1 → P st → P st1)
    (s : Parser × Locals H) (ch : Nat) (s1 : Parser × Locals H) (hP : P s.1)
    (h : parse_char_tab B H s ch = .ok s1) : P s1.1 := by
  rcases (parse_char_ok B H s ch s1 h).2 with h1 | ⟨st, x, h1, h2⟩
  · exact hsc _ _ h1 hP
  · exact hsc _ _ h2 (hpp _ _ (hsc _ _ h1 hP))

theorem parse_record_stable (B : Build) (H : Hasher) (P : Parser → Prop)
    (hpp : ∀ st x, P st → P (process_phrase st x))
    (hsc : ∀ st st1, SameCore st st1 → P st → P st1)
    (s : Parser × Locals H) (r : Record) (s1 : Parser × Locals H) (hP : P s.1)
    (h : parse_record_tab B H s r = .ok s1) : P s1.1 := by
  obtain ⟨st, lo⟩ := s
  unfold parse_record_tab at h
  simp only at h
  by_cases hg : ¬ B.M64 = true ∧ lo.total_l + r.seq.length > 0xFFFFFFFF
  · rw [if_pos hg] at h; cases h
  · rw [if_neg hg] at h
    cases hf : r.seq.foldlM (parse_char_tab B H)
        (if st.params.get_da = true then
          { st with doc_starts := st.doc_starts ++ [lo.pos], doc_names := st.doc_names ++ [r.name] }
        else st,
        if B.M64 = true then lo else { lo with total_l := lo.total_l + r.seq.length }) with
    | error e => rw [hf] at h; cases h
    | ok s2 =>
      rw [hf] at h
      obtain ⟨st2, lo2⟩ := s2
      simp only [Except.ok.injEq] at h
      have h0 : P (if st.params.get_da = true then
          { st with doc_starts := st.doc_starts ++ [lo.pos], doc_names := st.doc_names ++ [r.name] }
        else st) := by
        refine hsc st _ ?_ hP
        split
        · exact ⟨rfl, rfl, rfl, rfl, rfl, rfl, rfl⟩
        · exact SameCore.refl st
      have h2 := foldlM_preserves (parse_char_tab B H) (fun x => P x.1)
        (fun b a b1 hb hfa => parse_char_stable B H P hpp hsc b a b1 hb hfa) r.seq _ _ h0 hf
      rw [← h]
      refine hsc st2 _ ?_ h2
      show SameCore st2 (if _ then _ else st2)
      split
      · exact ⟨rfl, rfl, rfl, rfl, rfl, rfl, rfl⟩
      · exact SameCore.refl st2

theorem parse_fasta_flush (B : Build) (H : Hasher) (P : Parser → Prop)
    (hpp : ∀ st x, P st → P (process_phrase st x))
    (hsc : ∀ st st1, SameCore st st1 → P st → P st1)
    (st : Parser) (input : List Record) (st1 : Parser) (n : Nat) (hP : P st)
    (h : parse_fasta_tab B H st input = .ok (st1, n)) :
    ∃ st2 x, P st2 ∧ SameCore (process_phrase st2 x) st1 := by
  unfold parse_fasta_tab at h
  simp only at h
  have h0 : P (if (if st.params.get_sai = true then { st with sai := [] } else st).params.get_da
        = true then
      { (if st.params.get_sai = true then { st with sai := [] } else st) with
        doc_starts := [], doc_names := [] }
      else (if st.params.get_sai = true then { st with sai := [] } else st)) := by
    refine hsc st _ ?_ hP
    split <;> split <;> exact ⟨rfl, rfl, rfl, rfl, rfl, rfl, rfl⟩
  cases hf : input.foldlM (parse_record_tab B H)
      (if (if st.params.get_sai = true then { st with sai := [] } else st).params.get_da
          = true then
        { (if st.params.get_sai = true then { st with sai := [] } else st) with
          doc_starts := [], doc_names := [] }
        else (if st.params.get_sai = true then { st with sai := [] } else st),
        ({ phrase := [B.Dollar], hf := H.init st.params.w } : Locals H)) with
  | error e => rw [hf] at h; cases h
  | ok s2 =>
    rw [hf] at h
    obtain ⟨st2, lo2⟩ := s2
    simp only [Except.ok.injEq, Prod.mk.injEq] at h
    have h2 := foldlM_preserves (parse_record_tab B H) (fun x => P x.1)
      (fun b a b1 hb hfa => parse_record_stable B H P hpp hsc b a b1 hb hfa) input _ _ h0 hf
    refine ⟨st2, lo2.phrase ++ List.replicate st2.params.w B.Dollar, h2, ?_⟩
    rw [← h.1]
    split
    · exact ⟨rfl, rfl, rfl, rfl, rfl, rfl, rfl⟩
    · exact SameCore.refl _

theorem parse_fasta_stable (B : Build) (H : Hasher) (P : Parser → Prop)
    (hpp : ∀ st x, P st → P (process_phrase st x))
    (hsc : ∀ st st1, SameCore st st1 → P st → P st1)
    (st : Parser) (input : List Record) (st1 : Parser) (n : Nat) (hP : P st)
    (h : parse_fasta_tab B H st input = .ok (st1, n)) : P st1 := by
  obtain ⟨st2, x, h1, h2⟩ := parse_fasta_flush B H P hpp hsc st input st1 n hP h
  exact hsc _ _ h2 (hpp _ _ h1)

theorem parse_fasta_parse_ne_nil (B : Build) (H : Hasher) (st : Parser) (input : List Record)
    (st1 : Parser) (n : Nat) (h : parse_fasta_tab B H st input = .ok (st1, n)) : st1.parse ≠ [] := by
  obtain ⟨st2, x, _, h2⟩ := parse_fasta_flush B H (fun _ => True) (fun _ _ _ => trivial)
    (fun _ _ _ _ => trivial) st input st1 n trivial h
  rw [h2.2.1]
  simp [process_phrase]

theorem parse_fasta_dict (B : Build) (H : Hasher) (params : ParserParams) (input : List Record)
    (st1 : Parser) (n : Nat) (h : parse_fasta_tab B H { params := params } input = .ok (st1, n)) :
    DictInv st1 := by
  have h0 : DictInv ({ params := params } : Parser) := by
    refine ⟨List.Pairwise.nil, ?_, ?_⟩
    · intro e he; cases he
    · intro x hx; cases hx
  exact parse_fasta_stable B H DictInv process_phrase_dict (fun _ _ hs hd => hd.of_sameCore hs) _
    input st1 n h0 h


/-! ### The ranked parse -/

theorem parse_ranks_loop_spec (freqs : FreqMap) :
    ∀ (ps : List (List Nat)) (acc : List Nat), (∀ x ∈ ps, 0 ∉ x) →
      (∀ x ∈ ps, x ∈ freqs.map Prod.fst) →
      parse_ranks_loop freqs ps acc = .ok (acc ++ ps.map (rank_of freqs)) := by
  intro ps
  induction ps with
  | nil => intro acc _ _; simp [parse_ranks_loop]
  | cons p ps ih =>
    intro acc hnul hmem
    have hp0 := hnul p (List.mem_cons_self _ _)
    obtain ⟨wf, hwf⟩ := Option.isSome_iff_exists.mp
      ((map_at_isSome freqs p).mpr (hmem p (List.mem_cons_self _ _)))
    simp only [parse_ranks_loop, cstr_of_nulfree p hp0, hwf]
    rw [ih _ (fun x hx => hnul x (List.mem_cons_of_mem _ hx))
      (fun x hx => hmem x (List.mem_cons_of_mem _ hx))]
    simp [rank_of, hwf]

theorem sum_indicator (ks : List (List Nat)) (hnd : ks.Nodup) (y : List Nat) (hy : y ∈ ks) :
    (ks.map (fun k => if y = k then 1 else 0)).sum = 1 := by
  induction ks with
  | nil => cases hy
  | cons k ks ih =>
    have hnd1 := List.nodup_cons.mp hnd
    simp only [List.map_cons, List.sum_cons]
    by_cases h : y = k
    · subst h
      have : (ks.map (fun k => if y = k then 1 else 0)).sum = 0 := by
        apply List.sum_eq_zero
        intro n hn
        obtain ⟨k1, hk1, rfl⟩ := List.mem_map.mp hn
        have : y ≠ k1 := fun h => hnd1.1 (h ▸ hk1)
        simp [this]
      simp [this]
    · have hy1 : y ∈ ks := by
        rcases List.mem_cons.mp hy with h1 | h1
        · exact absurd h1 h
        · exact h1
      simp [h, ih hnd1.2 hy1]

theorem sum_countP_eq_length (ks : List (List Nat)) (hnd : ks.Nodup) :
    ∀ ps : List (List Nat), (∀ x ∈ ps, x ∈ ks) →
      (ks.map (fun k => ps.countP (fun y => decide (y = k)))).sum = ps.length := by
  intro ps
  induction ps with
  | nil => intro _; simp
  | cons p ps ih =>
    intro hmem
    have e : (fun k => (p :: ps).countP (fun y => decide (y = k)))
        = (fun k => ps.countP (fun y => decide (y = k)) + if p = k then 1 else 0) := by
      funext k
      by_cases h : p = k <;> simp [List.countP_cons, h]
    rw [e, List.sum_map_add, ih (fun x hx => hmem x (List.mem_cons_of_mem _ hx)),
      sum_indicator ks hnd p (hmem p (List.mem_cons_self _ _))]
    simp


theorem mem_keys_iff (m : FreqMap) (k : List Nat) :
    k ∈ m.map Prod.fst ↔ ∃ f, (k, f) ∈ m := by
  simp [List.mem_map]

theorem DictInv.key_mem_parse {st : Parser} (hd : DictInv st) (k : List Nat)
    (hk : k ∈ st.freqs.map Prod.fst) : k ∈ st.parse := by
  obtain ⟨f, hf⟩ := (mem_keys_iff _ _).mp hk
  have h := hd.2.1 (k, f) hf
  simp only at h
  have hpos : 0 < st.parse.countP (fun y => decide (y = k)) := by omega
  obtain ⟨y, hy, hyk⟩ := List.countP_pos_iff.mp hpos
  simp only [decide_eq_true_eq] at hyk
  exact hyk ▸ hy

theorem DictInv.freq_of_eq {st : Parser} (hd : DictInv st) (k : List Nat)
    (hk : k ∈ st.freqs.map Prod.fst) :
    freq_of st.freqs k = st.parse.countP (fun y => decide (y = k)) := by
  obtain ⟨f, hf⟩ := (mem_keys_iff _ _).mp hk
  have h := hd.2.1 (k, f) hf
  simp only at h
  unfold freq_of
  rw [map_at_of_mem st.freqs (keys_nodup_of_sorted _ hd.1) k f hf]
  exact h.1

/-- The state after `update_dict` and `generate_parse_ranks`, in terms of the state after
`parse_fasta_tab`, when no phrase holds a NUL byte. -/
theorem ranked_parse_spec (st1 st2 st3 : Parser) (log : List (List Nat × Nat))
    (hd : DictInv st1) (hnul : ∀ x ∈ st1.parse, 0 ∉ x)
    (h2 : update_dict st1 = .ok (st2, log)) (h3 : generate_parse_ranks st2 = .ok st3) :
    st3.parse_ranks = st1.parse.map (fun x => 1 + index_in x (sorted_phrases st1.freqs)) ∧
    st3.occs = (sorted_phrases st1.freqs).map
      (fun k => st1.parse.countP (fun y => decide (y = k))) ∧
    st3.parse = st1.parse ∧ st3.last = st1.last ∧ st3.sai = st1.sai ∧
    st3.params = st1.params := by
  have hnd := keys_nodup_of_sorted _ hd.1
  have hknul : ∀ k ∈ st1.freqs.map Prod.fst, 0 ∉ k := fun k hk =>
    hnul k (hd.key_mem_parse k hk)
  obtain ⟨freqs1, e1, e2, _, e4⟩ := update_dict_spec st1 hnd hknul
  rw [e1] at h2
  simp only [Except.ok.injEq, Prod.mk.injEq] at h2
  obtain ⟨h2, _⟩ := h2
  subst h2
  unfold generate_parse_ranks at h3
  simp only at h3
  by_cases hl : freqs1.length = 0
  · rw [if_pos hl] at h3; cases h3
  · rw [if_neg hl, parse_ranks_loop_spec freqs1 st1.parse [] hnul
      (fun x hx => by rw [e2]; exact hd.2.2 x hx)] at h3
    simp only [List.nil_append, Except.ok.injEq] at h3
    subst h3
    refine ⟨?_, ?_, rfl, rfl, rfl, rfl⟩
    · apply List.map_congr_left
      intro x hx
      have hxk : x ∈ freqs1.map Prod.fst := by rw [e2]; exact hd.2.2 x hx
      obtain ⟨f, hf⟩ := (mem_keys_iff _ _).mp hxk
      unfold rank_of
      rw [map_at_of_mem freqs1 (by rw [e2]; exact hnd) x f hf]
      exact (e4 (x, f) hf).2.1
    · apply List.map_congr_left
      intro k hk
      exact hd.freq_of_eq k ((sorted_phrases_perm st1.freqs).mem_iff.mp hk)

/-! ### The cursor array F -/

theorem rd_eq_ok {α : Type} (v : List α) (i : Nat) (h : i < v.length) : rd v i = .ok v[i] := by
  simp [rd, List.getElem?_eq_getElem h]

theorem wr_eq_ok {α : Type} (v : List α) (i : Nat) (a : α) (h : i < v.length) :
    wr v i a = .ok (v.set i a) := by
  simp [wr, h]

theorem F_after_length (occs : List Nat) (m : Nat) : (F_after occs m).length = occs.length + 1 := by
  simp [F_after]

theorem F_after_getElem (occs : List Nat) (m j : Nat) (h : j < (F_after occs m).length) :
    (F_after occs m)[j] = if j = 0 then 0 else if j ≤ m then 1 + (occs.take (j - 1)).sum else 0 := by
  simp [F_after]

theorem sum_take_succ' (l : List Nat) (i : Nat) (h : i < l.length) :
    (l.take (i + 1)).sum = (l.take i).sum + l[i] := by
  induction l generalizing i with
  | nil => simp at h
  | cons a l ih =>
    cases i with
    | zero => simp
    | succ i =>
      simp only [List.take_succ_cons, List.sum_cons, List.getElem_cons_succ]
      rw [ih i (by simpa using h)]
      omega

theorem F_init (occs : List Nat) :
    (List.replicate (occs.length + 1) 0).set 1 1 = F_after occs 1 := by
  apply List.ext_getElem
  · simp [F_after_length]
  · intro j h1 h2
    simp only [F_after_getElem, List.getElem_set]
    by_cases hj : 1 = j
    · subst hj; simp
    · rw [if_neg hj, List.getElem_replicate]
      by_cases h0 : j = 0
      · simp [h0]
      · rw [if_neg h0, if_neg (by omega)]

theorem F_row_spec (occs : List Nat) (i : Nat) (h2 : 2 ≤ i) (hi : i ≤ occs.length) :
    F_row occs (F_after occs (i - 1)) i = .ok (F_after occs i) := by
  unfold F_row
  rw [rd_eq_ok _ (i - 1) (by rw [F_after_length]; omega), rd_eq_ok occs (i - 2) (by omega)]
  simp only
  rw [wr_eq_ok _ i _ (by rw [F_after_length]; omega)]
  congr 1
  apply List.ext_getElem
  · simp [F_after_length]
  · intro j h3 h4
    simp only [List.getElem_set, F_after_getElem]
    by_cases hj : i = j
    · subst hj
      rw [if_pos rfl, if_neg (by omega), if_pos (Nat.le_refl _), if_neg (by omega),
        if_pos (Nat.le_refl _)]
      have := sum_take_succ' occs (i - 2) (by omega)
      have e : i - 2 + 1 = i - 1 := by omega
      have e2 : i - 1 - 1 = i - 2 := by omega
      rw [e] at this
      rw [this, e2]
      omega
    · rw [if_neg hj]
      by_cases h0 : j = 0
      · simp [h0]
      · rw [if_neg h0, if_neg h0]
        by_cases h5 : j ≤ i - 1
        · rw [if_pos h5, if_pos (by omega)]
        · rw [if_neg h5, if_neg (by omega)]

theorem F_fold_spec (occs : List Nat) :
    ∀ (k i : Nat), 2 ≤ i → i + k = occs.length + 1 →
      (List.range' i k).foldlM (F_row occs) (F_after occs (i - 1)) = .ok (F_after occs occs.length) := by
  intro k
  induction k with
  | zero =>
    intro i _ h
    have : i - 1 = occs.length := by omega
    rw [this]
    rfl
  | succ k ih =>
    intro i h2 h
    rw [List.range'_succ, List.foldlM_cons, F_row_spec occs i h2 (by omega)]
    have := ih (i + 1) (by omega) (by omega)
    simp only [Nat.add_sub_cancel] at this
    exact this

theorem build_F_spec (occs : List Nat) (hD : 1 ≤ occs.length) :
    build_F occs = .ok (F_after occs occs.length) := by
  unfold build_F
  rw [wr_eq_ok _ 1 1 (by simp; omega)]
  simp only
  rw [F_init occs]
  exact F_fold_spec occs (occs.length - 1) 2 (Nat.le_refl _) (by omega)

theorem F_after_last (occs : List Nat) (hD : 1 ≤ occs.length) :
    ∃ a b, (F_after occs occs.length)[occs.length]? = some a ∧
      occs[occs.length - 1]? = some b ∧ a + b = occs.sum + 1 := by
  refine ⟨1 + (occs.take (occs.length - 1)).sum, occs[occs.length - 1], ?_, ?_, ?_⟩
  · rw [List.getElem?_eq_getElem (by rw [F_after_length]; omega), F_after_getElem,
      if_neg (by omega), if_pos (Nat.le_refl _)]
  · rw [List.getElem?_eq_getElem (by omega)]
  · have := sum_take_succ' occs (occs.length - 1) (by omega)
    have e : occs.length - 1 + 1 = occs.length := by omega
    rw [e, List.take_length] at this
    omega

/-- C8, as stated, fails: on `ACGTACGTACGT` with window 2 and modulus 3 the ranked parse has
`n = 7` entries before the sentinel and the entries of `occs` sum to 7, not to `n + 1 = 8`. -/
theorem occs_sum_not_n_plus_one :
    parse_fasta demoBuild demoHasher { params := { w := 2, p := 3 } }
        [⟨"r", [65, 67, 71, 84, 65, 67, 71, 84, 65, 67, 71, 84]⟩] = .ok (demoParsed, 12) ∧
    ∃ st2 log st3, update_dict demoParsed = .ok (st2, log) ∧
      generate_parse_ranks st2 = .ok st3 ∧ st3.parse_ranks = [1, 2, 4, 2, 4, 2, 3] ∧
      st3.occs = [1, 3, 1, 2] ∧ st3.occs.sum ≠ st3.parse_ranks.length + 1 :=
  ⟨rfl, _, _, _, rfl, rfl, rfl, rfl, by decide⟩

/-- C8, amended: after `parse_fasta` on a fresh parser, `update_dict` and
`generate_parse_ranks`, when no phrase holds a NUL byte, no rank is 0 (so `bwt_of_parse` takes
`n` to be the length of the ranked parse and appends the sentinel), the entries of `occs` sum to
`n`, and the total that `bwt_of_parse` asserts, `F[occs.size()] + occs[occs.size()-1]`, which
counts the sentinel through `F[1] = 1`, is `n + 1`. -/
theorem occs_sum_is_n (B : Build) (H : Hasher) (params : ParserParams) (input : List Record)
    (st0 st1 : Parser) (n1 : Nat) (st2 : Parser) (log : List (List Nat × Nat)) (st3 : Parser)
    (h0 : Parser.new params = .ok st0) (h1 : parse_fasta B H st0 input = .ok (st1, n1))
    (hnul : ∀ x ∈ st1.parse, 0 ∉ x) (h2 : update_dict st1 = .ok (st2, log))
    (h3 : generate_parse_ranks st2 = .ok st3) :
    (∀ r ∈ st3.parse_ranks, r ≠ 0) ∧ st3.occs.sum = st3.parse_ranks.length ∧
    ∃ F a b, build_F st3.occs = .ok F ∧ F[st3.occs.length]? = some a ∧
      st3.occs[st3.occs.length - 1]? = some b ∧ a + b = st3.parse_ranks.length + 1 := by
  obtain ⟨rfl, _⟩ := Parser_new_ok params st0 h0
  have h1 := parse_fasta_refines B H _ input _ h1
  have hd := parse_fasta_dict B H params input st1 n1 h1
  have hne := parse_fasta_parse_ne_nil B H _ input st1 n1 h1
  obtain ⟨e1, e2, _⟩ := ranked_parse_spec st1 st2 st3 log hd hnul h2 h3
  have hperm := sorted_phrases_perm st1.freqs
  have hxnd : (sorted_phrases st1.freqs).Nodup :=
    hperm.nodup_iff.mpr (keys_nodup_of_sorted _ hd.1)
  have hmem : ∀ x ∈ st1.parse, x ∈ sorted_phrases st1.freqs := fun x hx =>
    hperm.mem_iff.mpr (hd.2.2 x hx)
  have hsum : st3.occs.sum = st3.parse_ranks.length := by
    rw [e1, e2, sum_countP_eq_length _ hxnd _ hmem, List.length_map]
  have hD : 1 ≤ st3.occs.length := by
    rw [e2, List.length_map]
    cases hp : st1.parse with
    | nil => exact absurd hp hne
    | cons x xs =>
      exact List.length_pos_of_mem (hmem x (by rw [hp]; exact List.mem_cons_self _ _))
  refine ⟨?_, hsum, ?_⟩
  · intro r hr
    rw [e1] at hr
    obtain ⟨x, _, rfl⟩ := List.mem_map.mp hr
    omega
  · obtain ⟨a, b, ha, hb, hab⟩ := F_after_last st3.occs hD
    exact ⟨_, a, b, build_F_spec st3.occs hD, ha, hb, by rw [hab, hsum]⟩

/-- The occurrence total on `ACGTACGTACGT` with window 2 and modulus 3. -/
theorem occs_sum_is_n_witness :
    ∃ st2 log st3, update_dict demoParsed = .ok (st2, log) ∧
      generate_parse_ranks st2 = .ok st3 ∧ st3.occs.sum = st3.parse_ranks.length :=
  ⟨_, _, _, rfl, rfl,
    (occs_sum_is_n demoBuild demoHasher { w := 2, p := 3 }
      [⟨"r", [65, 67, 71, 84, 65, 67, 71, 84, 65, 67, 71, 84]⟩] _ demoParsed 12 _ _ _ rfl rfl
      (by decide) rfl rfl).2.1⟩

/-! ### The suffix array of a ranked parse -/

theorem IsSuffixArray.length_eq {s SA : List Nat} (h : IsSuffixArray s SA) :
    SA.length = s.length := by
  rw [h.1.length_eq, List.length_range]

theorem IsSuffixArray.mem_iff {s SA : List Nat} (h : IsSuffixArray s SA) (j : Nat) :
    j ∈ SA ↔ j < s.length := by
  rw [h.1.mem_iff, List.mem_range]

theorem SA_at_length (T SA0 : List Nat) (i : Nat) : (SA_at T SA0 i).length = SA0.length := by
  simp [SA_at]

theorem SA_at_getElem (T SA0 : List Nat) (i j : Nat) (h : j < (SA_at T SA0 i).length) :
    (SA_at T SA0 i)[j] = if j < i then bw_sym T (SA0.getD j 0) else SA0.getD j 0 := by
  simp [SA_at]

theorem SA_at_set (T SA0 : List Nat) (i : Nat) (_ : i < SA0.length) :
    (SA_at T SA0 i).set i (bw_sym T (SA0.getD i 0)) = SA_at T SA0 (i + 1) := by
  apply List.ext_getElem
  · simp [SA_at_length]
  · intro j h1 h2
    simp only [List.getElem_set, SA_at_getElem]
    by_cases hj : i = j
    · subst hj
      rw [if_pos rfl, if_pos (by omega)]
    · rw [if_neg hj]
      by_cases h3 : j < i
      · rw [if_pos h3, if_pos (by omega)]
      · rw [if_neg h3, if_neg (by omega)]

theorem SA_at_full (T SA0 : List Nat) : SA_at T SA0 SA0.length = SA0.map (bw_sym T) := by
  apply List.ext_getElem
  · simp [SA_at_length]
  · intro j h1 h2
    have hj : j < SA0.length := by simpa [SA_at_length] using h1
    simp only [SA_at_getElem, List.getElem_map]
    rw [if_pos hj, List.getD_eq_getElem _ _ hj]

theorem SA_at_first (T SA0 : List Nat) (n : Nat) (hlen : SA0.length = n + 1) (hn : 1 ≤ n)
    (h0 : SA0[0]? = some n) (r0 : Nat) (hr : T[n - 1]? = some r0) :
    SA0.set 0 r0 = SA_at T SA0 1 := by
  have hz : SA0.getD 0 0 = n := by
    rw [List.getD_eq_getElem?_getD, h0]; rfl
  have hb : bw_sym T (SA0.getD 0 0) = r0 := by
    rw [hz]
    unfold bw_sym
    rw [if_neg (by omega), List.getD_eq_getElem?_getD, hr]
    rfl
  have := SA_at_set T SA0 0 (by omega)
  rw [hb] at this
  rw [← this]
  congr 1
  apply List.ext_getElem
  · simp [SA_at_length]
  · intro j h1 h2
    simp only [SA_at_getElem]
    rw [if_neg (by omega), List.getD_eq_getElem _ _ h1]

theorem bwt_row_spec (st : Parser) (n : Nat) (SA0 : List Nat) (i : Nat)
    (hlen : SA0.length = n + 1) (hi : i < n + 1)
    (hrange : ∀ j ∈ SA0, j < st.parse_ranks.length + 1)
    (bl bs : List (Option Nat)) :
    ∃ bl1 bs1, bwt_row st n (SA_at st.parse_ranks SA0 i, bl, bs) i =
      .ok (SA_at st.parse_ranks SA0 (i + 1), bl1, bs1) := by
  have hi1 : i < SA0.length := by omega
  have hi2 : i < (SA_at st.parse_ranks SA0 i).length := by rw [SA_at_length]; exact hi1
  have hget : (SA_at st.parse_ranks SA0 i)[i] = SA0[i] := by
    rw [SA_at_getElem, if_neg (Nat.lt_irrefl _), List.getD_eq_getElem _ _ hi1]
  unfold bwt_row
  simp only
  rw [rd_eq_ok _ i hi2, hget]
  simp only
  have hset := SA_at_set st.parse_ranks SA0 i hi1
  rw [List.getD_eq_getElem _ _ hi1] at hset
  by_cases hz : SA0[i] = 0
  · rw [if_pos hz]
    refine ⟨bl ++ [some 0], if st.params.get_sai = true then bs ++ [some 0] else bs, ?_⟩
    rw [← hset, hz]
    rfl
  · rw [if_neg hz]
    have hr : SA0[i] - 1 < st.parse_ranks.length := by
      have := hrange SA0[i] (List.getElem_mem hi1)
      omega
    rw [rd_eq_ok _ _ hr]
    simp only
    refine ⟨bl ++ [if SA0[i] = 1 then (st.last[size_sub n 1]?).join
        else (st.last[SA0[i] - 2]?).join],
      if st.params.get_sai = true then bs ++ [st.sai[SA0[i] - 1]?] else bs, ?_⟩
    rw [← hset]
    unfold bw_sym
    rw [if_neg hz, List.getD_eq_getElem _ _ hr]

theorem bwt_fold_spec (st : Parser) (n : Nat) (SA0 : List Nat)
    (hlen : SA0.length = n + 1) (hrange : ∀ j ∈ SA0, j < st.parse_ranks.length + 1) :
    ∀ (k i : Nat), i + k = n + 1 → ∀ (bl bs : List (Option Nat)),
      ∃ bl1 bs1, (List.range' i k).foldlM (bwt_row st n) (SA_at st.parse_ranks SA0 i, bl, bs) =
        .ok (SA0.map (bw_sym st.parse_ranks), bl1, bs1) := by
  intro k
  induction k with
  | zero =>
    intro i h bl bs
    have : i = SA0.length := by omega
    rw [this, SA_at_full]
    exact ⟨bl, bs, rfl⟩
  | succ k ih =>
    intro i h bl bs
    obtain ⟨bl1, bs1, h1⟩ := bwt_row_spec st n SA0 i hlen (by omega) hrange bl bs
    obtain ⟨bl2, bs2, h2⟩ := ih (i + 1) (by omega) bl1 bs1
    refine ⟨bl2, bs2, ?_⟩
    rw [List.range'_succ, List.foldlM_cons, h1]
    exact h2

/-! ### The fill loop of ilist -/

theorem countP_take_succ (l : List Nat) (i c : Nat) (h : i < l.length) :
    (l.take (i + 1)).countP (fun x => decide (x = c)) =
      (l.take i).countP (fun x => decide (x = c)) + if l[i] = c then 1 else 0 := by
  rw [List.take_succ, List.countP_append, List.getElem?_eq_getElem h]
  by_cases hc : l[i] = c <;> simp [List.countP_cons, hc]

theorem countP_take_le (l : List Nat) (i c : Nat) :
    (l.take i).countP (fun x => decide (x = c)) ≤ l.countP (fun x => decide (x = c)) :=
  (List.take_sublist i l).countP_le _

theorem IlistInv.init (BW F0 : List Nat) :
    IlistInv BW F0 0 (F0, List.replicate BW.length 0) := by
  refine ⟨rfl, by simp, ?_, ?_⟩
  · intro c h h1; simp
  · intro h; omega

/-! ### bwt_finish on a well-formed ranked parse -/

theorem sum_take_le (l : List Nat) (i : Nat) : (l.take i).sum ≤ l.sum := by
  have h := congrArg List.sum (List.take_append_drop i l)
  rw [List.sum_append] at h
  omega

theorem map_bw_sym_range (P : List Nat) :
    (List.range (P.length + 1)).map (bw_sym (P ++ [0])) = 0 :: P := by
  rw [List.range_succ_eq_map, List.map_cons, List.map_map]
  congr 1
  apply List.ext_getElem
  · simp
  · intro j h1 h2
    simp only [List.getElem_map, List.getElem_range, Function.comp, bw_sym]
    rw [if_neg (by omega)]
    simp only [Nat.succ_eq_add_one, Nat.add_sub_cancel]
    rw [List.getD_eq_getElem _ _ (by simp; omega), List.getElem_append_left h2]

theorem QuietInv.transfer {B : Build} {H : Hasher} {params : ParserParams} {T : List Nat}
    {st : Parser} {lo : Locals H} (h : QuietInv B H params T (st, lo)) (st1 : Parser)
    (lo1 : Locals H) (h1 : st1.parse = st.parse) (h2 : st1.params = st.params)
    (h3 : lo1.phrase = lo.phrase) (h4 : lo1.hf = lo.hf) (h5 : st1.freqs = st.freqs) :
    QuietInv B H params T (st1, lo1) := by
  obtain ⟨a, b, c, d, e⟩ := h
  simp only at a b c d e
  constructor
  · show st1.params = params
    rw [h2]; exact a
  · show lo1.hf = _
    rw [h4]; exact b
  · show st1.parse = []
    rw [h1]; exact c
  · show st1.freqs = []
    rw [h5]; exact d
  · show lo1.phrase = _
    rw [h3]; exact e

theorem append_char_quiet (B : Build) (H : Hasher) (params : ParserParams) (T : List Nat)
    (st : Parser) (lo : Locals H) (c : Nat) (hp : params.p ≠ 0)
    (hinv : QuietInv B H params T (st, lo))
    (hq : H.hashvalue (hash_after H params.w (T ++ [c])) % params.p ≠ 0) :
    ∃ s1, append_char H st lo c = .ok s1 ∧ QuietInv B H params (T ++ [c]) s1 := by
  have hpar : st.params = params := hinv.params_eq
  have hh : H.update lo.hf c = hash_after H params.w (T ++ [c]) := by
    rw [hash_after_snoc, ← hinv.hf_eq]
  unfold append_char
  rw [hpar, if_neg hp, hh, if_neg hq]
  refine ⟨_, rfl, ⟨hpar, rfl, hinv.parse_nil, hinv.freqs_nil, ?_⟩⟩
  show lo.phrase ++ [c] = _
  rw [hinv.phrase_eq]
  rfl

/-- A nonempty prefix of a text on which no boundary fires does not fire. -/
theorem quiet_initial (H : Hasher) (w p : Nat) (full T rest : List Nat)
    (hq : ∀ k, 0 < k → k ≤ full.length → H.hashvalue (hash_after H w (full.take k)) % p ≠ 0)
    (hfull : T ++ rest = full) (hT : T ≠ []) :
    H.hashvalue (hash_after H w T) % p ≠ 0 := by
  have hk : T.length ≤ full.length := by rw [← hfull]; simp
  have := hq T.length (List.length_pos.mpr hT) hk
  rwa [← hfull, List.take_left] at this

theorem parse_char_quiet (B : Build) (H : Hasher) (params : ParserParams) (full T rest : List Nat)
    (s : Parser × Locals H) (ch : Nat) (hp : params.p ≠ 0)
    (hq : ∀ k, 0 < k → k ≤ full.length →
      H.hashvalue (hash_after H params.w (full.take k)) % params.p ≠ 0)
    (hfull : T ++ preprocess B params [ch] ++ rest = full)
    (hinv : QuietInv B H params T s) :
    ∃ s1, parse_char_tab B H s ch = .ok s1 ∧ QuietInv B H params (T ++ preprocess B params [ch]) s1 := by
  obtain ⟨st, lo⟩ := s
  have hpar : st.params = params := hinv.params_eq
  have key : ∀ (st1 : Parser) (lo1 : Locals H) (c : Nat), preprocess B params [ch] = [c] →
      QuietInv B H params T (st1, lo1) →
      ∃ s1, append_char H st1 lo1 c = .ok s1 ∧
        QuietInv B H params (T ++ preprocess B params [ch]) s1 := by
    intro st1 lo1 c hc hi
    rw [hc] at hfull ⊢
    exact append_char_quiet B H params T st1 lo1 c hp hi
      (quiet_initial H params.w params.p full (T ++ [c]) rest hq hfull (by simp))
  unfold parse_char_tab
  simp only [hpar]
  by_cases ht : params.trim_non_acgt = true
  · simp only [ht, if_true]
    by_cases hy : B.seq_nt4_table (toupper ch) > 3
    · rw [if_pos hy]
      refine ⟨_, rfl, ?_⟩
      have hc : preprocess B params [ch] = [] := by
        simp [preprocess, ht]; omega
      rw [hc, List.append_nil]
      exact hinv.transfer _ _ rfl rfl rfl rfl rfl
    · rw [if_neg hy]
      have hc : preprocess B params [ch] = [toupper ch] := by
        simp [preprocess, ht]; omega
      split
      · exact key _ _ _ hc (hinv.transfer _ _ rfl hpar.symm rfl rfl rfl)
      · exact key _ _ _ hc hinv
  · simp only [ht, Bool.false_eq_true, if_false]
    by_cases ha : params.non_acgt_to_a = true ∧ B.seq_nt4_table (toupper ch) > 3
    · rw [if_pos ha]
      have hc : preprocess B params [ch] = [65] := by
        simp [preprocess, ht, ha.1, ha.2]
      exact key _ _ _ hc hinv
    · rw [if_neg ha]
      have hc : preprocess B params [ch] = [toupper ch] := by
        simp only [preprocess, ht, Bool.false_eq_true, if_false]
        by_cases h1 : params.non_acgt_to_a = true
        · have : ¬ B.seq_nt4_table (toupper ch) > 3 := fun h => ha ⟨h1, h⟩
          simp [h1, this]
        · simp [h1]
      exact key _ _ _ hc hinv

theorem parse_chars_quiet (B : Build) (H : Hasher) (params : ParserParams) (full : List Nat)
    (hp : params.p ≠ 0)
    (hq : ∀ k, 0 < k → k ≤ full.length →
      H.hashvalue (hash_after H params.w (full.take k)) % params.p ≠ 0) :
    ∀ (cs : List Nat) (T rest : List Nat) (s : Parser × Locals H),
      T ++ preprocess B params cs ++ rest = full → QuietInv B H params T s →
      ∃ s1, cs.foldlM (parse_char_tab B H) s = .ok s1 ∧
        QuietInv B H params (T ++ preprocess B params cs) s1 := by
  intro cs
  induction cs with
  | nil =>
    intro T rest s _ hinv
    exact ⟨s, rfl, by rw [preprocess_nil, List.append_nil]; exact hinv⟩
  | cons ch cs ih =>
    intro T rest s hfull hinv
    rw [preprocess_cons] at hfull ⊢
    obtain ⟨s1, h1, hinv1⟩ := parse_char_quiet B H params full T (preprocess B params cs ++ rest)
      s ch hp hq (by rw [← hfull]; simp [List.append_assoc]) hinv
    obtain ⟨s2, h2, hinv2⟩ := ih (T ++ preprocess B params [ch]) rest s1
      (by rw [← hfull]; simp [List.append_assoc]) hinv1
    refine ⟨s2, ?_, by rw [← List.append_assoc]; exact hinv2⟩
    rw [List.foldlM_cons, h1]
    exact h2

theorem parse_record_quiet (B : Build) (H : Hasher) (params : ParserParams) (full T rest : List Nat)
    (s : Parser × Locals H) (r : Record) (hp : params.p ≠ 0)
    (hq : ∀ k, 0 < k → k ≤ full.length →
      H.hashvalue (hash_after H params.w (full.take k)) % params.p ≠ 0)
    (hfull : T ++ preprocess B params r.seq ++ rest = full)
    (hguard : B.M64 = true ∨ s.2.total_l + r.seq.length ≤ 0xFFFFFFFF)
    (hinv : QuietInv B H params T s) :
    ∃ s1, parse_record_tab B H s r = .ok s1 ∧ QuietInv B H params (T ++ preprocess B params r.seq) s1 ∧
      (B.M64 = false → s1.2.total_l = s.2.total_l + r.seq.length) := by
  obtain ⟨st, lo⟩ := s
  unfold parse_record_tab
  simp only
  have hg : ¬ (¬ B.M64 = true ∧ lo.total_l + r.seq.length > 0xFFFFFFFF) := by
    rintro ⟨h1, h2⟩
    rcases hguard with h | h
    · exact h1 h
    · simp only at h; omega
  rw [if_neg hg]
  have hinv0 : QuietInv B H params T
      (if st.params.get_da = true then
          { st with doc_starts := st.doc_starts ++ [lo.pos], doc_names := st.doc_names ++ [r.name] }
        else st,
        if B.M64 = true then lo else { lo with total_l := lo.total_l + r.seq.length }) :=
    hinv.transfer _ _ (by split <;> rfl) (by split <;> rfl) (by split <;> rfl) (by split <;> rfl)
      (by split <;> rfl)
  obtain ⟨s1, h1, hinv1⟩ := parse_chars_quiet B H params full hp hq r.seq T rest _ hfull hinv0
  have htot := foldlM_preserves (parse_char_tab B H) (fun x => x.2.total_l =
      (if B.M64 = true then lo else { lo with total_l := lo.total_l + r.seq.length }).total_l)
    (fun b a b1 hb hf => (parse_char_total_l B H b a b1 hf).trans hb) r.seq _ s1 rfl h1
  rw [h1]
  obtain ⟨st2, lo2⟩ := s1
  refine ⟨_, rfl, ?_, ?_⟩
  · exact hinv1.transfer _ _ (by split <;> rfl) (by split <;> rfl) rfl rfl (by split <;> rfl)
  · intro hm
    show lo2.total_l = _
    simp only at htot
    rw [htot, if_neg (by simp [hm])]

theorem parse_records_quiet (B : Build) (H : Hasher) (params : ParserParams) (full : List Nat)
    (hp : params.p ≠ 0)
    (hq : ∀ k, 0 < k → k ≤ full.length →
      H.hashvalue (hash_after H params.w (full.take k)) % params.p ≠ 0) :
    ∀ (input : List Record) (T rest : List Nat) (s : Parser × Locals H),
      T ++ preprocess B params (residues input) ++ rest = full →
      (B.M64 = true ∨ s.2.total_l + (residues input).length ≤ 0xFFFFFFFF) →
      QuietInv B H params T s →
      ∃ s1, input.foldlM (parse_record_tab B H) s = .ok s1 ∧
        QuietInv B H params (T ++ preprocess B params (residues input)) s1 := by
  intro input
  induction input with
  | nil =>
    intro T rest s _ _ hinv
    refine ⟨s, rfl, ?_⟩
    simp only [residues, List.map_nil, List.flatten_nil, preprocess_nil, List.append_nil]
    exact hinv
  | cons r input ih =>
    intro T rest s hfull hguard hinv
    rw [residues_cons, preprocess_append] at hfull ⊢
    rw [residues_cons, List.length_append] at hguard
    obtain ⟨s1, h1, hinv1, htot⟩ := parse_record_quiet B H params full T
      (preprocess B params (residues input) ++ rest) s r hp hq
      (by rw [← hfull]; simp [List.append_assoc])
      (by rcases hguard with h | h
          · exact Or.inl h
          · right; omega) hinv
    obtain ⟨s2, h2, hinv2⟩ := ih (T ++ preprocess B params r.seq) rest s1
      (by rw [← hfull]; simp [List.append_assoc])
      (by have hm : B.M64 = false ∨ B.M64 = true := by cases B.M64 <;> simp
          rcases hm with hm | hm
          · rcases hguard with h | h
            · exact Or.inl h
            · right; rw [htot hm]; omega
          · exact Or.inl hm) hinv1
    refine ⟨s2, ?_, by rw [← List.append_assoc]; exact hinv2⟩
    rw [List.foldlM_cons, h1]
    exact h2

/-- On a text that fires no boundary, `parse_fasta_tab` leaves the single phrase of the final
flush. -/
theorem parse_fasta_quiet (B : Build) (H : Hasher) (params : ParserParams)
    (input : List Record) (hp : 1 ≤ params.p)
    (hguard : B.M64 = true ∨ (residues input).length ≤ 0xFFFFFFFF)
    (hq : ∀ k, 0 < k → k ≤ (preprocess B params (residues input)).length →
      H.hashvalue (hash_after H params.w ((preprocess B params (residues input)).take k)) %
        params.p ≠ 0) :
    ∃ st n, parse_fasta_tab B H { params := params } input = .ok (st, n) ∧
      st.parse = [B.Dollar :: preprocess B params (residues input) ++
        List.replicate params.w B.Dollar] ∧
      st.freqs.map Prod.fst = st.parse := by
  have hbase : QuietInv B H params []
      (({ params := params } : Parser),
        ({ phrase := [B.Dollar], hf := H.init params.w } : Locals H)) :=
    ⟨rfl, rfl, rfl, rfl, rfl⟩
  have hinv0 := hbase.transfer
    (if (if params.get_sai = true then ({ params := params, sai := [] } : Parser)
            else { params := params }).params.get_da = true then
          { (if params.get_sai = true then ({ params := params, sai := [] } : Parser)
              else { params := params }) with doc_starts := [], doc_names := [] }
        else (if params.get_sai = true then ({ params := params, sai := [] } : Parser)
              else { params := params }))
    ({ phrase := [B.Dollar], hf := H.init params.w } : Locals H)
    (by split <;> split <;> rfl) (by split <;> split <;> rfl) rfl rfl
    (by split <;> split <;> rfl)
  obtain ⟨s1, h1, hinv1⟩ := parse_records_quiet B H params _ (by omega) hq input [] [] _
    (by simp) (by simpa using hguard) hinv0
  unfold parse_fasta_tab
  simp only
  rw [h1]
  obtain ⟨st2, lo⟩ := s1
  obtain ⟨hpar, _, hparse, hfreqs, hphrase⟩ := hinv1
  simp only [List.nil_append] at hpar hparse hfreqs hphrase
  refine ⟨_, _, rfl, ?_, ?_⟩
  · have : ∀ x, (if (process_phrase st2 x).params.get_sai = true then
          { process_phrase st2 x with
            sai := (process_phrase st2 x).sai ++
              [to_uint B (lo.pos + (process_phrase st2 x).params.w)] }
        else process_phrase st2 x : Parser).parse = st2.parse ++ [x] := by
      intro x; split <;> rfl
    rw [this, hparse, hpar, hphrase]
    rfl
  · have hf : ∀ x, (if (process_phrase st2 x).params.get_sai = true then
          { process_phrase st2 x with
            sai := (process_phrase st2 x).sai ++
              [to_uint B (lo.pos + (process_phrase st2 x).params.w)] }
        else process_phrase st2 x : Parser).freqs = (process_phrase st2 x).freqs := by
      intro x; split <;> rfl
    have hps : ∀ x, (if (process_phrase st2 x).params.get_sai = true then
          { process_phrase st2 x with
            sai := (process_phrase st2 x).sai ++
              [to_uint B (lo.pos + (process_phrase st2 x).params.w)] }
        else process_phrase st2 x : Parser).parse = st2.parse ++ [x] := by
      intro x; split <;> rfl
    rw [hf, hps, hparse]
    simp [process_phrase, hfreqs, map_insert]

theorem preprocess_length_le (B : Build) (params : ParserParams) (xs : List Nat) :
    (preprocess B params xs).length ≤ xs.length := by
  unfold preprocess
  split
  · exact (List.length_filter_le _ _).trans (by simp)
  · split <;> simp

/-- C11, as stated, fails: with window 2 and modulus 3 the two residues `AC`, fewer than
`w + 1`, fire a boundary at the second character, which is not before `w` characters have been
fed; the parse then has two entries, the phrase of that boundary and the phrase of the final
flush, and the dictionary two phrases. -/
theorem short_input_two_phrases :
    NoEarlyBoundary demoHasher 2 3
      (preprocess demoBuild { w := 2, p := 3 } (residues [⟨"r", [65, 67]⟩])) ∧
    (residues [⟨"r", [65, 67]⟩]).length < 2 + 1 ∧
    ∃ st, parse_fasta demoBuild demoHasher { params := { w := 2, p := 3 } } [⟨"r", [65, 67]⟩] =
        .ok (st, 2) ∧
      st.parse = [[2, 65, 67], [65, 67, 2, 2]] ∧ st.freqs.length = 2 :=
  ⟨by decide, by decide, _, rfl, rfl, rfl⟩

/-- C11, amended: for `w` in `1..32`, `p ≥ 1`, a hasher that fires no boundary before `w`
characters have been fed, and an input of fewer than `w + 1` residues that makes no read outside
the nucleotide table and on which, when exactly `w` characters reach the buffer, the `w`-th fires
no boundary either, `parse_fasta` on a fresh parser returns with exactly one parse entry and one
dictionary phrase, that of the final flush: the terminator, the text, and `w` terminators. -/
theorem short_input_single_phrase (B : Build) (H : Hasher) (params : ParserParams)
    (input : List Record) (st0 : Parser) (h0 : Parser.new params = .ok st0)
    (hw : 1 ≤ params.w) (hw32 : params.w ≤ 32) (hp : 1 ≤ params.p)
    (hin : ∀ c ∈ residues input, InTable B params c)
    (hne : NoEarlyBoundary H params.w params.p (preprocess B params (residues input)))
    (hlen : (residues input).length < params.w + 1)
    (hlast : (preprocess B params (residues input)).length = params.w →
      H.hashvalue (hash_after H params.w (preprocess B params (residues input))) % params.p ≠ 0) :
    ∃ st n, parse_fasta B H st0 input = .ok (st, n) ∧ st.parse.length = 1 ∧
      st.freqs.length = 1 ∧
      st.parse = [B.Dollar :: preprocess B params (residues input) ++
        List.replicate params.w B.Dollar] := by
  obtain ⟨rfl, _⟩ := Parser_new_ok params st0 h0
  have hle := preprocess_length_le B params (residues input)
  obtain ⟨st, n, h1, h2, h3⟩ := parse_fasta_quiet B H params input hp (Or.inr (by omega)) (by
    intro k hk0 hk
    by_cases hkw : k < params.w
    · exact hne k hkw hk0 hk
    · have hkl : k = (preprocess B params (residues input)).length := by omega
      rw [hkl, List.take_length]
      exact hlast (by omega))
  rw [parse_fasta_eq_tab B H _ input hin]
  refine ⟨st, n, h1, by rw [h2]; rfl, ?_, h2⟩
  have := congrArg List.length h3
  rw [List.length_map, h2] at this
  exact this

/-- The single phrase of `AC` with window 3 and modulus 3. -/
theorem short_input_single_phrase_witness :
    ∃ st n, parse_fasta demoBuild demoHasher { params := { w := 3, p := 3 } } [⟨"r", [65, 67]⟩] =
        .ok (st, n) ∧ st.parse.length = 1 ∧ st.freqs.length = 1 ∧
      st.parse = [2 :: preprocess demoBuild { w := 3, p := 3 } (residues [⟨"r", [65, 67]⟩]) ++
        List.replicate 3 2] :=
  short_input_single_phrase demoBuild demoHasher { w := 3, p := 3 } [⟨"r", [65, 67]⟩]
    { params := { w := 3, p := 3 } } rfl (by decide) (by decide) (by decide) (by decide)
    (by decide) (by decide) (by decide)

/-! ### The last array follows the parse -/

theorem process_phrase_last (st : Parser) (x : List Nat) (h : LastInv st) :
    LastInv (process_phrase st x) := by
  unfold LastInv at h ⊢
  show st.last ++ [_] = (st.parse ++ [x]).map _
  rw [h, List.map_append]
  rfl

theorem LastInv.sameCore {st st1 : Parser} (hs : SameCore st st1) (h : LastInv st) :
    LastInv st1 := by
  obtain ⟨_, h2, h3, h4, _⟩ := hs
  unfold LastInv at h ⊢
  rw [h3, h2, h4]
  exact h

theorem parse_fasta_last (B : Build) (H : Hasher) (params : ParserParams) (input : List Record)
    (st1 : Parser) (n : Nat) (h : parse_fasta_tab B H { params := params } input = .ok (st1, n)) :
    LastInv st1 ∧ st1.params = params := by
  have := parse_fasta_stable B H (fun st => LastInv st ∧ st.params = params)
    (fun st x hx => ⟨process_phrase_last st x hx.1, hx.2⟩)
    (fun st st1 hs hx => ⟨hx.1.sameCore hs, hs.2.2.2.1.trans hx.2⟩)
    { params := params } input st1 n ⟨rfl, rfl⟩ h
  exact this

/-! ### parse_fasta_tab when every character fires -/

theorem append_char_p1 (H : Hasher) (st : Parser) (lo : Locals H) (c : Nat)
    (hp : st.params.p = 1) :
    ∃ st1 lo1, append_char H st lo c = .ok (st1, lo1) ∧ st1.params = st.params ∧
      lo1.n = lo.n + 1 ∧ st1.parse = st.parse ++ [lo.phrase ++ [c]] ∧
      lo1.phrase = (lo.phrase ++ [c]).drop (size_sub (lo.phrase.length + 1) st.params.w) := by
  unfold append_char
  simp only [hp, Nat.mod_one, one_ne_zero, if_false, if_true]
  refine ⟨_, _, rfl, ?_, rfl, ?_, ?_⟩
  · split <;> rfl
  · split <;> rfl
  · simp

theorem parse_chars_p1 (B : Build) (H : Hasher) :
    ∀ (cs : List Nat) (st : Parser) (lo : Locals H), st.params.p = 1 →
      st.params.trim_non_acgt = false → st.params.non_acgt_to_a = false →
      ∃ st1 lo1, cs.foldlM (parse_char_tab B H) (st, lo) = .ok (st1, lo1) ∧
        st1.params = st.params ∧ lo1.n = lo.n + cs.length ∧
        (st1.parse, lo1.phrase) = cs.foldl (fun a c => (a.1 ++ [a.2 ++ [toupper c]],
          (a.2 ++ [toupper c]).drop (size_sub (a.2.length + 1) st.params.w)))
          (st.parse, lo.phrase) := by
  intro cs
  induction cs with
  | nil => intro st lo _ _ _; exact ⟨st, lo, rfl, rfl, rfl, rfl⟩
  | cons ch cs ih =>
    intro st lo hp ht ha
    obtain ⟨st1, lo1, h1, h2, h3, h4, h5⟩ := append_char_p1 H st lo (toupper ch) hp
    have hstep : parse_char_tab B H (st, lo) ch = .ok (st1, lo1) := by
      unfold parse_char_tab
      simp only [ht, ha, Bool.false_eq_true, false_and, if_false]
      exact h1
    obtain ⟨st2, lo2, k1, k2, k3, k4⟩ := ih st1 lo1 (by rw [h2]; exact hp) (by rw [h2]; exact ht)
      (by rw [h2]; exact ha)
    refine ⟨st2, lo2, ?_, k2.trans h2, ?_, ?_⟩
    · rw [List.foldlM_cons, hstep]
      exact k1
    · rw [k3, h3, List.length_cons]; omega
    · rw [k4, List.foldl_cons, h4, h5, h2]

theorem drop_wrap (l : List Nat) (k w : Nat) (hk : k < w) (hw : w ≤ 2 ^ 64)
    (hl : l.length ≤ k) : l.drop (size_sub k w) = [] := by
  apply List.drop_eq_nil_of_le
  unfold size_sub
  rw [if_neg (by omega)]
  omega

theorem fold_short (w : Nat) (hw : 2 ≤ w) (hw2 : w ≤ 2 ^ 64) :
    ∀ (cs : List Nat) (out : List (List Nat)),
      cs.foldl (fun a c => (a.1 ++ [a.2 ++ [toupper c]],
          (a.2 ++ [toupper c]).drop (size_sub (a.2.length + 1) w))) (out, []) =
        (out ++ cs.map (fun c => [toupper c]), []) := by
  intro cs
  induction cs with
  | nil => intro out; simp
  | cons c cs ih =>
    intro out
    rw [List.foldl_cons]
    simp only [List.nil_append, List.length_nil, Nat.zero_add]
    rw [drop_wrap [toupper c] 1 w (by omega) hw2 (by simp), ih]
    simp

theorem wrapped_read (x : List Nat) (w : Nat) (hw : w ≤ 2 ^ 63) (h : x.length ≤ w) :
    x[size_sub (size_sub x.length w) 1]? = none := by
  apply List.getElem?_eq_none
  unfold size_sub
  by_cases h1 : w ≤ x.length
  · have : x.length = w := by omega
    rw [if_pos h1, this, Nat.sub_self, if_neg (by omega)]
    omega
  · rw [if_neg h1, if_pos (by omega)]
    omega

/-- C12, as stated, fails for every terminator byte and every hasher: on `ACGTACGTACGT` with
`w = 4` and `p = 1` the first character already fires a boundary on the buffer `$A`, the erase
length `phrase.size() - w` wraps in `size_t` and empties the buffer, and so after every
character. The parse has 13 entries, none longer than 4 bytes, so the dictionary holds no phrase
of length 5 or more; every read `phrase[phrase.size() - w - 1]` is out of range. -/
theorem scenario_A_short_phrases :
    ∀ (B : Build) (H : Hasher) (name : String),
      Parser.new { w := 4, p := 1 } = .ok { params := { w := 4, p := 1 } } ∧
      ∃ st, parse_fasta B H { params := { w := 4, p := 1 } }
          [⟨name, [65, 67, 71, 84, 65, 67, 71, 84, 65, 67, 71, 84]⟩] = .ok (st, 12) ∧
        st.parse = [[B.Dollar, 65], [67], [71], [84], [65], [67], [71], [84], [65], [67], [71],
          [84], [B.Dollar, B.Dollar, B.Dollar, B.Dollar]] ∧
        (∀ e ∈ st.freqs, e.1.length ≤ 4) ∧ (¬ ∃ e ∈ st.freqs, 5 ≤ e.1.length) ∧
        st.last = List.replicate 13 none := by
  intro B H name
  refine ⟨rfl, ?_⟩
  obtain ⟨st1, lo1, h1, h2, h3, h4⟩ := parse_chars_p1 B H
    [65, 67, 71, 84, 65, 67, 71, 84, 65, 67, 71, 84]
    ({ params := { w := 4, p := 1 } } : Parser)
    (if B.M64 = true then ({ phrase := [B.Dollar], hf := H.init 4 } : Locals H)
      else { phrase := [B.Dollar], hf := H.init 4, total_l := 0 + 12 }) rfl rfl rfl
  have hn : lo1.n = 12 := by
    rw [h3]; split <;> rfl
  have hpp : (st1.parse, lo1.phrase) = ([[B.Dollar, 65], [67], [71], [84], [65], [67], [71],
      [84], [65], [67], [71], [84]], []) := by
    rw [h4]
    have hph : (if B.M64 = true then ({ phrase := [B.Dollar], hf := H.init 4 } : Locals H)
        else { phrase := [B.Dollar], hf := H.init 4, total_l := 0 + 12 }).phrase = [B.Dollar] := by
      split <;> rfl
    rw [hph, List.foldl_cons]
    simp only [List.length_cons, List.length_nil, Nat.zero_add]
    rw [drop_wrap ([B.Dollar] ++ [toupper 65]) 2 4 (by omega) (by omega) (by simp),
      fold_short 4 (by omega) (by omega)]
    rfl
  have hparse : st1.parse = _ := congrArg Prod.fst hpp
  have hphrase : lo1.phrase = _ := congrArg Prod.snd hpp
  have hrun : parse_fasta_tab B H { params := { w := 4, p := 1 } }
      [⟨name, [65, 67, 71, 84, 65, 67, 71, 84, 65, 67, 71, 84]⟩] =
      .ok (process_phrase st1 (lo1.phrase ++ List.replicate st1.params.w B.Dollar), lo1.n) := by
    unfold parse_fasta_tab
    simp only [Bool.false_eq_true, if_false, List.foldlM_cons, List.foldlM_nil]
    unfold parse_record_tab
    simp only [Bool.false_eq_true, if_false, List.length_cons, List.length_nil]
    have hg : ¬ (¬ B.M64 = true ∧ 0 + (0 + 1 + 1 + 1 + 1 + 1 + 1 + 1 + 1 + 1 + 1 + 1 + 1) >
        0xFFFFFFFF) := by
      rintro ⟨_, h⟩; omega
    rw [if_neg hg]
    have h1' := h1
    simp only [Nat.zero_add] at h1' ⊢
    rw [h1']
    have h2' : st1.params = { w := 4, p := 1 } := h2
    simp only [bind, Except.bind, pure, Except.pure, process_phrase_params, h2',
      Bool.false_eq_true, false_and, if_false]
  have hfinal : (process_phrase st1 (lo1.phrase ++ List.replicate st1.params.w B.Dollar)).parse =
      [[B.Dollar, 65], [67], [71], [84], [65], [67], [71], [84], [65], [67], [71],
        [84], [B.Dollar, B.Dollar, B.Dollar, B.Dollar]] := by
    show st1.parse ++ [_] = _
    rw [hparse, hphrase, h2]
    rfl
  have hshort : ∀ x ∈ (process_phrase st1
      (lo1.phrase ++ List.replicate st1.params.w B.Dollar)).parse, x.length ≤ 4 := by
    rw [hfinal]
    intro x hx
    simp only [List.mem_cons, List.mem_singleton, List.not_mem_nil, or_false] at hx
    rcases hx with h | h | h | h | h | h | h | h | h | h | h | h | h <;> rw [h] <;> simp
  have hkeys : ∀ e ∈ (process_phrase st1
      (lo1.phrase ++ List.replicate st1.params.w B.Dollar)).freqs, e.1.length ≤ 4 := by
    intro e he
    exact hshort _ ((parse_fasta_dict B H _ _ _ _ hrun).key_mem_parse e.1
      (List.mem_map_of_mem Prod.fst he))
  obtain ⟨hl, hpar⟩ := parse_fasta_last B H _ _ _ _ hrun
  have hsame := parse_fasta_eq_tab B H { params := { w := 4, p := 1 } }
    [⟨name, [65, 67, 71, 84, 65, 67, 71, 84, 65, 67, 71, 84]⟩]
    (fun c _ => Or.inl ⟨rfl, rfl⟩)
  refine ⟨_, by rw [hsame, hrun, hn], hfinal, hkeys, ?_, ?_⟩
  · rintro ⟨e, he, h5⟩
    have := hkeys e he
    omega
  · rw [hl, List.eq_replicate_iff]
    refine ⟨by rw [List.length_map, hfinal]; rfl, ?_⟩
    intro b hb
    obtain ⟨x, hx, rfl⟩ := List.mem_map.mp hb
    rw [hpar]
    exact wrapped_read x 4 (by norm_num) (hshort x hx)

/-! ### The run table and the text position -/

theorem append_char_view (H : Hasher) (st : Parser) (lo : Locals H) (c : Nat)
    (hp : st.params.p ≠ 0) :
    ∃ s1, append_char H st lo c = .ok s1 ∧ s1.1.params = st.params ∧ s1.1.ntab = st.ntab ∧
      s1.2.pos = lo.pos + 1 ∧ s1.2.pc = c ∧ s1.2.c = c ∧ s1.2.ne = lo.ne ∧
      s1.1.doc_starts = st.doc_starts ∧ s1.1.doc_names = st.doc_names ∧
      s1.2.total_l = lo.total_l := by
  unfold append_char
  rw [if_neg hp]
  by_cases hf : H.hashvalue (H.update lo.hf c) % st.params.p = 0
  · rw [if_pos hf]
    refine ⟨_, rfl, ?_, ?_, rfl, rfl, rfl, rfl, ?_, ?_, rfl⟩ <;> (split <;> rfl)
  · rw [if_neg hf]
    exact ⟨_, rfl, rfl, rfl, rfl, rfl, rfl, rfl, rfl, rfl, rfl⟩

theorem parse_char_view (B : Build) (H : Hasher) (s : Parser × Locals H) (ch : Nat)
    (hp : s.1.params.p ≠ 0) (ht : s.1.params.trim_non_acgt = true) :
    ∃ s1, parse_char_tab B H s ch = .ok s1 ∧ s1.1.params = s.1.params ∧
      run_view s1 = run_char B (run_view s) ch ∧ s1.2.total_l = s.2.total_l := by
  obtain ⟨st, lo⟩ := s
  simp only at hp ht
  unfold parse_char_tab run_char
  simp only [ht, if_true, run_view]
  by_cases hy : B.seq_nt4_table (toupper ch) > 3
  · rw [if_pos hy, if_pos hy]
    exact ⟨_, rfl, rfl, rfl, rfl⟩
  · rw [if_neg hy, if_neg hy]
    by_cases hx : B.seq_nt4_table lo.pc > 3
    · rw [if_pos ⟨by omega, hx⟩, if_pos hx]
      obtain ⟨s1, h1, h2, h3, h4, h5, h6, h7, _, _, h8⟩ :=
        append_char_view H { st with ntab := st.ntab ++ [lo.ne] } { lo with ne := lo.ne.clear }
          (toupper ch) hp
      refine ⟨s1, h1, h2, ?_, h8⟩
      rw [h3, h4, h5, h6, h7]
    · rw [if_neg (fun h => hx h.2), if_neg hx]
      obtain ⟨s1, h1, h2, h3, h4, h5, h6, h7, _, _, h8⟩ := append_char_view H st lo (toupper ch) hp
      refine ⟨s1, h1, h2, ?_, h8⟩
      rw [h3, h4, h5, h6, h7]

theorem parse_chars_view (B : Build) (H : Hasher) :
    ∀ (cs : List Nat) (s : Parser × Locals H), s.1.params.p ≠ 0 →
      s.1.params.trim_non_acgt = true →
      ∃ s1, cs.foldlM (parse_char_tab B H) s = .ok s1 ∧ s1.1.params = s.1.params ∧
        run_view s1 = cs.foldl (run_char B) (run_view s) ∧ s1.2.total_l = s.2.total_l := by
  intro cs
  induction cs with
  | nil => intro s _ _; exact ⟨s, rfl, rfl, rfl, rfl⟩
  | cons ch cs ih =>
    intro s hp ht
    obtain ⟨s1, h1, h2, h3, h4⟩ := parse_char_view B H s ch hp ht
    obtain ⟨s2, k1, k2, k3, k4⟩ := ih s1 (by rw [h2]; exact hp) (by rw [h2]; exact ht)
    refine ⟨s2, ?_, k2.trans h2, ?_, k4.trans h4⟩
    · rw [List.foldlM_cons, h1]; exact k1
    · rw [k3, h3, List.foldl_cons]

theorem parse_record_view (B : Build) (H : Hasher) (s : Parser × Locals H) (r : Record)
    (hp : s.1.params.p ≠ 0) (ht : s.1.params.trim_non_acgt = true)
    (hguard : B.M64 = true ∨ s.2.total_l + r.seq.length ≤ 0xFFFFFFFF) :
    ∃ s1, parse_record_tab B H s r = .ok s1 ∧ s1.1.params = s.1.params ∧
      run_view s1 = run_record B (run_view s) r ∧
      (B.M64 = false → s1.2.total_l = s.2.total_l + r.seq.length) := by
  obtain ⟨st, lo⟩ := s
  simp only at hp ht hguard
  unfold parse_record_tab
  simp only
  have hg : ¬ (¬ B.M64 = true ∧ lo.total_l + r.seq.length > 0xFFFFFFFF) := by
    rintro ⟨h1, h2⟩
    rcases hguard with h | h
    · exact h1 h
    · omega
  rw [if_neg hg]
  obtain ⟨s1, h1, h2, h3, h4⟩ := parse_chars_view B H r.seq
    (if st.params.get_da = true then
        { st with doc_starts := st.doc_starts ++ [lo.pos], doc_names := st.doc_names ++ [r.name] }
      else st,
      if B.M64 = true then lo else { lo with total_l := lo.total_l + r.seq.length })
    (by show (if _ then _ else st : Parser).params.p ≠ 0
        split <;> exact hp)
    (by show (if _ then _ else st : Parser).params.trim_non_acgt = true
        split <;> exact ht)
  have hpar : s1.1.params = st.params := by
    rw [h2]; show (if _ then _ else st : Parser).params = _
    split <;> rfl
  have hv : run_view (if st.params.get_da = true then
        { st with doc_starts := st.doc_starts ++ [lo.pos], doc_names := st.doc_names ++ [r.name] }
      else st,
      if B.M64 = true then lo else { lo with total_l := lo.total_l + r.seq.length }) =
      run_view (st, lo) := by
    unfold run_view
    split <;> split <;> rfl
  rw [hv] at h3
  rw [h1]
  obtain ⟨st2, lo2⟩ := s1
  simp only at hpar h4
  refine ⟨_, rfl, ?_, ?_, ?_⟩
  · show (if _ then _ else st2 : Parser).params = _
    split <;> exact hpar
  · unfold run_record
    rw [← h3, hpar, ht]
    simp only [true_and, run_view]
    split <;> rfl
  · intro hm
    show lo2.total_l = _
    rw [h4, if_neg (by simp [hm])]

theorem parse_records_view (B : Build) (H : Hasher) :
    ∀ (input : List Record) (s : Parser × Locals H), s.1.params.p ≠ 0 →
      s.1.params.trim_non_acgt = true →
      (B.M64 = true ∨ s.2.total_l + (residues input).length ≤ 0xFFFFFFFF) →
      ∃ s1, input.foldlM (parse_record_tab B H) s = .ok s1 ∧ s1.1.params = s.1.params ∧
        run_view s1 = input.foldl (run_record B) (run_view s) := by
  intro input
  induction input with
  | nil => intro s _ _ _; exact ⟨s, rfl, rfl, rfl⟩
  | cons r input ih =>
    intro s hp ht hguard
    rw [residues_cons, List.length_append] at hguard
    obtain ⟨s1, h1, h2, h3, h4⟩ := parse_record_view B H s r hp ht
      (by rcases hguard with h | h
          · exact Or.inl h
          · right; omega)
    obtain ⟨s2, k1, k2, k3⟩ := ih s1 (by rw [h2]; exact hp) (by rw [h2]; exact ht)
      (by have hm : B.M64 = false ∨ B.M64 = true := by cases B.M64 <;> simp
          rcases hm with hm | hm
          · rcases hguard with h | h
            · exact Or.inl h
            · right; rw [h4 hm]; omega
          · exact Or.inl hm)
    refine ⟨s2, ?_, k2.trans h2, ?_⟩
    · rw [List.foldlM_cons, h1]; exact k1
    · rw [k3, h3, List.foldl_cons]

/-- With `trim_non_acgt` set, `parse_fasta_tab` returns and the run table is the one of the view. -/
theorem parse_fasta_view (B : Build) (H : Hasher) (st0 : Parser) (input : List Record)
    (hp : 1 ≤ st0.params.p) (ht : st0.params.trim_non_acgt = true)
    (hguard : B.M64 = true ∨ (residues input).length ≤ 0xFFFFFFFF) :
    ∃ st n, parse_fasta_tab B H st0 input = .ok (st, n) ∧
      st.ntab = (input.foldl (run_record B)
        { ntab := st0.ntab, pos := 0, pc := 65, c := 65, ne := {} }).ntab := by
  obtain ⟨s1, h1, h2, h3⟩ := parse_records_view B H input
    (if (if st0.params.get_sai = true then { st0 with sai := [] } else st0).params.get_da
          = true then
        { (if st0.params.get_sai = true then { st0 with sai := [] } else st0) with
          doc_starts := [], doc_names := [] }
      else (if st0.params.get_sai = true then { st0 with sai := [] } else st0),
      ({ phrase := [B.Dollar], hf := H.init st0.params.w } : Locals H))
    (by show (if _ then _ else _ : Parser).params.p ≠ 0
        have : st0.params.p ≠ 0 := by omega
        split <;> split <;> exact this)
    (by show (if _ then _ else _ : Parser).params.trim_non_acgt = true
        split <;> split <;> exact ht)
    (by simpa using hguard)
  have hv : run_view (if (if st0.params.get_sai = true then { st0 with sai := [] } else st0).params.get_da
          = true then
        { (if st0.params.get_sai = true then { st0 with sai := [] } else st0) with
          doc_starts := [], doc_names := [] }
      else (if st0.params.get_sai = true then { st0 with sai := [] } else st0),
      ({ phrase := [B.Dollar], hf := H.init st0.params.w } : Locals H)) =
      { ntab := st0.ntab, pos := 0, pc := 65, c := 65, ne := {} } := by
    unfold run_view
    split <;> split <;> rfl
  rw [hv] at h3
  unfold parse_fasta_tab
  simp only
  rw [h1]
  obtain ⟨st2, lo⟩ := s1
  refine ⟨_, _, rfl, ?_⟩
  rw [← h3]
  show (if _ then _ else _ : Parser).ntab = st2.ntab
  split <;> rfl

/-- C13, as stated, fails: with `trim_non_acgt` set, for every build whose table maps `A` below
4 and `N` above 3 and every hasher, the two records `AN` and `A`, whose residues `ANA` hold one
run of `N` (length 1 at offset 1), leave two entries in the run table, both `(pos 0, l 1)`: the
run is pushed at the end of the first record and, `pc` and `ne` being kept, again at the first
residue of the second. -/
theorem ntab_run_pushed_twice (B : Build) (H : Hasher) (params : ParserParams) (st0 : Parser)
    (name1 name2 : String)
    (h0 : Parser.new params = .ok st0) (ht : params.trim_non_acgt = true) (hp : 1 ≤ params.p)
    (hA : B.seq_nt4_table 65 ≤ 3) (hN : 3 < B.seq_nt4_table 78) :
    ∃ st n, parse_fasta B H st0 [⟨name1, [65, 78]⟩, ⟨name2, [65]⟩] = .ok (st, n) ∧
      st.ntab = [{ pos := 0, l := 1 }, { pos := 0, l := 1 }] := by
  obtain ⟨rfl, _⟩ := Parser_new_ok params st0 h0
  obtain ⟨st, n, h1, h2⟩ := parse_fasta_view B H { params := params }
    [⟨name1, [65, 78]⟩, ⟨name2, [65]⟩] hp ht (Or.inr (by simp [residues]))
  have hsame := parse_fasta_eq_tab B H { params := params }
    [⟨name1, [65, 78]⟩, ⟨name2, [65]⟩] (by
      intro c hc
      have hc' : c = 65 ∨ c = 78 ∨ c = 65 := by simpa [residues] using hc
      exact Or.inr (Or.inr (by omega)))
  refine ⟨st, n, by rw [hsame]; exact h1, ?_⟩
  rw [h2]
  have t65 : toupper 65 = 65 := by decide
  have t78 : toupper 78 = 78 := by decide
  have hA' : ¬ B.seq_nt4_table 65 > 3 := by omega
  have hA2 : B.seq_nt4_table 65 < 4 := by omega
  have hu : uint_sub B 1 1 = 0 := by simp [uint_sub]
  simp [run_record, run_char, t65, t78, hA', hA2, hN, hu, ntab_entry.clear]

/-- The doubled entry with the usual table, window 2 and modulus 3. -/
theorem ntab_run_pushed_twice_witness :
    ∃ st n, parse_fasta demoBuild demoHasher { params := { w := 2, p := 3, trim_non_acgt := true } }
        [⟨"r1", [65, 78]⟩, ⟨"r2", [65]⟩] = .ok (st, n) ∧
      st.ntab = [{ pos := 0, l := 1 }, { pos := 0, l := 1 }] :=
  ntab_run_pushed_twice demoBuild demoHasher { w := 2, p := 3, trim_non_acgt := true }
    { params := { w := 2, p := 3, trim_non_acgt := true } } "r1" "r2" rfl rfl (by decide)
    (by decide) (by decide)

/-! ### The document table -/

theorem preprocess_single_length (B : Build) (params : ParserParams) (ch : Nat) :
    (preprocess B params [ch]).length =
      if params.trim_non_acgt = true ∧ B.seq_nt4_table (toupper ch) > 3 then 0 else 1 := by
  unfold preprocess
  by_cases ht : params.trim_non_acgt = true
  · by_cases hy : B.seq_nt4_table (toupper ch) > 3
    · have h3 : ¬ B.seq_nt4_table (toupper ch) ≤ 3 := by omega
      simp [ht, hy, h3]
    · have h3 : B.seq_nt4_table (toupper ch) ≤ 3 := by omega
      simp [ht, hy, h3]
  · by_cases ha : params.non_acgt_to_a = true <;> simp [ht, ha]

theorem preprocess_length_no_trim (B : Build) (params : ParserParams) (xs : List Nat)
    (ht : params.trim_non_acgt = false) : (preprocess B params xs).length = xs.length := by
  unfold preprocess
  rw [ht]
  simp only [Bool.false_eq_true, if_false]
  split <;> simp

theorem parse_char_pos (B : Build) (H : Hasher) (s : Parser × Locals H) (ch : Nat)
    (hp : s.1.params.p ≠ 0) :
    ∃ s1, parse_char_tab B H s ch = .ok s1 ∧ s1.1.params = s.1.params ∧
      s1.1.doc_starts = s.1.doc_starts ∧ s1.1.doc_names = s.1.doc_names ∧
      s1.2.pos = s.2.pos + (preprocess B s.1.params [ch]).length ∧
      s1.2.total_l = s.2.total_l := by
  obtain ⟨st, lo⟩ := s
  simp only at hp
  rw [preprocess_single_length]
  unfold parse_char_tab
  simp only
  by_cases ht : st.params.trim_non_acgt = true
  · simp only [ht, if_true, true_and]
    by_cases hy : B.seq_nt4_table (toupper ch) > 3
    · rw [if_pos hy, if_pos hy]
      exact ⟨_, rfl, rfl, rfl, rfl, rfl, rfl⟩
    · rw [if_neg hy, if_neg hy]
      split
      · obtain ⟨s1, h1, h2, _, h4, _, _, _, h8, h9, h10⟩ :=
          append_char_view H { st with ntab := st.ntab ++ [lo.ne] } { lo with ne := lo.ne.clear }
            (toupper ch) hp
        exact ⟨s1, h1, h2, h8, h9, h4, h10⟩
      · obtain ⟨s1, h1, h2, _, h4, _, _, _, h8, h9, h10⟩ :=
          append_char_view H st lo (toupper ch) hp
        exact ⟨s1, h1, h2, h8, h9, h4, h10⟩
  · simp only [ht, Bool.false_eq_true, if_false, false_and]
    split
    · obtain ⟨s1, h1, h2, _, h4, _, _, _, h8, h9, h10⟩ := append_char_view H st lo 65 hp
      exact ⟨s1, h1, h2, h8, h9, h4, h10⟩
    · obtain ⟨s1, h1, h2, _, h4, _, _, _, h8, h9, h10⟩ := append_char_view H st lo (toupper ch) hp
      exact ⟨s1, h1, h2, h8, h9, h4, h10⟩

theorem parse_chars_pos (B : Build) (H : Hasher) :
    ∀ (cs : List Nat) (s : Parser × Locals H), s.1.params.p ≠ 0 →
      ∃ s1, cs.foldlM (parse_char_tab B H) s = .ok s1 ∧ s1.1.params = s.1.params ∧
        s1.1.doc_starts = s.1.doc_starts ∧ s1.1.doc_names = s.1.doc_names ∧
        s1.2.pos = s.2.pos + (preprocess B s.1.params cs).length ∧
        s1.2.total_l = s.2.total_l := by
  intro cs
  induction cs with
  | nil =>
    intro s _
    exact ⟨s, rfl, rfl, rfl, rfl, by rw [preprocess_nil]; rfl, rfl⟩
  | cons ch cs ih =>
    intro s hp
    obtain ⟨s1, h1, h2, h3, h4, h5, h6⟩ := parse_char_pos B H s ch hp
    obtain ⟨s2, k1, k2, k3, k4, k5, k6⟩ := ih s1 (by rw [h2]; exact hp)
    refine ⟨s2, ?_, k2.trans h2, k3.trans h3, k4.trans h4, ?_, k6.trans h6⟩
    · rw [List.foldlM_cons, h1]; exact k1
    · rw [k5, h5, h2, preprocess_cons B s.1.params ch cs, List.length_append]
      omega

theorem parse_record_docs (B : Build) (H : Hasher) (s : Parser × Locals H) (r : Record)
    (hp : s.1.params.p ≠ 0) (hda : s.1.params.get_da = true)
    (hguard : B.M64 = true ∨ s.2.total_l + r.seq.length ≤ 0xFFFFFFFF) :
    ∃ s1, parse_record_tab B H s r = .ok s1 ∧ s1.1.params = s.1.params ∧
      s1.1.doc_starts = s.1.doc_starts ++ [s.2.pos] ∧
      s1.1.doc_names = s.1.doc_names ++ [r.name] ∧
      s1.2.pos = s.2.pos + (preprocess B s.1.params r.seq).length ∧
      (B.M64 = false → s1.2.total_l = s.2.total_l + r.seq.length) := by
  obtain ⟨st, lo⟩ := s
  simp only at hp hda hguard
  unfold parse_record_tab
  simp only
  have hg : ¬ (¬ B.M64 = true ∧ lo.total_l + r.seq.length > 0xFFFFFFFF) := by
    rintro ⟨h1, h2⟩
    rcases hguard with h | h
    · exact h1 h
    · omega
  rw [if_neg hg, if_pos hda]
  obtain ⟨s1, h1, h2, h3, h4, h5, h6⟩ := parse_chars_pos B H r.seq
    ({ st with doc_starts := st.doc_starts ++ [lo.pos], doc_names := st.doc_names ++ [r.name] },
      if B.M64 = true then lo else { lo with total_l := lo.total_l + r.seq.length }) hp
  have hpos : (if B.M64 = true then lo else { lo with total_l := lo.total_l + r.seq.length }).pos
      = lo.pos := by split <;> rfl
  rw [h1]
  obtain ⟨st2, lo2⟩ := s1
  simp only at h2 h3 h4 h5 h6
  refine ⟨_, rfl, ?_, ?_, ?_, ?_, ?_⟩
  · show (if _ then _ else st2 : Parser).params = _
    split <;> exact h2
  · show (if _ then _ else st2 : Parser).doc_starts = _
    split <;> exact h3
  · show (if _ then _ else st2 : Parser).doc_names = _
    split <;> exact h4
  · show lo2.pos = _
    rw [h5, hpos]
  · intro hm
    show lo2.total_l = _
    rw [h6, if_neg (by simp [hm])]

/-- C14, as stated, fails: with `get_da` and `trim_non_acgt` both set, the two records `AN`
and `A` give `doc_starts = [0, 1]`, while the first record has 2 residues; the position counts
the characters that reach the phrase buffer, and the trimmed `N` is not one of them. -/
theorem doc_starts_skip_trimmed :
    ∃ st, parse_fasta demoBuild demoHasher
        { params := { w := 2, p := 3, get_da := true, trim_non_acgt := true } }
        [⟨"r1", [65, 78]⟩, ⟨"r2", [65]⟩] = .ok (st, 2) ∧
      st.doc_starts = [0, 1] ∧ st.doc_names = ["r1", "r2"] ∧
      st.doc_starts ≠ [0, (Record.seq ⟨"r1", [65, 78]⟩).length] :=
  ⟨_, rfl, rfl, rfl, by decide⟩

/-- C14, amended: with `get_da` set and `p ≥ 1`, for every input of exactly two records that
passes the length guard of narrow builds and makes no read outside the nucleotide table,
`parse_fasta` returns with `doc_names` the two record names in input order and
`doc_starts = [0, k]`, where `k` is the number of residues of the first record that reach the
phrase buffer: all of them unless `trim_non_acgt` is set, in which case the residues that the
table maps above 3 are not counted. -/
theorem doc_table_two_records (B : Build) (H : Hasher) (st0 : Parser) (r1 r2 : Record)
    (hda : st0.params.get_da = true) (hp : 1 ≤ st0.params.p)
    (hguard : B.M64 = true ∨ r1.seq.length + r2.seq.length ≤ 0xFFFFFFFF)
    (hin : ∀ c ∈ residues [r1, r2], InTable B st0.params c) :
    ∃ st n, parse_fasta B H st0 [r1, r2] = .ok (st, n) ∧
      st.doc_starts = [0, (preprocess B st0.params r1.seq).length] ∧
      st.doc_names = [r1.name, r2.name] ∧
      (st0.params.trim_non_acgt = false → st.doc_starts = [0, r1.seq.length]) := by
  have hp0 : st0.params.p ≠ 0 := by omega
  have key : ∀ (sA : Parser) (lo0 : Locals H), sA.params = st0.params → sA.doc_starts = [] →
      sA.doc_names = [] → lo0.pos = 0 → lo0.total_l = 0 →
      ∃ s2, [r1, r2].foldlM (parse_record_tab B H) (sA, lo0) = .ok s2 ∧
        s2.1.doc_starts = [0, (preprocess B st0.params r1.seq).length] ∧
        s2.1.doc_names = [r1.name, r2.name] := by
    intro sA lo0 hA1 hA2 hA3 hl1 hl2
    obtain ⟨s1, h1, h2, h3, h4, h5, h6⟩ := parse_record_docs B H (sA, lo0) r1
      (by rw [hA1]; exact hp0) (by rw [hA1]; exact hda)
      (by rcases hguard with h | h
          · exact Or.inl h
          · right; show lo0.total_l + r1.seq.length ≤ _; omega)
    simp only at h2 h3 h4 h5 h6
    have hpar1 : s1.1.params = st0.params := h2.trans hA1
    obtain ⟨s2, k1, k2, k3, k4, k5, k6⟩ := parse_record_docs B H s1 r2
      (by rw [hpar1]; exact hp0) (by rw [hpar1]; exact hda)
      (by have hm : B.M64 = false ∨ B.M64 = true := by cases B.M64 <;> simp
          rcases hm with hm | hm
          · rcases hguard with h | h
            · exact Or.inl h
            · right; rw [h6 hm]; omega
          · exact Or.inl hm)
    refine ⟨s2, ?_, ?_, ?_⟩
    · rw [List.foldlM_cons, h1]
      show List.foldlM (parse_record_tab B H) s1 [r2] = _
      rw [List.foldlM_cons, k1]
      rfl
    · rw [k3, h3, h5, hA2, hl1, hA1]
      simp
    · rw [k4, h4, hA3]
      rfl
  obtain ⟨s2, h1, hds, hdn⟩ := key
    (if (if st0.params.get_sai = true then { st0 with sai := [] } else st0).params.get_da
          = true then
        { (if st0.params.get_sai = true then { st0 with sai := [] } else st0) with
          doc_starts := [], doc_names := [] }
      else (if st0.params.get_sai = true then { st0 with sai := [] } else st0))
    ({ phrase := [B.Dollar], hf := H.init st0.params.w } : Locals H)
    (by by_cases hs : st0.params.get_sai = true <;> simp [hs, hda])
    (by by_cases hs : st0.params.get_sai = true <;> simp [hs, hda])
    (by by_cases hs : st0.params.get_sai = true <;> simp [hs, hda])
    rfl rfl
  rw [parse_fasta_eq_tab B H st0 [r1, r2] hin]
  unfold parse_fasta_tab
  simp only
  rw [h1]
  obtain ⟨st2, lo2⟩ := s2
  simp only at hds hdn
  refine ⟨_, _, rfl, ?_, ?_, ?_⟩
  · show (if _ then _ else _ : Parser).doc_starts = _
    split <;> exact hds
  · show (if _ then _ else _ : Parser).doc_names = _
    split <;> exact hdn
  · intro ht
    show (if _ then _ else _ : Parser).doc_starts = _
    rw [← preprocess_length_no_trim B st0.params r1.seq ht]
    split <;> exact hds

/-- The document table of `ACGT` and `AC` with window 2 and modulus 3. -/
theorem doc_table_two_records_witness :
    ∃ st n, parse_fasta demoBuild demoHasher { params := { w := 2, p := 3, get_da := true } }
        [⟨"r1", [65, 67, 71, 84]⟩, ⟨"r2", [65, 67]⟩] = .ok (st, n) ∧
      st.doc_starts = [0, (preprocess demoBuild { w := 2, p := 3, get_da := true }
        [65, 67, 71, 84]).length] ∧
      st.doc_names = ["r1", "r2"] ∧
      (({ w := 2, p := 3, get_da := true } : ParserParams).trim_non_acgt = false →
        st.doc_starts = [0, 4]) :=
  doc_table_two_records demoBuild demoHasher { params := { w := 2, p := 3, get_da := true } }
    ⟨"r1", [65, 67, 71, 84]⟩ ⟨"r2", [65, 67]⟩ rfl (by decide) (Or.inl rfl) (by decide)

/-! ### The window-size check of the constructor -/

/-- C15: the constructor `Parser(ParserParams p)`, which does nothing but run `check_w(p.w)`,
ends fatally exactly when `p.w > 32`; for every `p.w` in `0..32` it returns a parser that holds
the parameters and whose dictionary, parse, ranked parse and last array are empty. -/
theorem check_w_accepts_up_to_32 (p : ParserParams) :
    (Parser.new p = .error .fatal ↔ 32 < p.w) ∧
    ((32 < p.w ∧ Parser.new p = .error .fatal) ∨
      (p.w ≤ 32 ∧ ∃ st, Parser.new p = .ok st ∧ st.freqs = [] ∧ st.parse = [] ∧
        st.parse_ranks = [] ∧ st.last = [] ∧ st.params = p)) := by
  unfold Parser.new Parser.check_w
  by_cases hw : p.w > 32
  · rw [if_pos hw]
    exact ⟨⟨fun _ => hw, fun _ => rfl⟩, Or.inl ⟨hw, rfl⟩⟩
  · rw [if_neg hw]
    refine ⟨⟨fun h => ?_, fun h => absurd h hw⟩,
      Or.inr ⟨Nat.le_of_not_lt hw, _, rfl, rfl, rfl, rfl, rfl, rfl⟩⟩
    cases h

/-! ### The parse counts the boundaries -/

theorem boundaries_nil (H : Hasher) (w p : Nat) : boundaries H w p [] = 0 := rfl

theorem boundaries_snoc (H : Hasher) (w p : Nat) (T : List Nat) (c : Nat) :
    boundaries H w p (T ++ [c]) = boundaries H w p T +
      if H.hashvalue (hash_after H w (T ++ [c])) % p = 0 then 1 else 0 := by
  unfold boundaries
  rw [List.length_append, List.length_singleton, List.range_succ, List.countP_append]
  congr 1
  · apply List.countP_congr
    intro k hk
    have hk' : k + 1 ≤ T.length := by
      have := List.mem_range.mp hk
      omega
    rw [List.take_append_of_le_length hk']
  · have : (T ++ [c]).take (T.length + 1) = T ++ [c] := by
      rw [List.take_of_length_le]; simp
    rw [List.countP_singleton, this]
    by_cases h : H.hashvalue (hash_after H w (T ++ [c])) % p = 0 <;> simp [h]

theorem append_char_count (B : Build) (H : Hasher) (params : ParserParams) (T : List Nat)
    (st : Parser) (lo : Locals H) (c : Nat) (s1 : Parser × Locals H) (hp : params.p ≠ 0)
    (hinv : TextInv B H params T (st, lo))
    (hcnt : st.parse.length = boundaries H params.w params.p T)
    (h : append_char H st lo c = .ok s1) :
    s1.1.parse.length = boundaries H params.w params.p (T ++ [c]) := by
  have hpar : st.params = params := hinv.params_eq
  have hh : H.update lo.hf c = hash_after H params.w (T ++ [c]) := by
    rw [hash_after_snoc, ← hinv.hf_eq]
  unfold append_char at h
  rw [hpar, if_neg hp, hh] at h
  rw [boundaries_snoc]
  by_cases hfire : H.hashvalue (hash_after H params.w (T ++ [c])) % params.p = 0
  · rw [if_pos hfire] at h ⊢
    simp only [Except.ok.injEq] at h
    rw [← h, ← hcnt]
    show (if _ then _ else _ : Parser).parse.length = _
    split <;> simp [process_phrase]
  · rw [if_neg hfire] at h ⊢
    simp only [Except.ok.injEq] at h
    rw [← h, ← hcnt]
    rfl

theorem parse_char_count (B : Build) (H : Hasher) (params : ParserParams) (T : List Nat)
    (s : Parser × Locals H) (ch : Nat) (s1 : Parser × Locals H) (hp : params.p ≠ 0)
    (hinv : TextInv B H params T s)
    (hcnt : s.1.parse.length = boundaries H params.w params.p T)
    (h : parse_char_tab B H s ch = .ok s1) :
    s1.1.parse.length = boundaries H params.w params.p (T ++ preprocess B params [ch]) := by
  obtain ⟨st, lo⟩ := s
  have hpar : st.params = params := hinv.params_eq
  have key : ∀ (st1 : Parser) (lo1 : Locals H) (c : Nat), preprocess B params [ch] = [c] →
      TextInv B H params T (st1, lo1) → st1.parse = st.parse →
      append_char H st1 lo1 c = .ok s1 →
      s1.1.parse.length = boundaries H params.w params.p (T ++ preprocess B params [ch]) := by
    intro st1 lo1 c hc hi hps ha
    rw [hc]
    exact append_char_count B H params T st1 lo1 c s1 hp hi (by rw [hps]; exact hcnt) ha
  unfold parse_char_tab at h
  simp only at h
  by_cases ht : st.params.trim_non_acgt = true
  · have ht' : params.trim_non_acgt = true := hpar ▸ ht
    simp only [ht, if_true] at h
    by_cases hy : B.seq_nt4_table (toupper ch) > 3
    · rw [if_pos hy] at h
      simp only [Except.ok.injEq] at h
      have hc : preprocess B params [ch] = [] := by
        simp [preprocess, ht']; omega
      rw [hc, List.append_nil, ← h]
      exact hcnt
    · rw [if_neg hy] at h
      have hc : preprocess B params [ch] = [toupper ch] := by
        simp [preprocess, ht']; omega
      split at h
      · refine key _ _ _ hc ?_ ?_ h
        · exact hinv.congr _ _ rfl rfl rfl rfl
        · rfl
      · exact key _ _ _ hc hinv rfl h
  · have ht' : ¬ params.trim_non_acgt = true := hpar ▸ ht
    simp only [ht, Bool.false_eq_true, if_false] at h
    by_cases ha : st.params.non_acgt_to_a = true ∧ B.seq_nt4_table (toupper ch) > 3
    · rw [if_pos ha] at h
      have ha1 : params.non_acgt_to_a = true := hpar ▸ ha.1
      have hc : preprocess B params [ch] = [65] := by
        simp [preprocess, ht', ha1, ha.2]
      exact key _ _ _ hc hinv rfl h
    · rw [if_neg ha] at h
      have hc : preprocess B params [ch] = [toupper ch] := by
        simp only [preprocess, ht', Bool.false_eq_true, if_false]
        by_cases h1 : params.non_acgt_to_a = true
        · have : ¬ B.seq_nt4_table (toupper ch) > 3 := fun h => ha ⟨hpar ▸ h1, h⟩
          simp [h1, this]
        · simp [h1]
      exact key _ _ _ hc hinv rfl h

theorem parse_chars_count (B : Build) (H : Hasher) (params : ParserParams) (full : List Nat)
    (hw1 : 1 ≤ params.w) (hp : params.p ≠ 0) (hne : NoEarlyBoundary H params.w params.p full) :
    ∀ (cs : List Nat) (T rest : List Nat) (s : Parser × Locals H),
      T ++ preprocess B params cs ++ rest = full → TextInv B H params T s →
      s.1.parse.length = boundaries H params.w params.p T →
      ∃ s1, cs.foldlM (parse_char_tab B H) s = .ok s1 ∧
        TextInv B H params (T ++ preprocess B params cs) s1 ∧
        s1.1.parse.length = boundaries H params.w params.p (T ++ preprocess B params cs) := by
  intro cs
  induction cs with
  | nil =>
    intro T rest s _ hinv hcnt
    refine ⟨s, rfl, ?_, ?_⟩
    · rw [preprocess_nil, List.append_nil]; exact hinv
    · rw [preprocess_nil, List.append_nil]; exact hcnt
  | cons ch cs ih =>
    intro T rest s hfull hinv hcnt
    rw [preprocess_cons] at hfull ⊢
    obtain ⟨s1, h1, hinv1⟩ := parse_char_text B H params full T (preprocess B params cs ++ rest)
      s ch hw1 hp hne (by rw [← hfull]; simp [List.append_assoc]) hinv
    have hcnt1 := parse_char_count B H params T s ch s1 hp hinv hcnt h1
    obtain ⟨s2, h2, hinv2, hcnt2⟩ := ih (T ++ preprocess B params [ch]) rest s1
      (by rw [← hfull]; simp [List.append_assoc]) hinv1 hcnt1
    refine ⟨s2, ?_, by rw [← List.append_assoc]; exact hinv2,
      by rw [← List.append_assoc]; exact hcnt2⟩
    rw [List.foldlM_cons, h1]
    exact h2

theorem parse_record_count (B : Build) (H : Hasher) (params : ParserParams) (full T rest : List Nat)
    (s : Parser × Locals H) (r : Record) (hw1 : 1 ≤ params.w) (hp : params.p ≠ 0)
    (hne : NoEarlyBoundary H params.w params.p full)
    (hfull : T ++ preprocess B params r.seq ++ rest = full)
    (hguard : B.M64 = true ∨ s.2.total_l + r.seq.length ≤ 0xFFFFFFFF)
    (hinv : TextInv B H params T s)
    (hcnt : s.1.parse.length = boundaries H params.w params.p T) :
    ∃ s1, parse_record_tab B H s r = .ok s1 ∧ TextInv B H params (T ++ preprocess B params r.seq) s1 ∧
      s1.1.parse.length = boundaries H params.w params.p (T ++ preprocess B params r.seq) ∧
      (B.M64 = false → s1.2.total_l = s.2.total_l + r.seq.length) := by
  obtain ⟨st, lo⟩ := s
  unfold parse_record_tab
  simp only
  have hg : ¬ (¬ B.M64 = true ∧ lo.total_l + r.seq.length > 0xFFFFFFFF) := by
    rintro ⟨h1, h2⟩
    rcases hguard with h | h
    · exact h1 h
    · simp only at h; omega
  rw [if_neg hg]
  have hinv0 : TextInv B H params T
      (if st.params.get_da = true then
          { st with doc_starts := st.doc_starts ++ [lo.pos], doc_names := st.doc_names ++ [r.name] }
        else st,
        if B.M64 = true then lo else { lo with total_l := lo.total_l + r.seq.length }) :=
    hinv.congr _ _ (by split <;> rfl) (by split <;> rfl) (by split <;> rfl) (by split <;> rfl)
  have hcnt0 : (if st.params.get_da = true then
          { st with doc_starts := st.doc_starts ++ [lo.pos], doc_names := st.doc_names ++ [r.name] }
        else st).parse.length = boundaries H params.w params.p T := by
    rw [← hcnt]; split <;> rfl
  obtain ⟨s1, h1, hinv1, hcnt1⟩ := parse_chars_count B H params full hw1 hp hne r.seq T rest _
    hfull hinv0 hcnt0
  have htot := foldlM_preserves (parse_char_tab B H) (fun x => x.2.total_l =
      (if B.M64 = true then lo else { lo with total_l := lo.total_l + r.seq.length }).total_l)
    (fun b a b1 hb hf => (parse_char_total_l B H b a b1 hf).trans hb) r.seq _ s1 rfl h1
  rw [h1]
  obtain ⟨st2, lo2⟩ := s1
  refine ⟨_, rfl, ?_, ?_, ?_⟩
  · exact hinv1.congr _ _ (by split <;> rfl) (by split <;> rfl) rfl rfl
  · rw [← hcnt1]
    show (if _ then _ else st2 : Parser).parse.length = _
    split <;> rfl
  · intro hm
    show lo2.total_l = _
    simp only at htot
    rw [htot, if_neg (by simp [hm])]

theorem parse_records_count (B : Build) (H : Hasher) (params : ParserParams) (full : List Nat)
    (hw1 : 1 ≤ params.w) (hp : params.p ≠ 0) (hne : NoEarlyBoundary H params.w params.p full) :
    ∀ (input : List Record) (T rest : List Nat) (s : Parser × Locals H),
      T ++ preprocess B params (residues input) ++ rest = full →
      (B.M64 = true ∨ s.2.total_l + (residues input).length ≤ 0xFFFFFFFF) →
      TextInv B H params T s →
      s.1.parse.length = boundaries H params.w params.p T →
      ∃ s1, input.foldlM (parse_record_tab B H) s = .ok s1 ∧
        TextInv B H params (T ++ preprocess B params (residues input)) s1 ∧
        s1.1.parse.length =
          boundaries H params.w params.p (T ++ preprocess B params (residues input)) := by
  intro input
  induction input with
  | nil =>
    intro T rest s _ _ hinv hcnt
    refine ⟨s, rfl, ?_, ?_⟩
    · simp only [residues, List.map_nil, List.flatten_nil, preprocess_nil, List.append_nil]
      exact hinv
    · simp only [residues, List.map_nil, List.flatten_nil, preprocess_nil, List.append_nil]
      exact hcnt
  | cons r input ih =>
    intro T rest s hfull hguard hinv hcnt
    rw [residues_cons, preprocess_append] at hfull ⊢
    rw [residues_cons, List.length_append] at hguard
    obtain ⟨s1, h1, hinv1, hcnt1, htot⟩ := parse_record_count B H params full T
      (preprocess B params (residues input) ++ rest) s r hw1 hp hne
      (by rw [← hfull]; simp [List.append_assoc])
      (by rcases hguard with h | h
          · exact Or.inl h
          · right; omega) hinv hcnt
    obtain ⟨s2, h2, hinv2, hcnt2⟩ := ih (T ++ preprocess B params r.seq) rest s1
      (by rw [← hfull]; simp [List.append_assoc])
      (by have hm : B.M64 = false ∨ B.M64 = true := by cases B.M64 <;> simp
          rcases hm with hm | hm
          · rcases hguard with h | h
            · exact Or.inl h
            · right; rw [htot hm]; omega
          · exact Or.inl hm) hinv1 hcnt1
    refine ⟨s2, ?_, by rw [← List.append_assoc]; exact hinv2,
      by rw [← List.append_assoc]; exact hcnt2⟩
    rw [List.foldlM_cons, h1]
    exact h2

/-- After `parse_fasta_tab` the parse has one entry for every boundary that fired and one for the
final flush. -/
theorem parse_fasta_count (B : Build) (H : Hasher) (params : ParserParams)
    (input : List Record) (hw : 1 ≤ params.w) (hp : 1 ≤ params.p)
    (hguard : B.M64 = true ∨ (residues input).length ≤ 0xFFFFFFFF)
    (hne : NoEarlyBoundary H params.w params.p (preprocess B params (residues input))) :
    ∃ st n, parse_fasta_tab B H { params := params } input = .ok (st, n) ∧
      st.parse.length =
        boundaries H params.w params.p (preprocess B params (residues input)) + 1 := by
  have hbase : TextInv B H params []
      (({ params := params } : Parser),
        ({ phrase := [B.Dollar], hf := H.init params.w } : Locals H)) := by
    refine ⟨rfl, rfl, rfl, fun _ => rfl, fun h => absurd rfl h, ?_, ?_, fun h => absurd rfl h,
      ?_, ?_⟩
    · intro x hx; cases hx
    · intro x hx; cases hx
    · intro x hx; cases hx
    · intro x hx; cases hx
  have hinv0 := hbase.congr
    (if (if params.get_sai = true then ({ params := params, sai := [] } : Parser)
            else { params := params }).params.get_da = true then
          { (if params.get_sai = true then ({ params := params, sai := [] } : Parser)
              else { params := params }) with doc_starts := [], doc_names := [] }
        else (if params.get_sai = true then ({ params := params, sai := [] } : Parser)
              else { params := params }))
    ({ phrase := [B.Dollar], hf := H.init params.w } : Locals H)
    (by split <;> split <;> rfl) (by split <;> split <;> rfl) rfl rfl
  obtain ⟨s1, h1, _, hcnt1⟩ := parse_records_count B H params _ hw (by omega) hne input [] [] _
    (by simp) (by simpa using hguard) hinv0
    (by rw [boundaries_nil]
        show (if _ then _ else _ : Parser).parse.length = 0
        split <;> split <;> rfl)
  unfold parse_fasta_tab
  simp only
  rw [h1]
  obtain ⟨st2, lo⟩ := s1
  simp only [List.nil_append] at hcnt1
  refine ⟨_, _, rfl, ?_⟩
  rw [← hcnt1]
  show (if _ then _ else _ : Parser).parse.length = _
  split <;> simp [process_phrase]

/-- C16, as stated, fails: a fresh parser may have `w = 0`. With `w = 0` and `p = 1` the
single residue `A` fires a boundary, the erase empties the buffer, and the final flush adds the
empty phrase; the read `phrase[phrase.size() - w - 1]` in it is out of range, so `last[1]` is not
a character of `parse[1]`. -/
theorem last_array_window_zero :
    Parser.new { w := 0, p := 1 } = .ok { params := { w := 0, p := 1 } } ∧
    NoEarlyBoundary demoHasher 0 1
      (preprocess demoBuild { w := 0, p := 1 } (residues [⟨"r", [65]⟩])) ∧
    ∃ st, parse_fasta demoBuild demoHasher { params := { w := 0, p := 1 } } [⟨"r", [65]⟩] =
        .ok (st, 1) ∧
      st.parse = [[2, 65], []] ∧ st.last = [some 65, none] :=
  ⟨rfl, by decide, _, rfl, rfl, rfl⟩

/-- C16, amended: for a fresh parser with `w ≥ 1` and `p ≥ 1`, an input within the length guard
of narrow builds that makes no read outside the nucleotide table, and a hasher that fires no
boundary before `w` characters have been fed, `parse_fasta` returns; the last array has the length of the parse, which is the number of
boundaries fired plus one; and for every index `i` the phrase `parse[i]` has more than `w`
characters and `last[i]` is its character at offset `length(parse[i]) - w - 1`. -/
theorem last_array_parallel (B : Build) (H : Hasher) (params : ParserParams)
    (input : List Record) (st0 : Parser) (h0 : Parser.new params = .ok st0)
    (hw : 1 ≤ params.w) (hp : 1 ≤ params.p)
    (hguard : B.M64 = true ∨ (residues input).length ≤ 0xFFFFFFFF)
    (hin : ∀ c ∈ residues input, InTable B params c)
    (hne : NoEarlyBoundary H params.w params.p (preprocess B params (residues input))) :
    ∃ st n, parse_fasta B H st0 input = .ok (st, n) ∧
      st.last.length = st.parse.length ∧
      st.parse.length =
        boundaries H params.w params.p (preprocess B params (residues input)) + 1 ∧
      ∀ (i : Nat) (x : List Nat), st.parse[i]? = some x → params.w + 1 ≤ x.length ∧
        ∃ c, x[x.length - params.w - 1]? = some c ∧ st.last[i]? = some (some c) := by
  obtain ⟨rfl, _⟩ := Parser_new_ok params st0 h0
  obtain ⟨st, n, h1, hcnt⟩ := parse_fasta_count B H params input hw hp hguard hne
  obtain ⟨st', n', h1', _, hlens, _⟩ := parse_fasta_text B H params input hw hp hguard hne
  have hst : st' = st := by
    have := h1'.symm.trans h1
    simp only [Except.ok.injEq, Prod.mk.injEq] at this
    exact this.1
  rw [hst] at hlens
  obtain ⟨hl, hpar⟩ := parse_fasta_last B H params input st n h1
  rw [parse_fasta_eq_tab B H _ input hin]
  refine ⟨st, n, h1, by rw [hl, List.length_map], hcnt, ?_⟩
  intro i x hx
  have hxm : x ∈ st.parse := by
    obtain ⟨hi, hx'⟩ := List.getElem?_eq_some.mp hx
    rw [← hx']
    exact List.getElem_mem hi
  have hxl := hlens x hxm
  have hidx : x.length - params.w - 1 < x.length := by omega
  refine ⟨hxl, x[x.length - params.w - 1], List.getElem?_eq_getElem hidx, ?_⟩
  rw [hl, List.getElem?_map, hx, hpar]
  simp only [Option.map_some']
  have e1 : size_sub x.length params.w = x.length - params.w := size_sub_of_le (by omega)
  have e2 : size_sub (x.length - params.w) 1 = x.length - params.w - 1 :=
    size_sub_of_le (by omega)
  rw [e1, e2, List.getElem?_eq_getElem hidx]

/-- The last array of `ACGTACGTACGT` with window 2 and modulus 3. -/
theorem last_array_parallel_witness :
    ∃ st n, parse_fasta demoBuild demoHasher { params := { w := 2, p := 3 } }
        [⟨"r", [65, 67, 71, 84, 65, 67, 71, 84, 65, 67, 71, 84]⟩] = .ok (st, n) ∧
      st.last.length = st.parse.length ∧
      st.parse.length = boundaries demoHasher 2 3 (preprocess demoBuild { w := 2, p := 3 }
        (residues [⟨"r", [65, 67, 71, 84, 65, 67, 71, 84, 65, 67, 71, 84]⟩])) + 1 ∧
      ∀ (i : Nat) (x : List Nat), st.parse[i]? = some x → 2 + 1 ≤ x.length ∧
        ∃ c, x[x.length - 2 - 1]? = some c ∧ st.last[i]? = some (some c) :=
  last_array_parallel demoBuild demoHasher { w := 2, p := 3 }
    [⟨"r", [65, 67, 71, 84, 65, 67, 71, 84, 65, 67, 71, 84]⟩] { params := { w := 2, p := 3 } } rfl
    (by decide) (by decide) (Or.inl rfl) (by decide) (by decide)

/-! ### The stages of bwt_of_parse -/

theorem foldlM_preserves_mem {α β : Type} (f : β → α → Except Fault β) (P : β → Prop) :
    ∀ (l : List α), (∀ b a b1, a ∈ l → P b → f b a = .ok b1 → P b1) →
      ∀ (b b1 : β), P b → l.foldlM f b = .ok b1 → P b1 := by
  intro l
  induction l with
  | nil =>
    intro _ b b1 hb h
    cases h
    exact hb
  | cons a l ih =>
    intro hstep b b1 hb h
    rw [List.foldlM_cons] at h
    cases hfa : f b a with
    | error e => rw [hfa] at h; cases h
    | ok b2 =>
      rw [hfa] at h
      exact ih (fun b a1 b1 ha => hstep b a1 b1 (List.mem_cons_of_mem _ ha)) b2 b1
        (hstep b a b2 (List.mem_cons_self _ _) hb hfa) h

theorem rd_ok_iff {α : Type} (v : List α) (i : Nat) (a : α) : rd v i = .ok a ↔ v[i]? = some a := by
  unfold rd
  cases h : v[i]? with
  | none => simp
  | some b => simp

/-- What a completed run of `bwt_finish` went through. -/
theorem bwt_finish_inv (st : Parser) (n : Nat) (SA0 : List Nat) (out : BwtOut)
    (h : bwt_finish st n SA0 = .ok out) :
    ∃ r0 F F1, SA0[0]? = some n ∧ st.parse_ranks[size_sub n 1]? = some r0 ∧
      (List.range' 1 n).foldlM (bwt_row st n)
        (SA0.set 0 r0, [(st.last[size_sub n 2]?).join],
          if st.params.get_sai = true then [st.sai[size_sub n 1]?] else []) =
        .ok (out.SA, out.bwlast, out.bwsai) ∧
      build_F st.occs = .ok F ∧
      (List.range' 0 (n + 1)).foldlM (ilist_row out.SA) (F, List.replicate (n + 1) 0) =
        .ok (F1, out.ilist) ∧
      out.ilist[0]? = some 1 ∧ out.SA[1]? = some 0 := by
  unfold bwt_finish at h
  cases h0 : rd SA0 0 with
  | error e => rw [h0] at h; cases h
  | ok sa0 =>
    rw [h0] at h
    simp only at h
    by_cases hsa : sa0 ≠ n
    · rw [if_pos hsa] at h; cases h
    · rw [if_neg hsa] at h
      have hsa' : sa0 = n := by
        by_contra hc; exact hsa hc
      subst hsa'
      cases h1 : rd st.parse_ranks (size_sub sa0 1) with
      | error e => rw [h1] at h; cases h
      | ok r0 =>
        rw [h1] at h
        simp only at h
        cases h2 : (List.range' 1 sa0).foldlM (bwt_row st sa0)
            (SA0.set 0 r0, [(st.last[size_sub sa0 2]?).join],
              if st.params.get_sai = true then [st.sai[size_sub sa0 1]?] else []) with
        | error e => rw [h2] at h; cases h
        | ok r =>
          obtain ⟨SA, bwlast, bwsai⟩ := r
          rw [h2] at h
          simp only at h
          cases h3 : build_F st.occs with
          | error e => rw [h3] at h; cases h
          | ok F =>
            rw [h3] at h
            simp only at h
            cases h4 : rd F st.occs.length with
            | error e => rw [h4] at h; cases h
            | ok a =>
              cases h5 : rd st.occs (st.occs.length - 1) with
              | error e => rw [h4, h5] at h; cases h
              | ok b =>
                rw [h4, h5] at h
                simp only at h
                by_cases hab : a + b ≠ sa0 + 1
                · rw [if_pos hab] at h; cases h
                · rw [if_neg hab] at h
                  cases h6 : (List.range' 0 (sa0 + 1)).foldlM (ilist_row SA)
                      (F, List.replicate (sa0 + 1) 0) with
                  | error e => rw [h6] at h; cases h
                  | ok r2 =>
                    obtain ⟨F1, ilist⟩ := r2
                    rw [h6] at h
                    simp only at h
                    cases h7 : rd ilist 0 with
                    | error e => rw [h7] at h; cases h
                    | ok i0 =>
                      rw [h7] at h
                      simp only at h
                      by_cases hi0 : i0 ≠ 1
                      · rw [if_pos hi0] at h; cases h
                      · rw [if_neg hi0] at h
                        have hi0' : i0 = 1 := by
                          by_contra hc; exact hi0 hc
                        subst hi0'
                        cases h8 : rd SA 1 with
                        | error e => rw [h8] at h; cases h
                        | ok s0 =>
                          rw [h8] at h
                          simp only at h
                          by_cases hs0 : s0 ≠ 0
                          · rw [if_pos hs0] at h; cases h
                          · rw [if_neg hs0] at h
                            have hs0' : s0 = 0 := by
                              by_contra hc; exact hs0 hc
                            subst hs0'
                            simp only [Except.ok.injEq] at h
                            subst h
                            exact ⟨r0, F, F1, (rd_ok_iff _ _ _).mp h0, (rd_ok_iff _ _ _).mp h1,
                              h2, rfl, h6, (rd_ok_iff _ _ _).mp h7, (rd_ok_iff _ _ _).mp h8⟩

/-- What a completed run of `bwt_of_parse` went through: the ranked parse it leaves has the
sentinel and at least one more entry, and with `n` its length less one, the suffix-array routine
returned some `SA0` on which the rest of the construction completed. -/
theorem bwt_of_parse_inv (B : Build) (st st1 : Parser) (out : BwtOut)
    (h : bwt_of_parse B st = .ok (st1, out)) :
    ∃ SA0, 2 ≤ st1.parse_ranks.length ∧ st1.last = st.last ∧ st1.occs = st.occs ∧
      st1.params = st.params ∧ st1.sai = st.sai ∧
      B.sacak_int st1.parse_ranks (st1.parse_ranks.length - 1 + 1)
        ((st1.parse_ranks.take (st1.parse_ranks.length - 1)).foldl
          (fun k r => if r > k then r else k) 0 + 1) = some SA0 ∧
      bwt_finish st1 (st1.parse_ranks.length - 1) SA0 = .ok out := by
  unfold bwt_of_parse at h
  have key : ∀ st2 : Parser, st2.last = st.last → st2.occs = st.occs → st2.params = st.params →
      st2.sai = st.sai →
      (if st2.parse_ranks.length = 1 then (.error .fatal : Except Fault (Parser × BwtOut))
        else if ¬ B.M64 = true ∧ st2.parse_ranks.length > 0x7FFFFFFE then .error .fatal
        else if B.M64 = true ∧ st2.parse_ranks.length > 0xFFFFFFFE then .error .fatal
        else bwt_build B st2) = .ok (st1, out) →
      ∃ SA0, 2 ≤ st1.parse_ranks.length ∧ st1.last = st.last ∧ st1.occs = st.occs ∧
        st1.params = st.params ∧ st1.sai = st.sai ∧
        B.sacak_int st1.parse_ranks (st1.parse_ranks.length - 1 + 1)
          ((st1.parse_ranks.take (st1.parse_ranks.length - 1)).foldl
            (fun k r => if r > k then r else k) 0 + 1) = some SA0 ∧
        bwt_finish st1 (st1.parse_ranks.length - 1) SA0 = .ok out := by
    intro st2 e1 e2 e3 e4 hb
    by_cases hl1 : st2.parse_ranks.length = 1
    · rw [if_pos hl1] at hb; cases hb
    · rw [if_neg hl1] at hb
      by_cases hc1 : ¬ B.M64 = true ∧ st2.parse_ranks.length > 0x7FFFFFFE
      · rw [if_pos hc1] at hb; cases hb
      · rw [if_neg hc1] at hb
        by_cases hc2 : B.M64 = true ∧ st2.parse_ranks.length > 0xFFFFFFFE
        · rw [if_pos hc2] at hb; cases hb
        · rw [if_neg hc2] at hb
          unfold bwt_build at hb
          cases hr : rd st2.parse_ranks (size_sub st2.parse_ranks.length 1) with
          | error e => rw [hr] at hb; cases hb
          | ok e =>
            rw [hr] at hb
            try simp only at hb
            have hlen : 2 ≤ st2.parse_ranks.length := by
              have h1 := (rd_ok_iff _ _ _).mp hr
              have h2 : size_sub st2.parse_ranks.length 1 < st2.parse_ranks.length := by
                by_contra hc
                rw [List.getElem?_eq_none (by omega)] at h1
                cases h1
              have h3 : st2.parse_ranks.length ≠ 0 := by
                intro h0; rw [h0] at h2; omega
              omega
            by_cases he : e ≠ 0
            · simp only [if_pos he] at hb
              cases hs : B.sacak_int (st2.parse_ranks ++ [0]) (st2.parse_ranks.length + 1)
                  (((st2.parse_ranks ++ [0]).take st2.parse_ranks.length).foldl
                    (fun k r => if r > k then r else k) 0 + 1) with
              | none => rw [hs] at hb; cases hb
              | some SA0 =>
                rw [hs] at hb
                try simp only at hb
                cases hf : bwt_finish { st2 with parse_ranks := st2.parse_ranks ++ [0] }
                    st2.parse_ranks.length SA0 with
                | error e => rw [hf] at hb; cases hb
                | ok o =>
                  rw [hf] at hb
                  simp only [Except.ok.injEq, Prod.mk.injEq] at hb
                  obtain ⟨hb1, hb2⟩ := hb
                  subst hb1 hb2
                  refine ⟨SA0, ?_, e1, e2, e3, e4, ?_, ?_⟩
                  · simp only [List.length_append, List.length_singleton]; omega
                  · simp only [List.length_append, List.length_singleton, Nat.add_sub_cancel]
                    exact hs
                  · simp only [List.length_append, List.length_singleton, Nat.add_sub_cancel]
                    exact hf
            · simp only [if_neg he] at hb
              cases hs : B.sacak_int st2.parse_ranks (st2.parse_ranks.length - 1 + 1)
                  ((st2.parse_ranks.take (st2.parse_ranks.length - 1)).foldl
                    (fun k r => if r > k then r else k) 0 + 1) with
              | none => rw [hs] at hb; cases hb
              | some SA0 =>
                rw [hs] at hb
                try simp only at hb
                cases hf : bwt_finish st2 (st2.parse_ranks.length - 1) SA0 with
                | error e => rw [hf] at hb; cases hb
                | ok o =>
                  rw [hf] at hb
                  simp only [Except.ok.injEq, Prod.mk.injEq] at hb
                  obtain ⟨hb1, hb2⟩ := hb
                  subst hb1 hb2
                  exact ⟨SA0, hlen, e1, e2, e3, e4, hs, hf⟩
  by_cases hz : st.parse_ranks.length = 0
  · rw [if_pos hz] at h
    unfold generate_parse_ranks at h
    by_cases hfz : st.freqs.length = 0
    · rw [if_pos hfz] at h; cases h
    · rw [if_neg hfz] at h
      cases hp : parse_ranks_loop st.freqs st.parse [] with
      | error e => rw [hp] at h; cases h
      | ok ranks =>
        rw [hp] at h
        simp only at h
        exact key { st with parse_ranks := ranks, parse_size := some ranks.length }
          rfl rfl rfl rfl h
  · rw [if_neg hz] at h
    simp only at h
    exact key st rfl rfl rfl rfl h

/-! ### The array bwlast -/

theorem bwt_row_shape (st : Parser) (n : Nat)
    (s : List Nat × List (Option Nat) × List (Option Nat)) (i : Nat)
    (s1 : List Nat × List (Option Nat) × List (Option Nat)) (h : bwt_row st n s i = .ok s1) :
    (∃ v, s1.1 = s.1.set i v) ∧ (∃ b, s1.2.1 = s.2.1 ++ [b]) := by
  unfold bwt_row at h
  cases h0 : rd s.1 i with
  | error e => rw [h0] at h; cases h
  | ok sa =>
    rw [h0] at h
    simp only at h
    by_cases hz : sa = 0
    · rw [if_pos hz] at h
      simp only [Except.ok.injEq] at h
      subst h
      exact ⟨⟨0, rfl⟩, ⟨some 0, rfl⟩⟩
    · rw [if_neg hz] at h
      cases h1 : rd st.parse_ranks (sa - 1) with
      | error e => rw [h1] at h; cases h
      | ok r =>
        rw [h1] at h
        simp only [Except.ok.injEq] at h
        subst h
        exact ⟨⟨r, rfl⟩, ⟨_, rfl⟩⟩

/-- The rows after row 0 leave `SA[0]` and `bwlast[0]` as they are. -/
theorem bwt_fold_head (st : Parser) (n : Nat) (r0 : Nat) (b0 : Option Nat)
    (s s1 : List Nat × List (Option Nat) × List (Option Nat)) (m : Nat)
    (hs : s.1[0]? = some r0 ∧ s.2.1[0]? = some b0)
    (h : (List.range' 1 m).foldlM (bwt_row st n) s = .ok s1) :
    s1.1[0]? = some r0 ∧ s1.2.1[0]? = some b0 := by
  refine foldlM_preserves_mem (bwt_row st n) (fun x => x.1[0]? = some r0 ∧ x.2.1[0]? = some b0)
    (List.range' 1 m) ?_ s s1 hs h
  intro b a b1 ha hb hf
  obtain ⟨⟨v, hv⟩, ⟨x, hx⟩⟩ := bwt_row_shape st n b a b1 hf
  have ha1 : 1 ≤ a := (List.mem_range'_1.mp ha).1
  constructor
  · rw [hv, List.getElem?_set_ne (by omega)]
    exact hb.1
  · rw [hx]
    have hl : 0 < b.2.1.length := by
      by_contra hc
      have := hb.2
      rw [List.getElem?_eq_none (by omega)] at this
      cases this
    rw [List.getElem?_append_left hl]
    exact hb.2

/-- C18, as stated, fails: on the ranked parse of `ACGTACGTACGT` (window 2, modulus 3),
where `n = 7`, the sink receives `bwlast[0] = last[5]`, the character `A`, while the rank at
position `n - 1` of the ranked parse is 3. -/
theorem bwlast_head_not_rank :
    bwt_of_parse demoBuild demoRanked = .ok (demoSentinel, demoBwt) ∧
    demoSentinel.parse_ranks = [1, 2, 4, 2, 4, 2, 3, 0] ∧ demoBwt.bwlast[0]? = some (some 65) ∧
    demoRanked.last[7 - 2]? = some (some 65) ∧ demoSentinel.parse_ranks[7 - 1]? = some 3 ∧
    demoBwt.SA[0]? = some 3 :=
  ⟨rfl, rfl, rfl, rfl, rfl, rfl⟩

/-- C18, amended: whenever `bwt_of_parse` reaches its sink, with `n` the length of the ranked
parse it leaves less the sentinel, the first entry `bwlast[0]` handed over is `last[n-2]` (read
with the index computed in `size_t`), a character of the text; the rank at position `n - 1` of
the ranked parse is what row 0 of `SA` holds. -/
theorem bwlast_head_is_last (B : Build) (st st1 : Parser) (out : BwtOut)
    (h : bwt_of_parse B st = .ok (st1, out)) :
    2 ≤ st1.parse_ranks.length ∧
    out.bwlast[0]? = some ((st1.last[size_sub (st1.parse_ranks.length - 1) 2]?).join) ∧
    out.SA[0]? = st1.parse_ranks[st1.parse_ranks.length - 1 - 1]? := by
  obtain ⟨SA0, hlen, _, _, _, _, _, hfin⟩ := bwt_of_parse_inv B st st1 out h
  obtain ⟨r0, F, F1, h0, hr0, hfold, _⟩ := bwt_finish_inv st1 _ SA0 out hfin
  have hl0 : 0 < SA0.length := by
    by_contra hc
    rw [List.getElem?_eq_none (by omega)] at h0
    cases h0
  have hset : (SA0.set 0 r0)[0]? = some r0 := by
    rw [List.getElem?_eq_getElem (by simpa using hl0), List.getElem_set_self]
  have := bwt_fold_head st1 (st1.parse_ranks.length - 1) r0
    ((st1.last[size_sub (st1.parse_ranks.length - 1) 2]?).join)
    (SA0.set 0 r0, [(st1.last[size_sub (st1.parse_ranks.length - 1) 2]?).join],
      if st1.params.get_sai = true then [st1.sai[size_sub (st1.parse_ranks.length - 1) 1]?]
      else [])
    (out.SA, out.bwlast, out.bwsai) (st1.parse_ranks.length - 1) ⟨hset, rfl⟩ hfold
  refine ⟨hlen, this.2, ?_⟩
  rw [this.1, ← hr0, size_sub_of_le (by omega)]

/-- The first entry of `bwlast` on the ranked parse of `ACGTACGTACGT`. -/
theorem bwlast_head_is_last_witness :
    2 ≤ demoSentinel.parse_ranks.length ∧
    demoBwt.bwlast[0]? =
      some ((demoSentinel.last[size_sub (demoSentinel.parse_ranks.length - 1) 2]?).join) ∧
    demoBwt.SA[0]? = demoSentinel.parse_ranks[demoSentinel.parse_ranks.length - 1 - 1]? :=
  bwlast_head_is_last demoBuild demoRanked demoSentinel demoBwt rfl

theorem bwt_row_bwlast (st : Parser) (n : Nat) (SA0 : List Nat) (i : Nat)
    (hlen : SA0.length = n + 1) (hi : i < n + 1)
    (hrange : ∀ j ∈ SA0, j < st.parse_ranks.length + 1)
    (bl bs : List (Option Nat)) :
    ∃ bs1, bwt_row st n (SA_at st.parse_ranks SA0 i, bl, bs) i =
      .ok (SA_at st.parse_ranks SA0 (i + 1), bl ++ [bwlast_sym st n (SA0.getD i 0)], bs1) := by
  have hi1 : i < SA0.length := by omega
  have hi2 : i < (SA_at st.parse_ranks SA0 i).length := by rw [SA_at_length]; exact hi1
  have hget : (SA_at st.parse_ranks SA0 i)[i] = SA0[i] := by
    rw [SA_at_getElem, if_neg (Nat.lt_irrefl _), List.getD_eq_getElem _ _ hi1]
  unfold bwt_row
  simp only
  rw [rd_eq_ok _ i hi2, hget]
  simp only
  have hset := SA_at_set st.parse_ranks SA0 i hi1
  rw [List.getD_eq_getElem _ _ hi1] at hset ⊢
  by_cases hz : SA0[i] = 0
  · rw [if_pos hz]
    refine ⟨if st.params.get_sai = true then bs ++ [some 0] else bs, ?_⟩
    rw [← hset, hz]
    rfl
  · rw [if_neg hz]
    have hr : SA0[i] - 1 < st.parse_ranks.length := by
      have := hrange SA0[i] (List.getElem_mem hi1)
      omega
    rw [rd_eq_ok _ _ hr]
    simp only
    refine ⟨if st.params.get_sai = true then bs ++ [st.sai[SA0[i] - 1]?] else bs, ?_⟩
    rw [← hset]
    unfold bw_sym bwlast_sym
    rw [if_neg hz, if_neg hz, List.getD_eq_getElem _ _ hr]

theorem bwt_fold_bwlast (st : Parser) (n : Nat) (SA0 : List Nat)
    (hlen : SA0.length = n + 1) (hrange : ∀ j ∈ SA0, j < st.parse_ranks.length + 1) :
    ∀ (k i : Nat), i + k = n + 1 → ∀ (bl bs : List (Option Nat)),
      ∃ bs1, (List.range' i k).foldlM (bwt_row st n) (SA_at st.parse_ranks SA0 i, bl, bs) =
        .ok (SA0.map (bw_sym st.parse_ranks),
          bl ++ (SA0.drop i).map (bwlast_sym st n), bs1) := by
  intro k
  induction k with
  | zero =>
    intro i h bl bs
    have hi : i = SA0.length := by omega
    rw [hi, SA_at_full, List.drop_length]
    refine ⟨bs, ?_⟩
    simp only [List.map_nil, List.append_nil]
    rfl
  | succ k ih =>
    intro i h bl bs
    have hi1 : i < SA0.length := by omega
    obtain ⟨bs1, h1⟩ := bwt_row_bwlast st n SA0 i hlen (by omega) hrange bl bs
    obtain ⟨bs2, h2⟩ := ih (i + 1) (by omega) (bl ++ [bwlast_sym st n (SA0.getD i 0)]) bs1
    refine ⟨bs2, ?_⟩
    rw [List.range'_succ, List.foldlM_cons, h1]
    rw [List.drop_eq_getElem_cons hi1, List.map_cons, ← List.getD_eq_getElem _ 0 hi1]
    rw [List.append_assoc] at h2
    exact h2

/-- C17: in `bwt_of_parse`, from the assertion on `SA[0]` on, with `n ≥ 2`, a ranked parse of
`n` symbols and the sentinel, and `SA0` a permutation of `0..n` with `SA0[0] = n`: the loop over
the rows `1..n` completes, `bwlast` then has `n + 1` entries, and for every row `i` in `1..n`,
with `j = SA0[i]`, `bwlast[i]` is 0 if `j = 0`, `last[n-1]` if `j = 1` and `last[j-2]`
otherwise, the index into `last` being below `n`; a run that reaches the sink hands over this
`bwlast`. -/
theorem bwlast_rows (st : Parser) (n : Nat) (SA0 : List Nat) (hn : 2 ≤ n)
    (hlen : st.parse_ranks.length = n + 1) (hperm : SA0.Perm (List.range (n + 1)))
    (h0 : SA0[0]? = some n) :
    ∃ r0 SA bwlast bwsai,
      st.parse_ranks[n - 1]? = some r0 ∧
      (List.range' 1 n).foldlM (bwt_row st n)
        (SA0.set 0 r0, [(st.last[size_sub n 2]?).join],
          if st.params.get_sai = true then [st.sai[size_sub n 1]?] else []) =
        .ok (SA, bwlast, bwsai) ∧
      bwlast.length = n + 1 ∧
      (∀ i, 1 ≤ i → i ≤ n → ∃ j, SA0[i]? = some j ∧
        bwlast[i]? = some (if j = 0 then some 0 else if j = 1 then (st.last[n - 1]?).join
          else (st.last[j - 2]?).join) ∧
        (j ≠ 0 → (if j = 1 then n - 1 else j - 2) < n)) ∧
      (∀ out, bwt_finish st n SA0 = .ok out → out.bwlast = bwlast) := by
  have hSAlen : SA0.length = n + 1 := by rw [hperm.length_eq, List.length_range]
  have hmem : ∀ j ∈ SA0, j < n + 1 := fun j hj => List.mem_range.mp (hperm.mem_iff.mp hj)
  have hrange : ∀ j ∈ SA0, j < st.parse_ranks.length + 1 := by
    intro j hj
    have := hmem j hj
    omega
  have hn1 : n - 1 < st.parse_ranks.length := by omega
  have hr : st.parse_ranks[n - 1]? = some st.parse_ranks[n - 1] := List.getElem?_eq_getElem hn1
  obtain ⟨bs1, hfold⟩ := bwt_fold_bwlast st n SA0 hSAlen hrange n 1 (by omega)
    [(st.last[size_sub n 2]?).join]
    (if st.params.get_sai = true then [st.sai[size_sub n 1]?] else [])
  rw [← SA_at_first st.parse_ranks SA0 n hSAlen (by omega) h0 _ hr] at hfold
  refine ⟨_, _, _, _, hr, hfold, ?_, ?_, ?_⟩
  · simp [hSAlen]
  · intro i hi1 hin
    have hi : i < SA0.length := by omega
    refine ⟨SA0[i], List.getElem?_eq_getElem hi, ?_, ?_⟩
    · rw [List.getElem?_append_right (by simpa using hi1), List.getElem?_map,
        List.getElem?_drop]
      have e : 1 + (i - [(st.last[size_sub n 2]?).join].length) = i := by
        simp only [List.length_singleton]; omega
      rw [e, List.getElem?_eq_getElem hi]
      simp only [Option.map_some', bwlast_sym]
      rw [size_sub_of_le (by omega)]
    · intro hj
      have := hmem SA0[i] (List.getElem_mem hi)
      split <;> omega
  · intro out hout
    obtain ⟨r0, F, F1, _, hr0, hfold', _⟩ := bwt_finish_inv st n SA0 out hout
    rw [size_sub_of_le (by omega), hr] at hr0
    have hr0' : st.parse_ranks[n - 1] = r0 := Option.some.inj hr0
    rw [← hr0', hfold] at hfold'
    simp only [Except.ok.injEq, Prod.mk.injEq] at hfold'
    exact hfold'.2.1.symm

/-- The rows of `bwlast` on the ranked parse of `ACGTACGTACGT` and its suffix array. -/
theorem bwlast_rows_witness :
    ∃ r0 SA bwlast bwsai,
      demoSentinel.parse_ranks[7 - 1]? = some r0 ∧
      (List.range' 1 7).foldlM (bwt_row demoSentinel 7)
        ([7, 0, 5, 3, 1, 6, 4, 2].set 0 r0, [(demoSentinel.last[size_sub 7 2]?).join],
          if demoSentinel.params.get_sai = true then [demoSentinel.sai[size_sub 7 1]?] else []) =
        .ok (SA, bwlast, bwsai) ∧
      bwlast.length = 7 + 1 ∧
      (∀ i, 1 ≤ i → i ≤ 7 → ∃ j, [7, 0, 5, 3, 1, 6, 4, 2][i]? = some j ∧
        bwlast[i]? = some (if j = 0 then some 0
          else if j = 1 then (demoSentinel.last[7 - 1]?).join
          else (demoSentinel.last[j - 2]?).join) ∧
        (j ≠ 0 → (if j = 1 then 7 - 1 else j - 2) < 7)) ∧
      (∀ out, bwt_finish demoSentinel 7 [7, 0, 5, 3, 1, 6, 4, 2] = .ok out →
        out.bwlast = bwlast) :=
  bwlast_rows demoSentinel 7 [7, 0, 5, 3, 1, 6, 4, 2] (by decide) rfl (by decide) rfl

/-! ### The fill loop places the rows in bucket order -/

theorem countP_take_mono (l : List Nat) (a b c : Nat) (h : a ≤ b) :
    (l.take a).countP (fun x => decide (x = c)) ≤ (l.take b).countP (fun x => decide (x = c)) := by
  have e : l.take a = (l.take b).take a := by
    rw [List.take_take, Nat.min_eq_left h]
  rw [e]
  exact (List.take_sublist a (l.take b)).countP_le _

theorem countP_take_lt (l : List Nat) (r : Nat) (hr : r < l.length) :
    (l.take r).countP (fun x => decide (x = l.getD r 0)) <
      l.countP (fun x => decide (x = l.getD r 0)) := by
  have h1 := countP_take_succ l r (l.getD r 0) hr
  rw [List.getD_eq_getElem _ _ hr, if_pos rfl] at h1
  have h2 := countP_take_le l (r + 1) l[r]
  rw [List.getD_eq_getElem _ _ hr]
  omega

theorem row_lt_or (BW : List Nat) (a b : Nat) (h : a ≠ b) : row_lt BW a b ∨ row_lt BW b a := by
  unfold row_lt
  omega

theorem row_lt_asymm (BW : List Nat) (a b : Nat) (h : row_lt BW a b) : ¬ row_lt BW b a := by
  unfold row_lt at h ⊢
  omega

theorem lf_pos_lt_length (BW F0 : List Nat)
    (hsym : ∀ x ∈ BW, x < F0.length)
    (hroom : ∀ c, c < F0.length →
      F0.getD c 0 + BW.countP (fun x => decide (x = c)) ≤ BW.length)
    (a : Nat) (ha : a < BW.length) : lf_pos BW F0 a < BW.length := by
  unfold lf_pos
  have h1 := countP_take_lt BW a ha
  have hc : BW.getD a 0 < F0.length := by
    rw [List.getD_eq_getElem _ _ ha]; exact hsym _ (List.getElem_mem ha)
  have h2 := hroom _ hc
  omega

theorem lf_pos_lt_of_row_lt (BW F0 : List Nat)
    (hsym : ∀ x ∈ BW, x < F0.length)
    (hsep : ∀ c c1, c < c1 → c1 < F0.length →
      F0.getD c 0 + BW.countP (fun x => decide (x = c)) ≤ F0.getD c1 0)
    (a b : Nat) (ha : a < BW.length) (hb : b < BW.length) (h : row_lt BW a b) :
    lf_pos BW F0 a < lf_pos BW F0 b := by
  unfold lf_pos
  rcases h with h | ⟨h1, h2⟩
  · have h3 := countP_take_lt BW a ha
    have hc : BW.getD b 0 < F0.length := by
      rw [List.getD_eq_getElem _ _ hb]; exact hsym _ (List.getElem_mem hb)
    have h4 := hsep _ _ h hc
    omega
  · rw [h1]
    have h3 := countP_take_succ BW a (BW.getD b 0) ha
    rw [← List.getD_eq_getElem _ 0 ha, h1, if_pos rfl] at h3
    have h4 := countP_take_mono BW (a + 1) b (BW.getD b 0) (by omega)
    omega

theorem rd_eq_getD (v : List Nat) (i : Nat) (h : i < v.length) : rd v i = .ok (v.getD i 0) := by
  rw [rd_eq_ok v i h, List.getD_eq_getElem _ _ h]

theorem fill_row_spec (BW F0 : List Nat) (i : Nat) (s : List Nat × List Nat)
    (hi : i < BW.length)
    (hsym : ∀ x ∈ BW, x < F0.length)
    (hroom : ∀ c, c < F0.length →
      F0.getD c 0 + BW.countP (fun x => decide (x = c)) ≤ BW.length)
    (hsep : ∀ c c1, c < c1 → c1 < F0.length →
      F0.getD c 0 + BW.countP (fun x => decide (x = c)) ≤ F0.getD c1 0)
    (hinv : FillInv BW F0 i s) :
    ∃ s1, ilist_row BW s i = .ok s1 ∧ FillInv BW F0 (i + 1) s1 := by
  obtain ⟨F, il⟩ := s
  obtain ⟨hFl, hil, hcur, hpl⟩ := hinv
  simp only at hFl hil hcur hpl
  have hc : BW.getD i 0 < F0.length := by
    rw [List.getD_eq_getElem _ _ hi]; exact hsym _ (List.getElem_mem hi)
  have hcF : BW.getD i 0 < F.length := by omega
  have hf : F.getD (BW.getD i 0) 0 = lf_pos BW F0 i := hcur _ hc
  have hfl : lf_pos BW F0 i < il.length := by
    rw [hil]; exact lf_pos_lt_length BW F0 hsym hroom i hi
  unfold ilist_row
  simp only
  rw [rd_eq_getD BW i hi]
  simp only
  rw [rd_eq_getD F _ hcF, hf]
  simp only
  rw [wr_eq_ok il _ i hfl]
  refine ⟨_, rfl, ?_⟩
  constructor
  · simp [hFl]
  · simp [hil]
  · intro c hcl
    simp only
    have hcl' : c < F.length := by omega
    rw [List.getD_eq_getElem _ _ (by simpa using hcl'), List.getElem_set]
    have e := countP_take_succ BW i c hi
    rw [← List.getD_eq_getElem _ 0 hi] at e
    by_cases hcc : BW.getD i 0 = c
    · rw [if_pos hcc, e, if_pos hcc]
      have := hcur c hcl
      rw [← hcc] at this ⊢
      rw [← hf, this]
      omega
    · rw [if_neg hcc, e, if_neg hcc, ← List.getD_eq_getElem _ 0 hcl']
      exact hcur c hcl
  · intro r hr
    simp only
    by_cases hri : r = i
    · rw [hri, List.getElem?_eq_getElem (by simpa using hfl), List.getElem_set_self]
    · have hr' : r < i := by omega
      have hne : lf_pos BW F0 i ≠ lf_pos BW F0 r := by
        have := lf_pos_lt_of_row_lt BW F0 hsym hsep
        rcases row_lt_or BW r i hri with h | h
        · have := this r i (by omega) hi h; omega
        · have := this i r hi (by omega) h; omega
      rw [List.getElem?_set_ne hne]
      exact hpl r hr'

theorem fill_fold_spec (BW F0 : List Nat)
    (hsym : ∀ x ∈ BW, x < F0.length)
    (hroom : ∀ c, c < F0.length →
      F0.getD c 0 + BW.countP (fun x => decide (x = c)) ≤ BW.length)
    (hsep : ∀ c c1, c < c1 → c1 < F0.length →
      F0.getD c 0 + BW.countP (fun x => decide (x = c)) ≤ F0.getD c1 0) :
    ∀ (k i : Nat) (s : List Nat × List Nat), i + k = BW.length → FillInv BW F0 i s →
      ∃ s1, (List.range' i k).foldlM (ilist_row BW) s = .ok s1 ∧ FillInv BW F0 BW.length s1 := by
  intro k
  induction k with
  | zero =>
    intro i s h hinv
    have : i = BW.length := by omega
    subst this
    exact ⟨s, rfl, hinv⟩
  | succ k ih =>
    intro i s h hinv
    obtain ⟨s1, h1, hinv1⟩ := fill_row_spec BW F0 i s (by omega) hsym hroom hsep hinv
    obtain ⟨s2, h2, hinv2⟩ := ih (i + 1) s1 (by omega) hinv1
    refine ⟨s2, ?_, hinv2⟩
    rw [List.range'_succ, List.foldlM_cons, h1]
    exact h2

theorem FillInv.start (BW F0 : List Nat) :
    FillInv BW F0 0 (F0, List.replicate BW.length 0) := by
  refine ⟨rfl, by simp, ?_, ?_⟩
  · intro c _; simp
  · intro r hr; omega

/-- Every slot of `ilist` is the slot of some row. -/
theorem lf_pos_surj (BW F0 : List Nat)
    (hsym : ∀ x ∈ BW, x < F0.length)
    (hroom : ∀ c, c < F0.length →
      F0.getD c 0 + BW.countP (fun x => decide (x = c)) ≤ BW.length)
    (hsep : ∀ c c1, c < c1 → c1 < F0.length →
      F0.getD c 0 + BW.countP (fun x => decide (x = c)) ≤ F0.getD c1 0)
    (q : Nat) (hq : q < BW.length) : ∃ r, r < BW.length ∧ lf_pos BW F0 r = q := by
  have inj : Function.Injective (fun r : Fin BW.length =>
      (⟨lf_pos BW F0 r.1, lf_pos_lt_length BW F0 hsym hroom r.1 r.2⟩ : Fin BW.length)) := by
    intro a b hab
    have hab' : lf_pos BW F0 a.1 = lf_pos BW F0 b.1 := congrArg Fin.val hab
    by_contra hne
    have hne' : a.1 ≠ b.1 := fun h => hne (Fin.ext h)
    rcases row_lt_or BW a.1 b.1 hne' with h | h
    · have := lf_pos_lt_of_row_lt BW F0 hsym hsep a.1 b.1 a.2 b.2 h; omega
    · have := lf_pos_lt_of_row_lt BW F0 hsym hsep b.1 a.1 b.2 a.2 h; omega
  obtain ⟨r, hr⟩ := (Finite.injective_iff_surjective.mp inj) ⟨q, hq⟩
  exact ⟨r.1, r.2, congrArg Fin.val hr⟩

/-- The list the fill loop leaves: a permutation of the rows, in bucket order. -/
theorem fill_result (BW F0 : List Nat)
    (hsym : ∀ x ∈ BW, x < F0.length)
    (hroom : ∀ c, c < F0.length →
      F0.getD c 0 + BW.countP (fun x => decide (x = c)) ≤ BW.length)
    (hsep : ∀ c c1, c < c1 → c1 < F0.length →
      F0.getD c 0 + BW.countP (fun x => decide (x = c)) ≤ F0.getD c1 0) :
    ∃ F1 il, (List.range' 0 BW.length).foldlM (ilist_row BW)
        (F0, List.replicate BW.length 0) = .ok (F1, il) ∧
      il.length = BW.length ∧ il.Perm (List.range BW.length) ∧ il.Pairwise (row_lt BW) := by
  obtain ⟨s1, hfold, hinv⟩ := fill_fold_spec BW F0 hsym hroom hsep BW.length 0
    (F0, List.replicate BW.length 0) (by omega) (FillInv.start BW F0)
  obtain ⟨F1, il⟩ := s1
  have hlen : il.length = BW.length := hinv.il_len
  have hslot : ∀ q (hq : q < il.length), il[q] < BW.length ∧ lf_pos BW F0 il[q] = q := by
    intro q hq
    obtain ⟨r, hr, hrq⟩ := lf_pos_surj BW F0 hsym hroom hsep q (by omega)
    have := hinv.placed r hr
    simp only at this
    rw [hrq, List.getElem?_eq_getElem hq] at this
    have e : il[q] = r := Option.some.inj this
    rw [e]
    exact ⟨hr, hrq⟩
  have hsorted : il.Pairwise (row_lt BW) := by
    rw [List.pairwise_iff_getElem]
    intro q1 q2 h1 h2 hlt
    obtain ⟨ha, hga⟩ := hslot q1 h1
    obtain ⟨hb, hgb⟩ := hslot q2 h2
    have hne : il[q1] ≠ il[q2] := by
      intro h; rw [h] at hga; omega
    rcases row_lt_or BW _ _ hne with h | h
    · exact h
    · have := lf_pos_lt_of_row_lt BW F0 hsym hsep _ _ hb ha h
      omega
  have hnodup : il.Nodup := by
    refine hsorted.imp ?_
    intro a b hab heq
    rw [heq] at hab
    unfold row_lt at hab
    omega
  have hsub : il ⊆ List.range BW.length := by
    intro x hx
    obtain ⟨q, hq, rfl⟩ := List.getElem_of_mem hx
    exact List.mem_range.mpr (hslot q hq).1
  have hperm : il.Perm (List.range BW.length) :=
    (List.subperm_of_subset hnodup hsub).perm_of_length_le (by simp [hlen])
  exact ⟨F1, il, hfold, hlen, hperm, hsorted⟩

/-! ### The fill loop on the BWT of a ranked parse -/

theorem F_after_getD (occs : List Nat) (j : Nat) (hj : j ≤ occs.length) :
    (F_after occs occs.length).getD j 0 =
      if j = 0 then 0 else 1 + (occs.take (j - 1)).sum := by
  rw [List.getD_eq_getElem _ _ (by rw [F_after_length]; omega), F_after_getElem]
  by_cases h0 : j = 0
  · rw [if_pos h0, if_pos h0]
  · rw [if_neg h0, if_neg h0, if_pos hj]

theorem sum_take_mono (l : List Nat) (a b : Nat) (h : a ≤ b) :
    (l.take a).sum ≤ (l.take b).sum := by
  have e : l.take a = (l.take b).take a := by
    rw [List.take_take, Nat.min_eq_left h]
  rw [e]
  exact sum_take_le _ _

theorem sum_indicator_range (D j : Nat) :
    ((List.range D).map (fun c => if j = c then 1 else 0)).sum = if j < D then 1 else 0 := by
  induction D with
  | zero => simp
  | succ D ih =>
    rw [List.range_succ, List.map_append, List.sum_append, ih]
    simp only [List.map_cons, List.map_nil, List.sum_cons, List.sum_nil, Nat.add_zero]
    by_cases h1 : j < D
    · rw [if_pos h1, if_neg (by omega), if_pos (by omega)]
    · rw [if_neg h1]
      by_cases h2 : j = D
      · rw [if_pos h2, if_pos (by omega)]
      · rw [if_neg h2, if_neg (by omega)]

/-- The occurrence counts of the ranks `1..D` add up to the length of a parse whose ranks all
lie in `1..D`. -/
theorem counts_sum (D : Nat) (P : List Nat) (hrk : ∀ r ∈ P, 1 ≤ r ∧ r ≤ D) :
    ((List.range D).map (fun c => P.countP (fun x => decide (x = c + 1)))).sum = P.length := by
  induction P with
  | nil => simp
  | cons r P ih =>
    have h1 := ih (fun x hx => hrk x (List.mem_cons_of_mem _ hx))
    have hr := hrk r (List.mem_cons_self _ _)
    have e : (fun c => (r :: P).countP (fun x => decide (x = c + 1))) =
        (fun c => P.countP (fun x => decide (x = c + 1)) + if r - 1 = c then 1 else 0) := by
      funext c
      rw [List.countP_cons]
      by_cases hc : r = c + 1
      · simp [hc]
      · have : ¬ r - 1 = c := by omega
        simp [hc, this]
    rw [e, List.sum_map_add, h1, sum_indicator_range, if_pos (by omega), List.length_cons]

theorem occs_sum_of_counts (P occs : List Nat) (hrk : ∀ r ∈ P, 1 ≤ r ∧ r ≤ occs.length)
    (hcnt : ∀ c (h : c < occs.length), occs[c] = P.countP (fun x => decide (x = c + 1))) :
    occs.sum = P.length := by
  have e : occs = (List.range occs.length).map
      (fun c => P.countP (fun x => decide (x = c + 1))) := by
    apply List.ext_getElem
    · simp
    · intro j h1 h2
      rw [List.getElem_map, List.getElem_range]
      exact hcnt j h1
  rw [e]
  have := counts_sum occs.length P hrk
  simpa using this

theorem bw_perm_of_perm (P SA0 : List Nat) (hperm : SA0.Perm (List.range (P.length + 1))) :
    (SA0.map (bw_sym (P ++ [0]))).Perm (0 :: P) := by
  have h := hperm.map (bw_sym (P ++ [0]))
  rw [map_bw_sym_range] at h
  exact h

/-- What the fill loop needs of the cursors `F` and the symbols: every symbol has a cursor, the
buckets fit into `ilist`, and every bucket ends where the later ones start. -/
theorem fill_conditions (P occs SA0 : List Nat) (hn : 1 ≤ P.length)
    (hrk : ∀ r ∈ P, 1 ≤ r ∧ r ≤ occs.length)
    (hcnt : ∀ c (h : c < occs.length), occs[c] = P.countP (fun x => decide (x = c + 1)))
    (hperm : SA0.Perm (List.range (P.length + 1))) :
    1 ≤ occs.length ∧ (SA0.map (bw_sym (P ++ [0]))).length = P.length + 1 ∧
    (∀ x ∈ SA0.map (bw_sym (P ++ [0])), x < (F_after occs occs.length).length) ∧
    (∀ c, c < (F_after occs occs.length).length →
      (F_after occs occs.length).getD c 0 +
        (SA0.map (bw_sym (P ++ [0]))).countP (fun x => decide (x = c)) ≤
        (SA0.map (bw_sym (P ++ [0]))).length) ∧
    (∀ c c1, c < c1 → c1 < (F_after occs occs.length).length →
      (F_after occs occs.length).getD c 0 +
        (SA0.map (bw_sym (P ++ [0]))).countP (fun x => decide (x = c)) ≤
        (F_after occs occs.length).getD c1 0) := by
  have hD : 1 ≤ occs.length := by
    have h0 : 0 < P.length := by omega
    have := hrk P[0] (List.getElem_mem h0)
    omega
  have hlen : (SA0.map (bw_sym (P ++ [0]))).length = P.length + 1 := by
    rw [List.length_map, hperm.length_eq, List.length_range]
  have hbw := bw_perm_of_perm P SA0 hperm
  have hsum := occs_sum_of_counts P occs hrk hcnt
  have hcount : ∀ c, (SA0.map (bw_sym (P ++ [0]))).countP (fun x => decide (x = c)) =
      (if c = 0 then 1 else 0) + P.countP (fun x => decide (x = c)) := by
    intro c
    rw [hbw.countP_eq, List.countP_cons]
    by_cases hc : c = 0
    · subst hc; simp; omega
    · have hc1 : ¬ 0 = c := fun h => hc h.symm
      simp [hc, hc1]
  have hzero : P.countP (fun x => decide (x = 0)) = 0 := by
    rw [List.countP_eq_zero]
    intro x hx
    have := (hrk x hx).1
    simp only [decide_eq_true_eq]
    omega
  have hcntc : ∀ c, 1 ≤ c → c ≤ occs.length →
      (occs.take (c - 1)).sum + P.countP (fun x => decide (x = c)) = (occs.take c).sum := by
    intro c hc1 hc2
    have h1 := sum_take_succ' occs (c - 1) (by omega)
    have e : c - 1 + 1 = c := by omega
    rw [e] at h1
    have h2 := hcnt (c - 1) (by omega)
    have h3 : P.countP (fun x => decide (x = c - 1 + 1)) =
        P.countP (fun x => decide (x = c)) := by rw [e]
    omega
  refine ⟨hD, hlen, ?_, ?_, ?_⟩
  · intro x hx
    rw [F_after_length]
    rcases List.mem_cons.mp (hbw.mem_iff.mp hx) with h | h
    · omega
    · have := (hrk x h).2
      omega
  · intro c hc
    rw [F_after_length] at hc
    rw [hlen, hcount, F_after_getD occs c (by omega)]
    by_cases h0 : c = 0
    · rw [if_pos h0, if_pos h0, h0, hzero]
      omega
    · rw [if_neg h0, if_neg h0]
      have := hcntc c (by omega) (by omega)
      have h2 := sum_take_le occs c
      omega
  · intro c c1 hlt hc1
    rw [F_after_length] at hc1
    rw [hcount, F_after_getD occs c (by omega), F_after_getD occs c1 (by omega)]
    rw [if_neg (by omega : ¬ c1 = 0)]
    by_cases h0 : c = 0
    · rw [if_pos h0, if_pos h0, h0, hzero]
      omega
    · rw [if_neg h0, if_neg h0]
      have := hcntc c (by omega) (by omega)
      have h2 := sum_take_mono occs c (c1 - 1) (by omega)
      omega

/-- The fill loop on the BWT symbols of a ranked parse: it completes and leaves a permutation
of the rows in bucket order. -/
theorem ilist_fill_spec (P occs SA0 : List Nat) (hn : 1 ≤ P.length)
    (hrk : ∀ r ∈ P, 1 ≤ r ∧ r ≤ occs.length)
    (hcnt : ∀ c (h : c < occs.length), occs[c] = P.countP (fun x => decide (x = c + 1)))
    (hperm : SA0.Perm (List.range (P.length + 1))) :
    ∃ F1 il, build_F occs = .ok (F_after occs occs.length) ∧
      (List.range' 0 (P.length + 1)).foldlM (ilist_row (SA0.map (bw_sym (P ++ [0]))))
        (F_after occs occs.length, List.replicate (P.length + 1) 0) = .ok (F1, il) ∧
      il.length = P.length + 1 ∧ il.Perm (List.range (P.length + 1)) ∧
      il.Pairwise (row_lt (SA0.map (bw_sym (P ++ [0])))) := by
  obtain ⟨hD, hlen, hsym, hroom, hsep⟩ := fill_conditions P occs SA0 hn hrk hcnt hperm
  obtain ⟨F1, il, h1, h2, h3, h4⟩ := fill_result (SA0.map (bw_sym (P ++ [0])))
    (F_after occs occs.length) hsym hroom hsep
  rw [hlen] at h1 h2 h3
  exact ⟨F1, il, build_F_spec occs hD, h1, h2, h3, h4⟩

/-- A run of `bwt_finish` that reaches the sink hands over the symbols and the list of the
loops. -/
theorem bwt_finish_ilist (st : Parser) (P SA0 : List Nat) (out : BwtOut)
    (hT : st.parse_ranks = P ++ [0]) (hn : 1 ≤ P.length) (hD : 1 ≤ st.occs.length)
    (hperm : SA0.Perm (List.range (P.length + 1)))
    (hout : bwt_finish st P.length SA0 = .ok out) :
    out.SA = SA0.map (bw_sym (P ++ [0])) ∧
    ∃ F1, (List.range' 0 (P.length + 1)).foldlM (ilist_row (SA0.map (bw_sym (P ++ [0]))))
      (F_after st.occs st.occs.length, List.replicate (P.length + 1) 0) = .ok (F1, out.ilist) := by
  obtain ⟨r0, F, F1, h0, hr0, hfold, hbuild, hfill, _⟩ := bwt_finish_inv st P.length SA0 out hout
  have hSAlen : SA0.length = P.length + 1 := by rw [hperm.length_eq, List.length_range]
  have hrange : ∀ j ∈ SA0, j < st.parse_ranks.length + 1 := by
    intro j hj
    have := List.mem_range.mp (hperm.mem_iff.mp hj)
    rw [hT]; simp; omega
  rw [size_sub_of_le (by omega)] at hr0
  obtain ⟨bl, bs, hspec⟩ := bwt_fold_spec st P.length SA0 hSAlen hrange P.length 1 (by omega)
    [(st.last[size_sub P.length 2]?).join]
    (if st.params.get_sai = true then [st.sai[size_sub P.length 1]?] else [])
  rw [← SA_at_first st.parse_ranks SA0 P.length hSAlen hn h0 r0 hr0, hfold] at hspec
  simp only [Except.ok.injEq, Prod.mk.injEq] at hspec
  have hSA : out.SA = SA0.map (bw_sym (P ++ [0])) := by rw [hspec.1, hT]
  rw [build_F_spec st.occs hD] at hbuild
  simp only [Except.ok.injEq] at hbuild
  rw [← hbuild, hSA] at hfill
  exact ⟨hSA, F1, hfill⟩

theorem map_at_mem (m : FreqMap) (k : List Nat) (f : Freq) (h : map_at m k = some f) :
    ∃ e ∈ m, e.2 = f := by
  unfold map_at at h
  cases hf : m.find? (fun e => e.1 == k) with
  | none => rw [hf] at h; cases h
  | some e =>
    rw [hf] at h
    simp only [Option.map_some', Option.some.injEq] at h
    exact ⟨e, List.mem_of_find?_eq_some hf, h⟩

theorem update_dict_loop_occs_pos :
    ∀ (xs : List (List Nat)) (rank : Nat) (freqs : FreqMap) (occs : List Nat)
      (out : List (List Nat × Nat)) (r : FreqMap × List Nat × List (List Nat × Nat)),
      (∀ e ∈ freqs, 1 ≤ e.2.n) → (∀ x ∈ occs, 1 ≤ x) →
      update_dict_loop xs rank freqs occs out = .ok r → ∀ x ∈ r.2.1, 1 ≤ x := by
  intro xs
  induction xs with
  | nil =>
    intro _ _ occs _ r _ ho h
    simp only [update_dict_loop, Except.ok.injEq] at h
    rw [← h]
    exact ho
  | cons y ys ih =>
    intro rank freqs occs out r hf ho h
    simp only [update_dict_loop] at h
    cases hm : map_at freqs (cstr y) with
    | none => rw [hm] at h; cases h
    | some wf =>
      rw [hm] at h
      obtain ⟨e, he, hew⟩ := map_at_mem freqs (cstr y) wf hm
      refine ih _ _ _ _ r ?_ ?_ h
      · intro e1 he1
        have hmap := map_modify_n (cstr y) (fun f => { f with r := rank }) (fun _ => rfl) freqs
        have h1 : e1.2.n ∈ (map_modify (cstr y) (fun f => { f with r := rank }) freqs).map
            (fun e => e.2.n) := List.mem_map.mpr ⟨e1, he1, rfl⟩
        rw [hmap] at h1
        obtain ⟨e2, he2, h2⟩ := List.mem_map.mp h1
        rw [← h2]
        exact hf e2 he2
      · intro x hx
        rcases List.mem_append.mp hx with hx | hx
        · exact ho x hx
        · rw [List.mem_singleton.mp hx, ← hew]
          exact hf e he

/-- Every entry of `occs` that `update_dict` writes is the frequency of a dictionary phrase, and
so at least 1 when every frequency is. -/
theorem update_dict_occs_pos (st st2 : Parser) (log : List (List Nat × Nat))
    (hf : ∀ e ∈ st.freqs, 1 ≤ e.2.n) (h : update_dict st = .ok (st2, log)) :
    (∀ x ∈ st2.occs, 1 ≤ x) ∧ st2.parse = st.parse := by
  unfold update_dict at h
  simp only at h
  cases hl : update_dict_loop (List.insertionSort (fun l r => strcmp l r ≤ 0)
      (st.freqs.map Prod.fst)) 1 st.freqs [] [] with
  | error e => rw [hl] at h; cases h
  | ok r =>
    rw [hl] at h
    obtain ⟨fr, oc, ou⟩ := r
    simp only [Except.ok.injEq, Prod.mk.injEq] at h
    obtain ⟨h, _⟩ := h
    subst h
    exact ⟨update_dict_loop_occs_pos _ _ _ _ _ _ hf (fun x hx => by cases hx) hl, rfl⟩

theorem generate_parse_ranks_frame (st st3 : Parser) (h : generate_parse_ranks st = .ok st3) :
    st3.occs = st.occs ∧ st3.parse_ranks.length = st.parse.length := by
  unfold generate_parse_ranks at h
  split at h
  · cases h
  · cases hl : parse_ranks_loop st.freqs st.parse [] with
    | error e => rw [hl] at h; cases h
    | ok ranks =>
      rw [hl] at h
      simp only [Except.ok.injEq] at h
      subst h
      refine ⟨rfl, ?_⟩
      have := parse_ranks_loop_length _ _ _ _ hl
      simpa using this

/-- The cursor array and the fill loop when every count is at least 1: for a ranked parse `P` of
at least one symbol with all its ranks in `1..D`, `occs[r-1]` the number of occurrences of rank
`r` in `P` and at least 1 for every `r` in `1..D`, and `SA0` a permutation of `0..n`, the array
`F` is strictly increasing, the fill loop completes, and `ilist` is a permutation of `0..n` in
bucket order. -/
theorem ilist_fill_buckets (P occs SA0 : List Nat) (hn : 1 ≤ P.length)
    (hrk : ∀ r ∈ P, 1 ≤ r ∧ r ≤ occs.length)
    (hcnt : ∀ c (h : c < occs.length), occs[c] = P.countP (fun x => decide (x = c + 1)))
    (hpos : ∀ c (h : c < occs.length), 1 ≤ occs[c])
    (hperm : SA0.Perm (List.range (P.length + 1))) :
    ∃ F F1 ilist,
      build_F occs = .ok F ∧ F.Pairwise (fun a b => a < b) ∧
      (List.range' 0 (P.length + 1)).foldlM (ilist_row (SA0.map (bw_sym (P ++ [0]))))
        (F, List.replicate (P.length + 1) 0) = .ok (F1, ilist) ∧
      ilist.length = P.length + 1 ∧ ilist.Perm (List.range (P.length + 1)) ∧
      ilist.Pairwise (fun a b =>
        (SA0.map (bw_sym (P ++ [0]))).getD a 0 < (SA0.map (bw_sym (P ++ [0]))).getD b 0 ∨
        ((SA0.map (bw_sym (P ++ [0]))).getD a 0 = (SA0.map (bw_sym (P ++ [0]))).getD b 0 ∧
          a < b)) ∧
      ∀ (st : Parser) (out : BwtOut), st.parse_ranks = P ++ [0] → st.occs = occs →
        bwt_finish st P.length SA0 = .ok out →
        out.SA = SA0.map (bw_sym (P ++ [0])) ∧ out.ilist = ilist := by
  obtain ⟨F1, il, h1, h2, h3, h4, h5⟩ := ilist_fill_spec P occs SA0 hn hrk hcnt hperm
  have hD : 1 ≤ occs.length := (fill_conditions P occs SA0 hn hrk hcnt hperm).1
  refine ⟨_, F1, il, h1, ?_, h2, h3, h4, h5, ?_⟩
  · rw [List.pairwise_iff_getElem]
    intro i j hi hj hij
    rw [F_after_length] at hi hj
    rw [← List.getD_eq_getElem _ 0 (by rw [F_after_length]; omega),
      ← List.getD_eq_getElem _ 0 (by rw [F_after_length]; omega),
      F_after_getD occs i (by omega), F_after_getD occs j (by omega)]
    rw [if_neg (by omega : ¬ j = 0)]
    by_cases h0 : i = 0
    · rw [if_pos h0]; omega
    · rw [if_neg h0]
      have h6 := sum_take_succ' occs (i - 1) (by omega)
      have e : i - 1 + 1 = i := by omega
      rw [e] at h6
      have h7 := hpos (i - 1) (by omega)
      have h8 := sum_take_mono occs i (j - 1) (by omega)
      omega
  · intro st out hT hocc hout
    obtain ⟨hSA, F2, hfill⟩ := bwt_finish_ilist st P SA0 out hT hn (by rw [hocc]; exact hD)
      hperm hout
    refine ⟨hSA, ?_⟩
    rw [hocc, h2] at hfill
    simp only [Except.ok.injEq, Prod.mk.injEq] at hfill
    exact hfill.2.symm


/-- C19: in `bwt_of_parse` on a fresh parser taken through `parse_fasta`, `update_dict` and
`generate_parse_ranks`, when every rank of the ranked parse `P` (`n` symbols, before the
sentinel) lies in `1..D`, `occs[r-1]` is the number of occurrences of rank `r` in `P` for every
`r` in `1..D`, and `SA0` is a permutation of `0..n`: the cursor array `F` is built and is
strictly increasing, every entry of `occs` being the frequency of a dictionary phrase and so at
least 1; the fill loop completes, so every write lands inside `ilist`; and `ilist` has `n + 1`
entries, is a permutation of `0..n`, and lists the rows by BWT symbol (0 first, then the ranks
in increasing order), in ascending row order inside a symbol. A run that reaches the sink hands
over this `ilist`. -/
theorem ilist_bucket_order (B : Build) (H : Hasher) (params : ParserParams) (input : List Record)
    (st0 st1 : Parser) (n1 : Nat) (st2 : Parser) (log : List (List Nat × Nat)) (st3 : Parser)
    (SA0 : List Nat)
    (h0 : Parser.new params = .ok st0) (h1 : parse_fasta B H st0 input = .ok (st1, n1))
    (h2 : update_dict st1 = .ok (st2, log)) (h3 : generate_parse_ranks st2 = .ok st3)
    (hrk : ∀ r ∈ st3.parse_ranks, 1 ≤ r ∧ r ≤ st3.occs.length)
    (hcnt : ∀ c (h : c < st3.occs.length),
      st3.occs[c] = st3.parse_ranks.countP (fun x => decide (x = c + 1)))
    (hperm : SA0.Perm (List.range (st3.parse_ranks.length + 1))) :
    ∃ F F1 ilist,
      build_F st3.occs = .ok F ∧ F.Pairwise (fun a b => a < b) ∧
      (List.range' 0 (st3.parse_ranks.length + 1)).foldlM
        (ilist_row (SA0.map (bw_sym (st3.parse_ranks ++ [0]))))
        (F, List.replicate (st3.parse_ranks.length + 1) 0) = .ok (F1, ilist) ∧
      ilist.length = st3.parse_ranks.length + 1 ∧
      ilist.Perm (List.range (st3.parse_ranks.length + 1)) ∧
      ilist.Pairwise (fun a b =>
        (SA0.map (bw_sym (st3.parse_ranks ++ [0]))).getD a 0 <
          (SA0.map (bw_sym (st3.parse_ranks ++ [0]))).getD b 0 ∨
        ((SA0.map (bw_sym (st3.parse_ranks ++ [0]))).getD a 0 =
          (SA0.map (bw_sym (st3.parse_ranks ++ [0]))).getD b 0 ∧ a < b)) ∧
      ∀ (st : Parser) (out : BwtOut), st.parse_ranks = st3.parse_ranks ++ [0] →
        st.occs = st3.occs → bwt_finish st st3.parse_ranks.length SA0 = .ok out →
        out.SA = SA0.map (bw_sym (st3.parse_ranks ++ [0])) ∧ out.ilist = ilist := by
  obtain ⟨rfl, _⟩ := Parser_new_ok params st0 h0
  have h1t := parse_fasta_refines B H _ input _ h1
  have hd := parse_fasta_dict B H params input st1 n1 h1t
  have hne := parse_fasta_parse_ne_nil B H _ input st1 n1 h1t
  obtain ⟨hocc, hpar⟩ := update_dict_occs_pos st1 st2 log (fun e he => (hd.2.1 e he).2) h2
  obtain ⟨e1, e2⟩ := generate_parse_ranks_frame st2 st3 h3
  have hn : 1 ≤ st3.parse_ranks.length := by
    rw [e2, hpar]
    exact List.length_pos.mpr hne
  exact ilist_fill_buckets st3.parse_ranks st3.occs SA0 hn hrk hcnt
    (fun c h => hocc _ (e1 ▸ List.getElem_mem h)) hperm

/-- The list `ilist` on the ranked parse of `ACGTACGTACGT` and its suffix array. -/
theorem ilist_bucket_order_witness :
    ∃ F F1 ilist,
      build_F [1, 3, 1, 2] = .ok F ∧ F.Pairwise (fun a b => a < b) ∧
      (List.range' 0 ([1, 2, 4, 2, 4, 2, 3].length + 1)).foldlM
        (ilist_row ([7, 0, 5, 3, 1, 6, 4, 2].map (bw_sym ([1, 2, 4, 2, 4, 2, 3] ++ [0]))))
        (F, List.replicate ([1, 2, 4, 2, 4, 2, 3].length + 1) 0) = .ok (F1, ilist) ∧
      ilist.length = [1, 2, 4, 2, 4, 2, 3].length + 1 ∧
      ilist.Perm (List.range ([1, 2, 4, 2, 4, 2, 3].length + 1)) ∧
      ilist.Pairwise (fun a b =>
        ([7, 0, 5, 3, 1, 6, 4, 2].map (bw_sym ([1, 2, 4, 2, 4, 2, 3] ++ [0]))).getD a 0 <
          ([7, 0, 5, 3, 1, 6, 4, 2].map (bw_sym ([1, 2, 4, 2, 4, 2, 3] ++ [0]))).getD b 0 ∨
        (([7, 0, 5, 3, 1, 6, 4, 2].map (bw_sym ([1, 2, 4, 2, 4, 2, 3] ++ [0]))).getD a 0 =
          ([7, 0, 5, 3, 1, 6, 4, 2].map (bw_sym ([1, 2, 4, 2, 4, 2, 3] ++ [0]))).getD b 0 ∧
          a < b)) ∧
      ∀ (st : Parser) (out : BwtOut), st.parse_ranks = [1, 2, 4, 2, 4, 2, 3] ++ [0] →
        st.occs = [1, 3, 1, 2] →
        bwt_finish st [1, 2, 4, 2, 4, 2, 3].length [7, 0, 5, 3, 1, 6, 4, 2] = .ok out →
        out.SA = [7, 0, 5, 3, 1, 6, 4, 2].map (bw_sym ([1, 2, 4, 2, 4, 2, 3] ++ [0])) ∧
          out.ilist = ilist :=
  ilist_bucket_order demoBuild demoHasher { w := 2, p := 3 }
    [⟨"r", [65, 67, 71, 84, 65, 67, 71, 84, 65, 67, 71, 84]⟩] { params := { w := 2, p := 3 } }
    demoParsed 12 demoDict
    [([2, 65, 67], 1), ([65, 67, 71], 3), ([67, 71, 84, 2, 2], 1), ([67, 71, 84, 65, 67], 2)]
    demoRanked [7, 0, 5, 3, 1, 6, 4, 2] rfl rfl rfl rfl (by decide) (by decide) (by decide)

/-! ### ilist and the LF-mapping -/

theorem row_of_lt (v : Nat) (l : List Nat) (h : v ∈ l) : row_of v l < l.length := by
  induction l with
  | nil => cases h
  | cons x xs ih =>
    unfold row_of
    by_cases hx : x = v
    · rw [if_pos hx]; simp
    · rw [if_neg hx]
      have : v ∈ xs := by
        rcases List.mem_cons.mp h with h1 | h1
        · exact absurd h1.symm hx
        · exact h1
      have := ih this
      simp only [List.length_cons]
      omega

theorem getD_row_of (v : Nat) (l : List Nat) (h : v ∈ l) : l.getD (row_of v l) 0 = v := by
  induction l with
  | nil => cases h
  | cons x xs ih =>
    unfold row_of
    by_cases hx : x = v
    · rw [if_pos hx]; simpa using hx
    · rw [if_neg hx]
      have : v ∈ xs := by
        rcases List.mem_cons.mp h with h1 | h1
        · exact absurd h1.symm hx
        · exact h1
      simpa using ih this

/-- A strictly increasing map of `0..m-1` into itself is the identity. -/
theorem strict_mono_id (m : Nat) (f : Nat → Nat)
    (hmono : ∀ a b, a < b → b < m → f a < f b) (hb : ∀ a, a < m → f a < m) :
    ∀ q, q < m → f q = q := by
  have lower : ∀ q, q < m → q ≤ f q := by
    intro q
    induction q with
    | zero => intro _; omega
    | succ q ih =>
      intro hq
      have := ih (by omega)
      have := hmono q (q + 1) (by omega) hq
      omega
  have upper : ∀ d q, q + d + 1 = m → f q ≤ q := by
    intro d
    induction d with
    | zero =>
      intro q hq
      have := hb q (by omega)
      omega
    | succ d ih =>
      intro q hq
      have := ih (q + 1) (by omega)
      have := hmono q (q + 1) (by omega) (by omega)
      omega
  intro q hq
  have h1 := lower q hq
  have h2 := upper (m - 1 - q) q (by omega)
  omega

theorem bw_sym_eq_zero (P : List Nat) (hpos : ∀ r ∈ P, 1 ≤ r) (v : Nat) (hv : v < P.length + 1) :
    bw_sym (P ++ [0]) v = 0 ↔ v = 0 := by
  unfold bw_sym
  by_cases h0 : v = 0
  · simp [h0]
  · rw [if_neg h0]
    have hl : v - 1 < P.length := by omega
    rw [List.getD_eq_getElem _ _ (by simp; omega), List.getElem_append_left hl]
    have := hpos _ (List.getElem_mem hl)
    constructor
    · intro h; omega
    · intro h; exact absurd h h0

/-- The suffix that starts one position before `v`, cyclically, is the BWT symbol of `v`
followed by the suffix at `v`. -/
theorem drop_pred_pos (P : List Nat) (v : Nat) (hv : v < P.length + 1) :
    (P ++ [0]).drop (pred_pos P.length v) =
      bw_sym (P ++ [0]) v :: (if v = 0 then [] else (P ++ [0]).drop v) := by
  unfold pred_pos bw_sym
  by_cases h0 : v = 0
  · rw [if_pos h0, if_pos h0, if_pos h0, List.drop_left]
  · rw [if_neg h0, if_neg h0, if_neg h0]
    have hl : v - 1 < (P ++ [0]).length := by simp; omega
    rw [List.drop_eq_getElem_cons hl, List.getD_eq_getElem _ _ hl]
    have e : v - 1 + 1 = v := by omega
    rw [e]

/-- Rows in bucket order have their preceding suffixes in ascending order. -/
theorem suffix_pred_lt (P SA0 : List Nat) (hpos : ∀ r ∈ P, 1 ≤ r)
    (hSA : IsSuffixArray (P ++ [0]) SA0) (a b : Nat) (ha : a < SA0.length) (hb : b < SA0.length)
    (h : row_lt (SA0.map (bw_sym (P ++ [0]))) a b) :
    (P ++ [0]).drop (pred_pos P.length (SA0.getD a 0)) <
      (P ++ [0]).drop (pred_pos P.length (SA0.getD b 0)) := by
  have hlen : SA0.length = P.length + 1 := by rw [hSA.length_eq]; simp
  have hva : SA0.getD a 0 < P.length + 1 := by
    rw [List.getD_eq_getElem _ _ ha]
    have := (hSA.mem_iff SA0[a]).mp (List.getElem_mem ha)
    simpa using this
  have hvb : SA0.getD b 0 < P.length + 1 := by
    rw [List.getD_eq_getElem _ _ hb]
    have := (hSA.mem_iff SA0[b]).mp (List.getElem_mem hb)
    simpa using this
  have hBa : (SA0.map (bw_sym (P ++ [0]))).getD a 0 = bw_sym (P ++ [0]) (SA0.getD a 0) := by
    rw [List.getD_eq_getElem _ _ (by simpa using ha), List.getElem_map,
      List.getD_eq_getElem _ _ ha]
  have hBb : (SA0.map (bw_sym (P ++ [0]))).getD b 0 = bw_sym (P ++ [0]) (SA0.getD b 0) := by
    rw [List.getD_eq_getElem _ _ (by simpa using hb), List.getElem_map,
      List.getD_eq_getElem _ _ hb]
  rw [drop_pred_pos P _ hva, drop_pred_pos P _ hvb]
  unfold row_lt at h
  rw [hBa, hBb] at h
  rcases h with h | ⟨h1, h2⟩
  · exact List.Lex.rel h
  · rw [h1]
    have hsort := List.pairwise_iff_getElem.mp hSA.2 a b ha hb h2
    rw [← List.getD_eq_getElem _ 0 ha, ← List.getD_eq_getElem _ 0 hb] at hsort
    have hne : SA0.getD a 0 ≠ SA0.getD b 0 := by
      intro heq
      rw [heq] at hsort
      exact lt_irrefl _ hsort
    have hza : SA0.getD a 0 ≠ 0 := by
      intro hz
      have h3 := (bw_sym_eq_zero P hpos _ hva).mpr hz
      rw [h1] at h3
      have := (bw_sym_eq_zero P hpos _ hvb).mp h3
      exact hne (hz.trans this.symm)
    have hzb : SA0.getD b 0 ≠ 0 := by
      intro hz
      have h3 := (bw_sym_eq_zero P hpos _ hvb).mpr hz
      rw [← h1] at h3
      have := (bw_sym_eq_zero P hpos _ hva).mp h3
      exact hne (this.trans hz.symm)
    rw [if_neg hza, if_neg hzb]
    exact List.Lex.cons hsort

/-- In a suffix array, a smaller suffix stands in an earlier row. -/
theorem row_lt_of_suffix_lt (T SA0 : List Nat) (hSA : IsSuffixArray T SA0) (p1 p2 : Nat)
    (h1 : p1 < SA0.length) (h2 : p2 < SA0.length)
    (h : T.drop (SA0.getD p1 0) < T.drop (SA0.getD p2 0)) : p1 < p2 := by
  rw [List.getD_eq_getElem _ _ h1, List.getD_eq_getElem _ _ h2] at h
  by_contra hc
  rcases Nat.lt_or_ge p2 p1 with h3 | h3
  · have := List.pairwise_iff_getElem.mp hSA.2 p2 p1 h2 h1 h3
    exact lt_asymm h this
  · have e : p1 = p2 := by omega
    subst e
    exact lt_irrefl _ h

/-- A list of rows in bucket order inverts the LF-mapping of the suffix array. -/
theorem lf_of_bucket_order (P SA0 il : List Nat) (hpos : ∀ r ∈ P, 1 ≤ r)
    (hSA : IsSuffixArray (P ++ [0]) SA0) (hlen : il.length = P.length + 1)
    (hperm : il.Perm (List.range (P.length + 1)))
    (hsorted : il.Pairwise (row_lt (SA0.map (bw_sym (P ++ [0]))))) :
    ∀ j, j ≤ P.length →
      SA0.getD (il.getD j 0) 0 = (SA0.getD j 0 + 1) % (P.length + 1) := by
  have hSAlen : SA0.length = P.length + 1 := by rw [hSA.length_eq]; simp
  have hil : ∀ q, q < P.length + 1 → il.getD q 0 < P.length + 1 := by
    intro q hq
    rw [List.getD_eq_getElem _ _ (by omega)]
    exact List.mem_range.mp (hperm.mem_iff.mp (List.getElem_mem _))
  have hval : ∀ r, r < P.length + 1 → SA0.getD r 0 < P.length + 1 := by
    intro r hr
    rw [List.getD_eq_getElem _ _ (by omega)]
    have := (hSA.mem_iff SA0[r]).mp (List.getElem_mem _)
    simpa using this
  have hpred : ∀ v, v < P.length + 1 → pred_pos P.length v < P.length + 1 := by
    intro v hv
    unfold pred_pos
    split <;> omega
  have hmemSA : ∀ v, v < P.length + 1 → v ∈ SA0 := by
    intro v hv
    exact (hSA.mem_iff v).mpr (by simpa using hv)
  have key := strict_mono_id (P.length + 1)
    (fun q => row_of (pred_pos P.length (SA0.getD (il.getD q 0) 0)) SA0)
    (by
      intro a b hab hb
      simp only
      have ha : a < P.length + 1 := by omega
      have hrow := List.pairwise_iff_getElem.mp hsorted a b (by omega) (by omega) hab
      rw [← List.getD_eq_getElem _ 0 (by omega), ← List.getD_eq_getElem _ 0 (by omega)] at hrow
      have hlt := suffix_pred_lt P SA0 hpos hSA _ _ (by rw [hSAlen]; exact hil a ha)
        (by rw [hSAlen]; exact hil b hb) hrow
      have hma := hmemSA _ (hpred _ (hval _ (hil a ha)))
      have hmb := hmemSA _ (hpred _ (hval _ (hil b hb)))
      apply row_lt_of_suffix_lt (P ++ [0]) SA0 hSA _ _ (row_of_lt _ _ hma) (row_of_lt _ _ hmb)
      rw [getD_row_of _ _ hma, getD_row_of _ _ hmb]
      exact hlt)
    (by
      intro a ha
      simp only
      have hma := hmemSA _ (hpred _ (hval _ (hil a ha)))
      have := row_of_lt _ _ hma
      omega)
  intro j hj
  have hk := key j (by omega)
  simp only at hk
  have hm := hmemSA _ (hpred _ (hval _ (hil j (by omega))))
  have hg := getD_row_of _ _ hm
  rw [hk] at hg
  have hv := hval _ (hil j (by omega))
  rw [hg]
  unfold pred_pos
  by_cases h0 : SA0.getD (il.getD j 0) 0 = 0
  · rw [if_pos h0, h0, Nat.mod_self]
  · rw [if_neg h0]
    have e : SA0.getD (il.getD j 0) 0 - 1 + 1 = SA0.getD (il.getD j 0) 0 := by omega
    rw [e, Nat.mod_eq_of_lt hv]

/-- C20: for a ranked parse `P` of at least one symbol with all ranks in `1..D`, followed by
the sentinel 0, `occs` the occurrence counts of the ranks, and `SA0` the suffix array of the
ranked parse with its sentinel: the cursor array is built, the fill loop completes, and the
`ilist` it leaves satisfies `SA0[ilist[j]] = (SA0[j] + 1) mod (n + 1)` for every `j` in `0..n`;
a run that reaches the sink hands over this `ilist`. -/
theorem ilist_inverts_lf (P occs SA0 : List Nat) (hn : 1 ≤ P.length)
    (hrk : ∀ r ∈ P, 1 ≤ r ∧ r ≤ occs.length)
    (hcnt : ∀ c (h : c < occs.length), occs[c] = P.countP (fun x => decide (x = c + 1)))
    (hSA : IsSuffixArray (P ++ [0]) SA0) :
    ∃ F F1 ilist,
      build_F occs = .ok F ∧
      (List.range' 0 (P.length + 1)).foldlM (ilist_row (SA0.map (bw_sym (P ++ [0]))))
        (F, List.replicate (P.length + 1) 0) = .ok (F1, ilist) ∧
      (∀ j, j ≤ P.length → ∃ i a b, ilist[j]? = some i ∧ SA0[i]? = some a ∧
        SA0[j]? = some b ∧ a = (b + 1) % (P.length + 1)) ∧
      ∀ (st : Parser) (out : BwtOut), st.parse_ranks = P ++ [0] → st.occs = occs →
        bwt_finish st P.length SA0 = .ok out → out.ilist = ilist := by
  have hperm : SA0.Perm (List.range (P.length + 1)) := by
    have := hSA.1
    simpa using this
  obtain ⟨F1, il, h1, h2, h3, h4, h5⟩ := ilist_fill_spec P occs SA0 hn hrk hcnt hperm
  have hD : 1 ≤ occs.length := (fill_conditions P occs SA0 hn hrk hcnt hperm).1
  have hSAlen : SA0.length = P.length + 1 := by rw [hSA.length_eq]; simp
  have hlf := lf_of_bucket_order P SA0 il (fun r hr => (hrk r hr).1) hSA h3 h4 h5
  refine ⟨_, F1, il, h1, h2, ?_, ?_⟩
  · intro j hj
    have hj1 : j < il.length := by omega
    have hi : il[j] < SA0.length := by
      rw [hSAlen]
      exact List.mem_range.mp (h4.mem_iff.mp (List.getElem_mem _))
    have hj2 : j < SA0.length := by omega
    refine ⟨il[j], SA0[il[j]], SA0[j], List.getElem?_eq_getElem hj1,
      List.getElem?_eq_getElem hi, List.getElem?_eq_getElem hj2, ?_⟩
    have := hlf j hj
    rw [List.getD_eq_getElem il 0 hj1, List.getD_eq_getElem SA0 0 hi,
      List.getD_eq_getElem SA0 0 hj2] at this
    exact this
  · intro st out hT hocc hout
    obtain ⟨_, F2, hfill⟩ := bwt_finish_ilist st P SA0 out hT hn (by rw [hocc]; exact hD)
      hperm hout
    rw [hocc, h2] at hfill
    simp only [Except.ok.injEq, Prod.mk.injEq] at hfill
    exact hfill.2.symm

/-- The LF-mapping on the ranked parse of `ACGTACGTACGT` and its suffix array. -/
theorem ilist_inverts_lf_witness :
    ∃ F F1 ilist,
      build_F [1, 3, 1, 2] = .ok F ∧
      (List.range' 0 ([1, 2, 4, 2, 4, 2, 3].length + 1)).foldlM
        (ilist_row ([7, 0, 5, 3, 1, 6, 4, 2].map (bw_sym ([1, 2, 4, 2, 4, 2, 3] ++ [0]))))
        (F, List.replicate ([1, 2, 4, 2, 4, 2, 3].length + 1) 0) = .ok (F1, ilist) ∧
      (∀ j, j ≤ [1, 2, 4, 2, 4, 2, 3].length → ∃ i a b, ilist[j]? = some i ∧
        [7, 0, 5, 3, 1, 6, 4, 2][i]? = some a ∧ [7, 0, 5, 3, 1, 6, 4, 2][j]? = some b ∧
        a = (b + 1) % ([1, 2, 4, 2, 4, 2, 3].length + 1)) ∧
      ∀ (st : Parser) (out : BwtOut), st.parse_ranks = [1, 2, 4, 2, 4, 2, 3] ++ [0] →
        st.occs = [1, 3, 1, 2] →
        bwt_finish st [1, 2, 4, 2, 4, 2, 3].length [7, 0, 5, 3, 1, 6, 4, 2] = .ok out →
        out.ilist = ilist :=
  ilist_inverts_lf [1, 2, 4, 2, 4, 2, 3] [1, 3, 1, 2] [7, 0, 5, 3, 1, 6, 4, 2] (by decide)
    (by decide) (by decide) (by decide)

end pfbwtf
